import Mathlib

/-! Expression compiler of `src/parse.js`: embedding and verified properties.

The development follows the source file top to bottom:

* the values the generated evaluators work on, and the heap of host objects;
* the AST produced by the external grammar;
* the three safety guards (`ensureSafeMemberName`, `ensureSafeObject`,
  `ensureSafeFunction`);
* the classifier `markConstantAndWatchExpressions`;
* the code generator `ASTCompiler.recurse` / `ASTCompiler.compile`, which emits a
  small program, and the meaning of the emitted program;
* the facade `parse`, which selects the watch delegate.

A `Program` nested inside an expression is not produced by the grammar; the model
is total on it all the same. The text of a literal and of an object key, which the
compiler splices as the grammar delivers it, is taken to denote the value it stands for.
Host objects are seen through the members a property read finds on them; getters are
not modelled, and a primitive exposes no member. Numbers are the integers, without the
rounding of doubles. An object used as a property key or as an operand of `+` is taken
to turn into `[object Object]`: arrays and objects that bring their own `toString` are
outside the model.
-/

namespace Parse

/-! ## Values -/

/-- Values of the host language that the evaluators can observe. Numbers are kept to
the integers plus `NaN`; `ref a` is the object (plain object, array or function) stored
at address `a` of the heap. -/
inductive Val where
  | undefined
  | null
  | bool (b : Bool)
  | num (n : Int)
  | nan
  | str (s : String)
  | ref (a : Nat)
deriving DecidableEq, Repr, Inhabited

/-- What a `throw` of the embedded code carries: the guards throw a string (a
security violation), the host language itself raises the other three. -/
inductive Thrown where
  | SecurityViolation (message : String)
  | TypeError
  | SyntaxError
  | ReferenceError
deriving DecidableEq, Repr, Inhabited

/-- A host object as the guards and the evaluators see it: the members that a property
read finds on it (own or inherited), and, for a function, its number in the table of
host functions. -/
structure Obj where
  props : List (String × Val)
  fn : Option Nat
deriving DecidableEq, Repr, Inhabited

/-- The heap: address `a` holds the object `heap[a]`. -/
abbrev Heap := List Obj

/-- Truthiness of a value (`if(v)`, `v && ...`, `!v`). -/
def truthy : Val → Bool
  | .undefined => false
  | .null => false
  | .bool b => b
  | .num n => n != 0
  | .nan => false
  | .str s => s != ""
  | .ref _ => true

/-- Strict equality `===`: identity on references, value equality on primitives,
and `NaN` is different from itself. -/
def strictEq : Val → Val → Bool
  | .nan, _ => false
  | _, .nan => false
  | a, b => a == b

/-- Members of the object at an address; a dangling address has none. -/
def membersAt (h : Heap) (a : Nat) : List (String × Val) :=
  match h.get? a with
  | some o => o.props
  | none => []

/-- First binding of a name in a member list. -/
def lookupMember : List (String × Val) → String → Option Val
  | [], _ => none
  | (k, v) :: rest, name => if k = name then some v else lookupMember rest name

/-- Property read `v.name` on a value that is neither `undefined` nor `null`:
objects answer from their members, primitives expose no members. -/
def getProp (h : Heap) (v : Val) (name : String) : Val :=
  match v with
  | .ref a => (lookupMember (membersAt h a) name).getD .undefined
  | _ => .undefined

/-! ## The AST handed over by the grammar -/

/-- Key of an object-literal property: `key.type === AST.Identifier ? key.name : key.value`. -/
inductive PropKey where
  | Identifier (name : String)
  | Literal (value : Val)
deriving DecidableEq, Repr, Inhabited

/-- AST nodes, one constructor per `AST.*` tag switched on by `recurse` and by
`markConstantAndWatchExpressions`. A truthy `filter` marks a filter call. -/
inductive Node where
  | Program (body : List Node)
  | Literal (value : Val)
  | Identifier (name : String)
  | ThisExpression
  | MemberExpression (object : Node) (property : Node) (computed : Bool)
  | CallExpression (callee : Node) (arguments : List Node) (filter : Bool)
  | AssignmentExpression (left : Node) (right : Node)
  | UnaryExpression (operator : String) (argument : Node)
  | BinaryExpression (operator : String) (left : Node) (right : Node)
  | LogicalExpression (operator : String) (left : Node) (right : Node)
  | ConditionalExpression (test : Node) (consequent : Node) (alternate : Node)
  | ArrayExpression (elements : List Node)
  | ObjectExpression (properties : List (PropKey × Node))
deriving Repr, Inhabited

/-! ## Safety guards -/

/-- The message thrown by `ensureSafeMemberName`. -/
def disallowedField : String :=
  "Attempting to access a disallowed field in Angular expressions!"

/-- `ensureSafeMemberName(name)` for a name that is a value of the host language
(the compiled code passes it whatever the computed property evaluates to). -/
def ensureSafeMemberName (name : Val) : Except Thrown Unit :=
  if strictEq name (.str "constructor") || strictEq name (.str "__proto__") ||
      strictEq name (.str "__defineGetter__") || strictEq name (.str "__defineSetter__") ||
      strictEq name (.str "__lookupGetter__") || strictEq name (.str "__lookupSetter__") then
    .error (.SecurityViolation disallowedField)
  else
    .ok ()

/-- `ensureSafeObject(obj)`. -/
def ensureSafeObject (h : Heap) (obj : Val) : Except Thrown Val :=
  if truthy obj then
    if truthy (getProp h obj "document") && truthy (getProp h obj "location") &&
        truthy (getProp h obj "alert") && truthy (getProp h obj "setInterval") then
      .error (.SecurityViolation "Referencing window in Angular expressions is disallowed")
    else if truthy (getProp h obj "children") &&
        (truthy (getProp h obj "nodeName") ||
          (truthy (getProp h obj "prop") && truthy (getProp h obj "attr") &&
            truthy (getProp h obj "find"))) then
      .error (.SecurityViolation "Referencing DOM nodes in Angular expressions is disallowed")
    else if strictEq (getProp h obj "constructor") obj then
      .error (.SecurityViolation "Referencing Function in Angular expressions is disallowed")
    else if truthy (getProp h obj "getOwnPropertyNames") ||
        truthy (getProp h obj "getOwnPropertyDescriptor") then
      .error (.SecurityViolation "Referencing Object in Angular expressions is disallowed")
    else
      .ok obj
  else
    .ok obj

/-- The three reflection primitives of the host, `Function.prototype.call`,
`Function.prototype.bind` and `Function.prototype.apply`, as `ensureSafeFunction`
reads them on entry. -/
structure FunctionPrototype where
  call : Val
  bind : Val
  apply : Val
deriving DecidableEq, Repr, Inhabited

/-- `ensureSafeFunction(obj)`. -/
def ensureSafeFunction (h : Heap) (fp : FunctionPrototype) (obj : Val) : Except Thrown Unit :=
  let CALL := fp.call
  let BIND := fp.bind
  let APPLY := fp.apply
  if truthy obj then
    if strictEq (getProp h obj "constructor") obj then
      .error (.SecurityViolation "Referencing Function in Angular expressions is disallowed")
    else if strictEq obj CALL || strictEq obj BIND || strictEq obj APPLY then
      .error (.SecurityViolation
        "Referencing call, apply, or bind in Angular expressions is disallowed!")
    else
      .ok ()
  else
    .ok ()

/-- `ifDefined(value, defaultValue)`. -/
def ifDefined (value defaultValue : Val) : Val :=
  if value = .undefined then defaultValue else value

/-- The six member names the member-name guard refuses. -/
def forbiddenMemberNames : List String :=
  ["constructor", "__proto__", "__defineGetter__", "__defineSetter__",
    "__lookupGetter__", "__lookupSetter__"]

/-! ## The classifier -/

/-- The two annotations the classifier writes on a node. `toWatch` is `none` where the
source leaves it unset (the `Program` root). -/
structure Annot where
  constant : Bool
  toWatch : Option (List Node)
deriving Repr, Inhabited

/-- Reading `node.toWatch` as a list; an unset `toWatch` contributes no entry. -/
def Annot.watchList (a : Annot) : List Node := a.toWatch.getD []

mutual
/-- `markConstantAndWatchExpressions(ast)`: the annotations the call leaves on `ast`.
The children are annotated by the recursive calls, each child by the same function. -/
def markConstantAndWatchExpressions : Node → Annot
  | .Program body =>
      { constant := markBody body, toWatch := none }
  | .Literal _ =>
      { constant := true, toWatch := some [] }
  | .Identifier name =>
      { constant := false, toWatch := some [.Identifier name] }
  | .ArrayExpression elements =>
      let r := markElements elements
      { constant := r.1, toWatch := some r.2 }
  | .ObjectExpression properties =>
      let r := markProperties properties
      { constant := r.1, toWatch := some r.2 }
  | .ThisExpression =>
      { constant := false, toWatch := some [] }
  | .MemberExpression object property computed =>
      let o := markConstantAndWatchExpressions object
      let p := markConstantAndWatchExpressions property
      { constant := o.constant && (!computed || p.constant),
        toWatch := some [.MemberExpression object property computed] }
  | .CallExpression callee arguments filter =>
      let r := markElements arguments
      { constant := filter && r.1,
        toWatch := if filter then some r.2 else some [.CallExpression callee arguments filter] }
  | .AssignmentExpression left right =>
      let l := markConstantAndWatchExpressions left
      let r := markConstantAndWatchExpressions right
      { constant := l.constant && r.constant,
        toWatch := some [.AssignmentExpression left right] }
  | .UnaryExpression _ argument =>
      let a := markConstantAndWatchExpressions argument
      { constant := a.constant, toWatch := a.toWatch }
  | .BinaryExpression _ left right =>
      let l := markConstantAndWatchExpressions left
      let r := markConstantAndWatchExpressions right
      { constant := l.constant && r.constant,
        toWatch := some (l.watchList ++ r.watchList) }
  | .LogicalExpression operator left right =>
      let l := markConstantAndWatchExpressions left
      let r := markConstantAndWatchExpressions right
      { constant := l.constant && r.constant,
        toWatch := some [.LogicalExpression operator left right] }
  | .ConditionalExpression test consequent alternate =>
      let t := markConstantAndWatchExpressions test
      let c := markConstantAndWatchExpressions consequent
      let a := markConstantAndWatchExpressions alternate
      { constant := t.constant && c.constant && a.constant,
        toWatch := some [.ConditionalExpression test consequent alternate] }
/-- The `_.forEach(ast.body, ...)` loop of the `Program` case: `allConstants` after it. -/
def markBody : List Node → Bool
  | [] => true
  | expr :: rest => (markConstantAndWatchExpressions expr).constant && markBody rest
/-- The `_.forEach` loop shared by the `ArrayExpression` and `CallExpression` cases,
started from `allConstants = true` and `argsToWatch = []`: the pair
`(allConstants, argsToWatch)` after it. -/
def markElements : List Node → Bool × List Node
  | [] => (true, [])
  | element :: rest =>
      let e := markConstantAndWatchExpressions element
      let r := markElements rest
      (e.constant && r.1, (if e.constant then [] else e.watchList) ++ r.2)
/-- The `_.forEach` loop of the `ObjectExpression` case over `property.value`. -/
def markProperties : List (PropKey × Node) → Bool × List Node
  | [] => (true, [])
  | property :: rest =>
      let e := markConstantAndWatchExpressions property.2
      let r := markProperties rest
      (e.constant && r.1, (if e.constant then [] else e.watchList) ++ r.2)
end

/-! ## The generated program

`recurse` builds program text by string concatenation. The model keeps the pieces apart
instead of gluing them: one constructor per piece of text the compiler emits, each
spliced piece standing as one operand. -/

/-- Variables of the generated function: the parameters `s` and `l`, the generated
`v0, v1, ...`, and the global `undefined` (the text an unset value concatenates to). -/
inductive Ident where
  | s
  | l
  | v (n : Nat)
  | undefined
deriving DecidableEq, Repr, Inhabited

/-- Expressions of the generated program. -/
inductive JExpr where
  /-- the spliced `ast.value` -/
  | lit (value : Val)
  /-- `v3`, `s`, `l` -/
  | var (name : Ident)
  /-- `[e1,e2]` -/
  | array (elements : List JExpr)
  /-- `{k1:e1,k2:e2}`, and `{}` -/
  | object (properties : List (PropKey × JExpr))
  /-- `(left).right` -/
  | nonComputedMember (left : JExpr) (right : String)
  /-- `(left)[right]` -/
  | computedMember (left : JExpr) (right : JExpr)
  /-- `!(e)` -/
  | not (e : JExpr)
  /-- `a && b` -/
  | and (a : JExpr) (b : JExpr)
  /-- `("property" in object)` -/
  | isIn (property : String) (object : JExpr)
  /-- `test?a:b` -/
  | cond (test : JExpr) (a : JExpr) (b : JExpr)
  /-- `callee(arg1,arg2)` -/
  | call (callee : JExpr) (args : List JExpr)
  /-- `ensureSafeMemberName(e)` -/
  | ensureSafeMemberName (e : JExpr)
  /-- `ensureSafeObject(e)` -/
  | ensureSafeObject (e : JExpr)
  /-- `ensureSafeFunction(e)` -/
  | ensureSafeFunction (e : JExpr)
  /-- `ifDefined(value,defaultValue)` -/
  | ifDefined (value : JExpr) (defaultValue : Val)
  /-- `operator(e)` -/
  | unary (operator : String) (e : JExpr)
  /-- `(left)operator(right)` -/
  | binary (operator : String) (left : JExpr) (right : JExpr)
  /-- `id=value;`, the text `assign` returns (the semicolon is part of it) -/
  | assign (id : JExpr) (value : JExpr)
deriving Repr, Inhabited

/-- Entries of `state.body`. -/
inductive JStmt where
  /-- an expression followed by `;` -/
  | expr (e : JExpr)
  /-- `return e;` -/
  | ret (e : JExpr)
  /-- `if(test){consequent}` -/
  | if_ (test : JExpr) (consequent : JExpr)
deriving Repr, Inhabited

/-- What `recurse` writes into the `context` argument when one is passed: the object
the member is read from, and the member name, static (`computed = false`) or as the
code of the computed property (`computed = true`). -/
inductive MemberName where
  | static (name : String)
  | computed (right : JExpr)
deriving Repr, Inhabited

/-- Truthiness of what `recurse` handed back, as `if(callContext.name)` tests it: text is
truthy, a `Literal` hands back its `value` as it is, and a `Program` hands back
nothing. -/
def JExpr.spliced : JExpr → Bool
  | .lit value => truthy value
  | .var .undefined => false
  | _ => true

/-- The `context` out-parameter of `recurse` after the call. -/
structure Context where
  context : JExpr
  name : MemberName
deriving Repr, Inhabited

namespace ASTCompiler

/-- The field `this.state` of the compiler. -/
structure State where
  body : List JStmt
  nextId : Nat
  vars : List Ident
  filters : List (String × Ident)
deriving Repr, Inhabited

/-- Code generation: the compiler state threaded through, a `throw` ends it. -/
abbrev Gen := StateT State (Except Thrown)

/-- `this.state.body.push(...)` of one statement. -/
def push (stmt : JStmt) : Gen Unit :=
  modify fun st => { st with body := st.body ++ [stmt] }

/-- `nonComputedMember(left, right)`. -/
def nonComputedMember (left : JExpr) (right : String) : JExpr := .nonComputedMember left right

/-- `computedMember(left, right)`. -/
def computedMember (left right : JExpr) : JExpr := .computedMember left right

/-- `if_(test, consequent)`. -/
def if_ (test consequent : JExpr) : Gen Unit := push (.if_ test consequent)

/-- `assign(id, value)`. -/
def assign (id value : JExpr) : JExpr := .assign id value

/-- `nextId(skip)`. -/
def nextId (skip : Bool) : Gen JExpr := do
  let st ← get
  let id := Ident.v st.nextId
  set { st with nextId := st.nextId + 1 }
  if !skip then
    modify fun st => { st with vars := st.vars ++ [id] }
  pure (.var id)

/-- `not(e)`. -/
def not (e : JExpr) : JExpr := .not e

/-- `getHasOwnProperty(object, property)`: the text `object&&("property" in object)`. -/
def getHasOwnProperty (object : Ident) (property : String) : JExpr :=
  .and (.var object) (.isIn property (.var object))

/-- `addEnsureSafeMemberName(expr)`. -/
def addEnsureSafeMemberName (expr : JExpr) : Gen Unit := push (.expr (.ensureSafeMemberName expr))

/-- `addEnsureSafeObject(expr)`. -/
def addEnsureSafeObject (expr : JExpr) : Gen Unit := push (.expr (.ensureSafeObject expr))

/-- `addEnsureSafeFunction(expr)`. -/
def addEnsureSafeFunction (expr : JExpr) : Gen Unit := push (.expr (.ensureSafeFunction expr))

/-- `ifDefined(value, defaultValue)` of the compiler: the text of a call of the helper. -/
def ifDefined (value : JExpr) (defaultValue : Val) : JExpr := .ifDefined value defaultValue

/-- `filter(name)`: the variable that holds the filter, allotted on first use. -/
def filter (name : String) : Gen JExpr := do
  let st ← get
  match st.filters.lookup name with
  | some id => pure (.var id)
  | none =>
      let id := Ident.v st.nextId
      set { st with nextId := st.nextId + 1, filters := st.filters ++ [(name, id)] }
      pure (.var id)

/-- The `name` read off a node (`ast.name`, `ast.property.name`, `ast.callee.name`);
on a node without one the read gives `undefined`, which concatenates as that word. -/
def nameOf : Node → String
  | .Identifier name => name
  | _ => "undefined"

/-- The compile-time call `ensureSafeMemberName(name)` inside `recurse`. -/
def checkName (name : String) : Gen Unit :=
  match ensureSafeMemberName (.str name) with
  | .ok _ => pure ()
  | .error e => throw e

mutual
/-- `recurse(ast, context, create)`: the returned text, paired with what the call
writes into `context` (nothing for the node types that do not touch it). -/
def recurse : Node → Bool → Gen (JExpr × Option Context)
  | .Program body, _ => do
      recurseProgram body
      pure (.var .undefined, none)
  | .Literal value, _ => pure (.lit value, none)
  | .ArrayExpression elements, _ => do
      let elements ← recurseAll elements
      pure (.array elements, none)
  | .ObjectExpression properties, _ => do
      let properties ← recurseProperties properties
      pure (.object properties, none)
  | .Identifier name, create => do
      checkName name
      let intoId ← nextId false
      if_ (getHasOwnProperty .l name) (assign intoId (nonComputedMember (.var .l) name))
      if create then
        if_ (.and (.and (not (getHasOwnProperty .l name)) (.var .s))
              (not (getHasOwnProperty .s name)))
          (assign (nonComputedMember (.var .s) name) (.object []))
      if_ (.and (not (getHasOwnProperty .l name)) (.var .s))
        (assign intoId (nonComputedMember (.var .s) name))
      addEnsureSafeObject intoId
      pure (intoId,
        some { context := .cond (getHasOwnProperty .l name) (.var .l) (.var .s),
               name := .static name })
  | .ThisExpression, _ => pure (.var .s, none)
  | .MemberExpression object property computed, create => do
      let intoId ← nextId false
      let left ← recurse object create
      if computed then
        let right ← recurse property false
        addEnsureSafeMemberName right.1
        if create then
          if_ (not (computedMember left.1 right.1))
            (assign (computedMember left.1 right.1) (.object []))
        if_ left.1 (assign intoId (.ensureSafeObject (computedMember left.1 right.1)))
        pure (intoId, some { context := left.1, name := .computed right.1 })
      else
        checkName (nameOf property)
        if create then
          if_ (not (nonComputedMember left.1 (nameOf property)))
            (assign (nonComputedMember left.1 (nameOf property)) (.object []))
        if_ left.1
          (assign intoId (.ensureSafeObject (nonComputedMember left.1 (nameOf property))))
        pure (intoId, some { context := left.1, name := .static (nameOf property) })
  | .CallExpression callee arguments isFilter, _ => do
      if isFilter then
        let callee ← filter (nameOf callee)
        let args ← recurseAll arguments
        pure (.call callee args, none)
      else
        let calleeResult ← recurse callee false
        let args ← recurseAll arguments
        let args := args.map JExpr.ensureSafeObject
        let callee ←
          match calleeResult.2 with
          | some callContext =>
              match callContext.name with
              | .computed right =>
                  if right.spliced then do
                    addEnsureSafeObject callContext.context
                    pure (computedMember callContext.context right)
                  else
                    pure calleeResult.1
              | .static name =>
                  if name ≠ "" then do
                    addEnsureSafeObject callContext.context
                    pure (nonComputedMember callContext.context name)
                  else
                    pure calleeResult.1
          | none => pure calleeResult.1
        addEnsureSafeFunction callee
        pure (.and callee (.ensureSafeObject (.call callee args)), none)
  | .AssignmentExpression left right, _ => do
      let leftResult ← recurse left true
      let leftExpr :=
        match leftResult.2 with
        | some leftContext =>
            match leftContext.name with
            | .computed name => computedMember leftContext.context name
            | .static name => nonComputedMember leftContext.context name
        | none => nonComputedMember (.var .undefined) "undefined"
      let right ← recurse right false
      pure (assign leftExpr (.ensureSafeObject right.1), none)
  | .UnaryExpression operator argument, _ => do
      let argument ← recurse argument false
      pure (.unary operator (ifDefined argument.1 (.num 0)), none)
  | .BinaryExpression operator left right, _ => do
      if operator = "+" ∨ operator = "-" then
        let left ← recurse left false
        let right ← recurse right false
        pure (.binary operator (ifDefined left.1 (.num 0)) (ifDefined right.1 (.num 0)), none)
      else
        let left ← recurse left false
        let right ← recurse right false
        pure (.binary operator left.1 right.1, none)
  | .LogicalExpression operator left right, _ => do
      let intoId ← nextId false
      let left ← recurse left false
      push (.expr (assign intoId left.1))
      let right ← recurse right false
      if_ (if operator = "&&" then intoId else not intoId) (assign intoId right.1)
      pure (intoId, none)
  | .ConditionalExpression test consequent alternate, _ => do
      let intoId ← nextId false
      let testId ← nextId false
      let test ← recurse test false
      push (.expr (assign testId test.1))
      let consequent ← recurse consequent false
      if_ testId (assign intoId consequent.1)
      let alternate ← recurse alternate false
      if_ (not testId) (assign intoId alternate.1)
      pure (intoId, none)
/-- The `Program` case: every statement but the last is pushed followed by `;`, the
last one after `return `. With an empty body `_.last` gives `undefined`, and the
recursive call fails on reading its `type`. -/
def recurseProgram : List Node → Gen Unit
  | [] => throw .TypeError
  | stmt :: rest =>
      match rest with
      | [] => do
          let last ← recurse stmt false
          push (.ret last.1)
      | _ :: _ => do
          let e ← recurse stmt false
          push (.expr e.1)
          recurseProgram rest
/-- The loop `_.map(list, (e) => this.recurse(e))`. -/
def recurseAll : List Node → Gen (List JExpr)
  | [] => pure []
  | e :: rest => do
      let first ← recurse e false
      let others ← recurseAll rest
      pure (first.1 :: others)
/-- The `_.map` over `ast.properties` in the `ObjectExpression` case. -/
def recurseProperties : List (PropKey × Node) → Gen (List (PropKey × JExpr))
  | [] => pure []
  | p :: rest => do
      let value ← recurse p.2 false
      let others ← recurseProperties rest
      pure ((p.1, value.1) :: others)
end

end ASTCompiler

/-! ## Running the generated program -/

/-- What the generated program finds around it: the reflection primitives read by
`ensureSafeFunction`, the filter registry, the behaviour of the host functions (a
function may change the heap), and the binary operators the model does not spell out. -/
structure Host where
  functionPrototype : FunctionPrototype
  filter : String → Val
  apply : Nat → Val → List Val → Heap → Val × Heap
  operator : String → Val → Val → Val

/-- Observable steps of a run: a member read by the generated code, and the invocation
of a host function with its receiver and arguments. -/
inductive Event where
  | read (object : Val) (key : String)
  | invoke (callee : Val) (this : Val) (args : List Val)
deriving DecidableEq, Repr, Inhabited

/-- The state of a run: the variables of the generated function, the heap, and the
steps observed so far. -/
structure Machine where
  vars : List (Ident × Val)
  heap : Heap
  trace : List Event
deriving Repr, Inhabited

/-- A step of a run: it ends with a value or with a `throw`, and leaves a machine behind
in both cases. -/
def Exec (α : Type) : Type := Machine → Except Thrown α × Machine

namespace Exec

/-- A step that returns without touching the machine. -/
def ret {α : Type} (a : α) : Exec α := fun m => (.ok a, m)

/-- A step that throws. -/
def fail {α : Type} (e : Thrown) : Exec α := fun m => (.error e, m)

/-- Sequencing: a `throw` skips the rest. -/
def andThen {α β : Type} (x : Exec α) (f : α → Exec β) : Exec β := fun m =>
  match x m with
  | (.ok a, m') => f a m'
  | (.error e, m') => (.error e, m')

instance : Monad Exec where
  pure := ret
  bind := andThen

/-- Lifting the outcome of a guard. -/
def ofExcept {α : Type} (r : Except Thrown α) : Exec α := fun m => (r, m)

/-- The current heap. -/
def heap : Exec Heap := fun m => (.ok m.heap, m)

/-- Recording an observed step. -/
def log (e : Event) : Exec Unit := fun m => (.ok (), { m with trace := m.trace ++ [e] })

end Exec

/-- The text a value turns into when used as a property key. An object is taken to
have the `toString` of plain objects. -/
def toKey : Val → String
  | .undefined => "undefined"
  | .null => "null"
  | .bool true => "true"
  | .bool false => "false"
  | .num n => toString n
  | .nan => "NaN"
  | .str s => s
  | .ref _ => "[object Object]"

/-- The key text written in an object literal. -/
def PropKey.text : PropKey → String
  | .Identifier name => name
  | .Literal value => toKey value

/-- Numeric reading of a value, `none` standing for `NaN`. -/
def toNumber : Val → Option Int
  | .undefined => none
  | .null => some 0
  | .bool true => some 1
  | .bool false => some 0
  | .num n => some n
  | .nan => none
  | .str s => if s = "" then some 0 else s.toInt?
  | .ref _ => none

/-- A numeric result as a value. -/
def ofNumber : Option Int → Val
  | some n => .num n
  | none => .nan

/-- The unary operators of the expression language. -/
def applyUnary (operator : String) (v : Val) : Val :=
  if operator = "!" then .bool (!truthy v)
  else if operator = "-" then ofNumber ((toNumber v).map fun n => -n)
  else ofNumber (toNumber v)

/-- The binary operators: `+`, `-`, `*`, the strict comparisons and the orderings on
numbers are spelled out, over the integers; the others are left to the host. -/
def applyBinary (host : Host) (operator : String) (a b : Val) : Val :=
  if operator = "+" then
    match a, b with
    | .str x, y => .str (x ++ toKey y)
    | x, .str y => .str (toKey x ++ y)
    | .ref _, y => .str ("[object Object]" ++ toKey y)
    | x, .ref _ => .str (toKey x ++ "[object Object]")
    | x, y => ofNumber (do let m ← toNumber x; let n ← toNumber y; pure (m + n))
  else if operator = "-" then
    ofNumber (do let m ← toNumber a; let n ← toNumber b; pure (m - n))
  else if operator = "*" then
    ofNumber (do let m ← toNumber a; let n ← toNumber b; pure (m * n))
  else if operator = "===" then .bool (strictEq a b)
  else if operator = "!==" then .bool (!strictEq a b)
  else
    match a, b with
    | .num m, .num n =>
        if operator = "<" then .bool (m < n)
        else if operator = ">" then .bool (m > n)
        else if operator = "<=" then .bool (m ≤ n)
        else if operator = ">=" then .bool (m ≥ n)
        else host.operator operator a b
    | _, _ => host.operator operator a b

/-- Reading a variable of the generated function. -/
def readVar (name : Ident) : Exec Val := fun m =>
  match name with
  | .undefined => (.ok .undefined, m)
  | _ =>
      match m.vars.lookup name with
      | some v => (.ok v, m)
      | none => (.error .ReferenceError, m)

/-- Writing a variable of the generated function. -/
def writeVar (name : Ident) (v : Val) : Exec Unit := fun m =>
  (.ok (), { m with vars := (name, v) :: m.vars.filter fun p => p.1 != name })

/-- A member list with one member set. -/
def setMember : List (String × Val) → String → Val → List (String × Val)
  | [], name, v => [(name, v)]
  | (k, w) :: rest, name, v =>
      if k = name then (k, v) :: rest else (k, w) :: setMember rest name v

/-- The heap after `object.name = v`; a write to a primitive is dropped. -/
def writeProp (h : Heap) (object : Val) (name : String) (v : Val) : Heap :=
  match object with
  | .ref a => h.modify (fun o => { o with props := setMember o.props name v }) a
  | _ => h

/-- The member read `object.key` of the generated code: fails on `undefined` and
`null`, is recorded otherwise. -/
def readMember (object : Val) (key : String) : Exec Val := do
  if object = .undefined ∨ object = .null then Exec.fail .TypeError
  else do
    Exec.log (.read object key)
    let h ← Exec.heap
    pure (getProp h object key)

/-- The member write `object.key = v`. -/
def writeMember (object : Val) (key : String) (v : Val) : Exec Unit := fun m =>
  if object = .undefined ∨ object = .null then (.error .TypeError, m)
  else (.ok (), { m with heap := writeProp m.heap object key v })

/-- A fresh object with the given members. -/
def allocate (props : List (String × Val)) : Exec Val := fun m =>
  (.ok (.ref m.heap.length), { m with heap := m.heap ++ [{ props := props, fn := none }] })

/-- The members of an array literal: the elements under their indices, and `length`. -/
def arrayMembers (vs : List Val) : List (String × Val) :=
  (vs.enum.map fun p => (toString p.1, p.2)) ++ [("length", .num vs.length)]

/-- The invocation `callee.call(this, args)` performed by a call in the generated code:
a value that is not a function cannot be called. -/
def invoke (host : Host) (callee this : Val) (args : List Val) : Exec Val := fun m =>
  match callee with
  | .ref a =>
      match (m.heap.get? a).bind Obj.fn with
      | some i =>
          let r := host.apply i this args m.heap
          (.ok r.1, { m with heap := r.2, trace := m.trace ++ [.invoke callee this args] })
      | none => (.error .TypeError, m)
  | _ => (.error .TypeError, m)

mutual
/-- Value of an expression of the generated program. -/
def evalExpr (host : Host) : JExpr → Exec Val
  | .lit value => pure value
  | .var name => readVar name
  | .array elements => do
      let vs ← evalAll host elements
      allocate (arrayMembers vs)
  | .object properties => do
      let ps ← evalProperties host properties
      allocate ps
  | .nonComputedMember left right => do
      let object ← evalExpr host left
      readMember object right
  | .computedMember left right => do
      let object ← evalExpr host left
      let key ← evalExpr host right
      readMember object (toKey key)
  | .not e => do
      let v ← evalExpr host e
      pure (.bool (!truthy v))
  | .and a b => do
      let v ← evalExpr host a
      if truthy v then evalExpr host b else pure v
  | .isIn property object => do
      let o ← evalExpr host object
      match o with
      | .ref a => do
          let h ← Exec.heap
          pure (.bool ((lookupMember (membersAt h a) property).isSome))
      | _ => Exec.fail .TypeError
  | .cond test a b => do
      let t ← evalExpr host test
      if truthy t then evalExpr host a else evalExpr host b
  | .call callee args => do
      let target ←
        match callee with
        | .nonComputedMember left right => do
            let object ← evalExpr host left
            let f ← readMember object right
            pure (f, object)
        | .computedMember left right => do
            let object ← evalExpr host left
            let key ← evalExpr host right
            let f ← readMember object (toKey key)
            pure (f, object)
        | other => do
            let f ← evalExpr host other
            pure (f, Val.undefined)
      let vs ← evalAll host args
      invoke host target.1 target.2 vs
  | .ensureSafeMemberName e => do
      let v ← evalExpr host e
      Exec.ofExcept (Parse.ensureSafeMemberName v)
      pure .undefined
  | .ensureSafeObject e => do
      let v ← evalExpr host e
      let h ← Exec.heap
      Exec.ofExcept (Parse.ensureSafeObject h v)
  | .ensureSafeFunction e => do
      let v ← evalExpr host e
      let h ← Exec.heap
      Exec.ofExcept (Parse.ensureSafeFunction h host.functionPrototype v)
      pure .undefined
  | .ifDefined value defaultValue => do
      let v ← evalExpr host value
      pure (Parse.ifDefined v defaultValue)
  | .unary operator e => do
      let v ← evalExpr host e
      pure (applyUnary operator v)
  | .binary operator left right => do
      let a ← evalExpr host left
      let b ← evalExpr host right
      pure (applyBinary host operator a b)
  | .assign id value =>
      match id with
      | .var name => do
          let v ← evalExpr host value
          writeVar name v
          pure v
      | .nonComputedMember left right => do
          let object ← evalExpr host left
          let v ← evalExpr host value
          writeMember object right v
          pure v
      | .computedMember left right => do
          let object ← evalExpr host left
          let key ← evalExpr host right
          let v ← evalExpr host value
          writeMember object (toKey key) v
          pure v
      | _ => Exec.fail .ReferenceError
/-- Values of a list of expressions, left to right. -/
def evalAll (host : Host) : List JExpr → Exec (List Val)
  | [] => pure []
  | e :: rest => do
      let v ← evalExpr host e
      let vs ← evalAll host rest
      pure (v :: vs)
/-- Members of an object literal, left to right. -/
def evalProperties (host : Host) : List (PropKey × JExpr) → Exec (List (String × Val))
  | [] => pure []
  | p :: rest => do
      let v ← evalExpr host p.2
      let ps ← evalProperties host rest
      pure (if (lookupMember ps p.1.text).isSome then ps else (p.1.text, v) :: ps)
end

mutual
/-- Running the text of an expression that stands as a statement. Text that opens with
`{` is a block there: it runs the statement under its label and builds no object. -/
def JExpr.runStatement (host : Host) : JExpr → Exec Unit
  | .object properties => runBlock host properties
  | e => do
      let _ ← evalExpr host e
      pure ()
/-- Running the statements between the braces of a block. -/
def runBlock (host : Host) : List (PropKey × JExpr) → Exec Unit
  | [] => pure ()
  | p :: rest => do
      p.2.runStatement host
      runBlock host rest
end

/-- Running the statements of the body in order; `return` ends the run, and a body that
ends without one returns `undefined`. -/
def execBody (host : Host) : List JStmt → Exec Val
  | [] => pure .undefined
  | .expr e :: rest => do
      e.runStatement host
      execBody host rest
  | .ret e :: _ => evalExpr host e
  | .if_ test consequent :: rest => do
      let t ← evalExpr host test
      if truthy t then
        let _ ← evalExpr host consequent
        execBody host rest
      else
        execBody host rest

/-! ## `compile` and the evaluator it returns -/

mutual
/-- No text of an assignment (`id=value;`) anywhere in the expression. -/
def JExpr.noAssign : JExpr → Bool
  | .lit _ => true
  | .var _ => true
  | .array elements => noAssignAll elements
  | .object properties => noAssignProperties properties
  | .nonComputedMember left _ => left.noAssign
  | .computedMember left right => left.noAssign && right.noAssign
  | .not e => e.noAssign
  | .and a b => a.noAssign && b.noAssign
  | .isIn _ object => object.noAssign
  | .cond test a b => test.noAssign && a.noAssign && b.noAssign
  | .call callee args => callee.noAssign && noAssignAll args
  | .ensureSafeMemberName e => e.noAssign
  | .ensureSafeObject e => e.noAssign
  | .ensureSafeFunction e => e.noAssign
  | .ifDefined value _ => value.noAssign
  | .unary _ e => e.noAssign
  | .binary _ left right => left.noAssign && right.noAssign
  | .assign _ _ => false
/-- No text of an assignment in a list of expressions. -/
def noAssignAll : List JExpr → Bool
  | [] => true
  | e :: rest => e.noAssign && noAssignAll rest
/-- No text of an assignment in the values of an object literal. -/
def noAssignProperties : List (PropKey × JExpr) → Bool
  | [] => true
  | p :: rest => p.2.noAssign && noAssignProperties rest
end

/-- An expression that stands where a statement ends: the text of an assignment closes
with `;`, so it is accepted there, and as the value of an assignment standing there,
and nowhere inside another expression. -/
def JExpr.closesStatement : JExpr → Bool
  | .assign id value => id.noAssign && value.closesStatement
  | e => e.noAssign

/-- The text opens with `{`: an object literal, or the call text `callee&& ...` whose
callee text does. -/
def JExpr.opensBrace : JExpr → Bool
  | .object _ => true
  | .and a _ => a.opensBrace
  | _ => false

/-- Words that cannot be the label of a statement. -/
def reservedWords : List String :=
  ["break", "case", "catch", "class", "const", "continue", "debugger", "default",
    "delete", "do", "else", "enum", "export", "extends", "false", "finally", "for",
    "function", "if", "import", "in", "instanceof", "new", "null", "return", "super",
    "switch", "this", "throw", "true", "try", "typeof", "var", "void", "while", "with"]

mutual
/-- The text of an expression standing where a statement starts, as `new Function` reads
it. Text that opens with `{` is read as a block, not as an object literal: `{}` is the
empty block, `{name:text}` is the statement `text` under the label `name`, which has to
be an identifier that is no reserved word and no label already in force, and every
other object text (two properties or more, where `,` is followed by `name:`, or a key
that is a number or a quoted string) is refused; so is a block followed by `&&`.
`labels` are the labels in force. -/
def JExpr.standsAsStatement (labels : List String) : JExpr → Bool
  | .object properties => blockAccepted labels properties
  | .and a b => !a.opensBrace && a.noAssign && b.noAssign
  | .assign id value => id.noAssign && value.closesStatement
  | e => e.noAssign
/-- The text between the braces of a block: nothing, or one labelled statement. -/
def blockAccepted (labels : List String) : List (PropKey × JExpr) → Bool
  | [] => true
  | p :: rest =>
      match p.1, rest with
      | .Identifier name, [] =>
          !reservedWords.contains name && !labels.contains name &&
            p.2.standsAsStatement (name :: labels)
      | _, _ => false
end

/-- The statement is well-formed program text. -/
def JStmt.accepted : JStmt → Bool
  | .expr e => e.standsAsStatement []
  | .ret e => e.closesStatement
  | .if_ test consequent => test.noAssign && consequent.closesStatement

/-- `isLiteral(ast)`; reading `ast.body.length` fails on a node that has no body. -/
def isLiteral : Node → Except Thrown Bool
  | .Program body =>
      match body with
      | [] => .ok true
      | [.Literal _] => .ok true
      | [.ArrayExpression _] => .ok true
      | [.ObjectExpression _] => .ok true
      | _ => .ok false
  | _ => .error .TypeError

/-- The four strategies `parse` can attach as `$$watchDelegate`. -/
inductive WatchDelegate where
  | constantWatchDelegate
  | oneTimeWatchDelegate
  | oneTimeLiteralWatchDelegate
  | inputsWatchDelegate
deriving DecidableEq, Repr, Inhabited

/-- The function `fn` built by `new Function`: the filter variables set up by
`filterPrefix` (resolved once, when the function is built), the declared variables, and
the body. -/
structure Code where
  filters : List (Ident × Val)
  vars : List Ident
  body : List JStmt
deriving Repr, Inhabited

/-- The evaluator `compile` returns: the function and the flags set on it. `inputs`
and `$$watchDelegate` are absent until something sets them. -/
structure Evaluator where
  code : Code
  literal : Bool
  constant : Bool
  inputs : Option (List Code)
  watchDelegate : Option WatchDelegate
deriving Repr, Inhabited

namespace ASTCompiler

/-- The state `compile` starts `recurse` from. -/
def initialState : State := { body := [], nextId := 0, vars := [], filters := [] }

/-- `compile(text)`, with the grammar `astBuilder.ast` and the host (for the filter
registry) as parameters. The check of the body stands for `new Function`, which
refuses text that is not a program. -/
def compile (host : Host) (astBuilder : String → Node) (text : String) :
    Except Thrown Evaluator := do
  let ast := astBuilder text
  let annotated := markConstantAndWatchExpressions ast
  let r ← (recurse ast false).run initialState
  let state := r.2
  if state.body.all JStmt.accepted then
    let literal ← isLiteral ast
    pure { code := { filters := state.filters.map fun p => (p.2, host.filter p.1),
                     vars := state.vars,
                     body := state.body },
           literal := literal,
           constant := annotated.constant,
           inputs := none,
           watchDelegate := none }
  else
    throw .SyntaxError

end ASTCompiler

/-- The machine a call `fn(s, l)` starts in: the parameters, the filter variables, and
the declared variables, still `undefined`. -/
def Code.entry (code : Code) (s l : Val) (heap : Heap) : Machine :=
  { vars := [(.s, s), (.l, l)] ++ code.filters ++ code.vars.map fun id => (id, .undefined),
    heap := heap,
    trace := [] }

/-- The call `fn(s, l)` on a heap: the outcome, with the machine left behind. -/
def Code.call (host : Host) (code : Code) (s l : Val) (heap : Heap) :
    Except Thrown Val × Machine :=
  execBody host code.body (code.entry s l heap)

/-! ## The facade -/

/-- A function as `parse` meets it: an evaluator with its flags, or `_.noop`, the
function `parse` returns for what is neither a string nor a function. -/
inductive Parsed where
  | evaluator (fn : Evaluator)
  | noop
deriving Repr, Inhabited

/-- What `parse` can be handed, by `typeof expr`. -/
inductive Expression where
  | string (text : String)
  | function (f : Parsed)
  | other (v : Val)
deriving Repr, Inhabited

/-- `expr.charAt(0) == ':' && expr.charAt(1) == ':'`. -/
def oneTimeMarker (expr : String) : Bool :=
  expr.get 0 == ':' && expr.get ⟨1⟩ == ':'

/-- The choice `parse` makes once `parser.parse(expr)` has handed back `parseFn`: which
`$$watchDelegate` it sets on it, if any. `oneTime` tells whether the text started with
the marker. `parseFn.inputs` is tested for truthiness, which every list has. -/
def attachDelegate (oneTime : Bool) (parseFn : Evaluator) : Evaluator :=
  if parseFn.constant then
    { parseFn with watchDelegate := some .constantWatchDelegate }
  else if oneTime then
    { parseFn with
      watchDelegate :=
        some (if parseFn.literal then .oneTimeLiteralWatchDelegate
              else .oneTimeWatchDelegate) }
  else if parseFn.inputs.isSome then
    { parseFn with watchDelegate := some .inputsWatchDelegate }
  else
    parseFn

/-- `parse(expr)`. -/
def parse (host : Host) (astBuilder : String → Node) (expr : Expression) :
    Except Thrown Parsed :=
  match expr with
  | .string text => do
      let oneTime := oneTimeMarker text
      let text := if oneTime then text.drop 2 else text
      let parseFn ← ASTCompiler.compile host astBuilder text
      pure (.evaluator (attachDelegate oneTime parseFn))
  | .function f => pure f
  | .other _ => pure .noop

/-! ## Properties of the annotations -/

/-- The invariant on the annotations of a node: a constant node watches nothing, a
node that is not constant watches something. -/
def watchInvariant (a : Annot) : Prop :=
  (a.constant = true → a.watchList = []) ∧ (a.constant = false → a.watchList ≠ [])

mutual
/-- Among the nodes the classifier visits in `n`, `n` included, there is no
`ThisExpression`, no `Program`, and no constant node of the four kinds that watch
themselves and can be constant (`MemberExpression`, `AssignmentExpression`,
`LogicalExpression`, `ConditionalExpression`). -/
def Node.plain : Node → Bool
  | .Program _ => false
  | .Literal _ => true
  | .Identifier _ => true
  | .ThisExpression => false
  | .MemberExpression object property computed =>
      !(markConstantAndWatchExpressions
          (.MemberExpression object property computed)).constant &&
        object.plain && (!computed || property.plain)
  | .CallExpression _ arguments _ => plainAll arguments
  | .AssignmentExpression left right =>
      !(markConstantAndWatchExpressions (.AssignmentExpression left right)).constant &&
        left.plain && right.plain
  | .UnaryExpression _ argument => argument.plain
  | .BinaryExpression _ left right => left.plain && right.plain
  | .LogicalExpression operator left right =>
      !(markConstantAndWatchExpressions (.LogicalExpression operator left right)).constant &&
        left.plain && right.plain
  | .ConditionalExpression test consequent alternate =>
      !(markConstantAndWatchExpressions
          (.ConditionalExpression test consequent alternate)).constant &&
        test.plain && consequent.plain && alternate.plain
  | .ArrayExpression elements => plainAll elements
  | .ObjectExpression properties => plainProperties properties
/-- `Node.plain` for every node of a list. -/
def plainAll : List Node → Bool
  | [] => true
  | e :: rest => e.plain && plainAll rest
/-- `Node.plain` for every property value. -/
def plainProperties : List (PropKey × Node) → Bool
  | [] => true
  | p :: rest => p.2.plain && plainProperties rest
end

mutual
/-- An expression node: no `Program` anywhere inside it (the grammar puts `Program` at
the root only). -/
def Node.expression : Node → Bool
  | .Program _ => false
  | .Literal _ => true
  | .Identifier _ => true
  | .ThisExpression => true
  | .MemberExpression object property _ => object.expression && property.expression
  | .CallExpression callee arguments _ => callee.expression && expressionAll arguments
  | .AssignmentExpression left right => left.expression && right.expression
  | .UnaryExpression _ argument => argument.expression
  | .BinaryExpression _ left right => left.expression && right.expression
  | .LogicalExpression _ left right => left.expression && right.expression
  | .ConditionalExpression test consequent alternate =>
      test.expression && consequent.expression && alternate.expression
  | .ArrayExpression elements => expressionAll elements
  | .ObjectExpression properties => expressionProperties properties
/-- Every node of the list is an expression node. -/
def expressionAll : List Node → Bool
  | [] => true
  | e :: rest => e.expression && expressionAll rest
/-- Every property value is an expression node. -/
def expressionProperties : List (PropKey × Node) → Bool
  | [] => true
  | p :: rest => p.2.expression && expressionProperties rest
end

/-- Code generation that, when it throws, throws the member-name violation. -/
def OnlyViolation {α : Type} (x : ASTCompiler.Gen α) : Prop :=
  ∀ st e, x.run st = .error e → e = .SecurityViolation disallowedField

/-- Compiling a text and calling the evaluator it gives on `(s, l)`: the outcome. -/
def evaluate (host : Host) (astBuilder : String → Node) (text : String) (s l : Val)
    (heap : Heap) : Except Thrown Val := do
  let fn ← ASTCompiler.compile host astBuilder text
  (fn.code.call host s l heap).1

mutual
/-- An AST built from `Literal`, `ArrayExpression` and `ObjectExpression` nodes only. -/
def Node.literalOnly : Node → Bool
  | .Literal _ => true
  | .ArrayExpression elements => literalOnlyAll elements
  | .ObjectExpression properties => literalOnlyProperties properties
  | _ => false
/-- Every node of the list is built from literals, arrays and objects only. -/
def literalOnlyAll : List Node → Bool
  | [] => true
  | e :: rest => e.literalOnly && literalOnlyAll rest
/-- Every property value is built from literals, arrays and objects only. -/
def literalOnlyProperties : List (PropKey × Node) → Bool
  | [] => true
  | p :: rest => p.2.literalOnly && literalOnlyProperties rest
end

/-- The node is an object literal. -/
def Node.isObject : Node → Bool
  | .ObjectExpression _ => true
  | _ => false

/-- A host with no filters and no functions, for the examples. -/
def Host.bare : Host :=
  { functionPrototype := { call := .undefined, bind := .undefined, apply := .undefined },
    filter := fun _ => .undefined,
    apply := fun _ _ _ h => (.undefined, h),
    operator := fun _ _ _ => .undefined }

/-! ## A host with the reflection primitives, for the examples -/

/-- A host whose reflection primitives `call`, `bind` and `apply` are the functions at
the addresses 1, 2 and 3; every function returns `undefined` and leaves the heap alone. -/
def Host.reflective : Host :=
  { functionPrototype := { call := .ref 1, bind := .ref 2, apply := .ref 3 },
    filter := fun _ => .undefined,
    apply := fun _ _ _ h => (.undefined, h),
    operator := fun _ _ _ => .undefined }

/-- A heap for `Host.reflective`: the scope at address 0 has the member `g`, the
function at address 4; `g` has the member `h`, the harmless function at address 5, and,
as every function, the member `call`, the primitive at address 1. -/
def reflectiveHeap : Heap :=
  [ { props := [("g", .ref 4)], fn := none },
    { props := [], fn := some 0 },
    { props := [], fn := some 1 },
    { props := [], fn := some 2 },
    { props := [("h", .ref 5), ("call", .ref 1)], fn := some 3 },
    { props := [], fn := some 4 } ]

/-- The AST of `g.h() === (0 || (g.h = g.call))`. -/
def guardBypass : Node :=
  .Program [.BinaryExpression "==="
    (.CallExpression (.MemberExpression (.Identifier "g") (.Identifier "h") false) [] false)
    (.LogicalExpression "||" (.Literal (.num 0))
      (.AssignmentExpression (.MemberExpression (.Identifier "g") (.Identifier "h") false)
        (.MemberExpression (.Identifier "g") (.Identifier "call") false)))]

/-- Outcomes can be compared. -/
instance {ε α : Type} [DecidableEq ε] [DecidableEq α] : DecidableEq (Except ε α)
  | .ok a, .ok b => if h : a = b then isTrue (h ▸ rfl) else isFalse fun h' => h (Except.ok.inj h')
  | .error a, .error b =>
      if h : a = b then isTrue (h ▸ rfl) else isFalse fun h' => h (Except.error.inj h')
  | .ok _, .error _ => isFalse fun h => Except.noConfusion h
  | .error _, .ok _ => isFalse fun h => Except.noConfusion h

/-- What a run shows: the outcome and the observed steps. -/
def Code.observe (host : Host) (code : Code) (s l : Val) (heap : Heap) :
    Except Thrown Val × List Event :=
  ((code.call host s l heap).1, (code.call host s l heap).2.trace)

/-- The three statements the `Identifier` case pushes (outside `create` mode) to read
`name` into the variable `v k`. -/
def identifierBlock (k : Nat) (name : String) : List JStmt :=
  [ .if_ (ASTCompiler.getHasOwnProperty .l name)
      (ASTCompiler.assign (.var (.v k)) (ASTCompiler.nonComputedMember (.var .l) name)),
    .if_ (.and (ASTCompiler.not (ASTCompiler.getHasOwnProperty .l name)) (.var .s))
      (ASTCompiler.assign (.var (.v k)) (ASTCompiler.nonComputedMember (.var .s) name)),
    .expr (.ensureSafeObject (.var (.v k))) ]

/-- The object an identifier is read from: the local context when the name is in it,
otherwise the root context when that is truthy, otherwise none. -/
def lookupContext (heap : Heap) (s l : Val) (name : String) : Option Val :=
  match l with
  | .ref a =>
      if (lookupMember (membersAt heap a) name).isSome then some l
      else if truthy s then some s else none
  | _ => if truthy s then some s else none

/-- The machine after `x = v`. -/
def Machine.assignVar (m : Machine) (x : Ident) (v : Val) : Machine :=
  { m with vars := (x, v) :: m.vars.filter fun p => p.1 != x }

/-- The machine after one more observed step. -/
def Machine.logged (m : Machine) (e : Event) : Machine :=
  { m with trace := m.trace ++ [e] }

/-- A grammar for the examples: the text `b` is the identifier `b`, every other text is
the computed member access `a[b]`. -/
def exampleGrammar (text : String) : Node :=
  if text = "b" then .Program [.Identifier "b"]
  else .Program [.MemberExpression (.Identifier "a") (.Identifier "b") true]

/-! ## The watch delegates

The delegates receive the scope of the digest loop, which lives outside this file: its
`$watch` is a parameter, and what a listener or a scheduled callback does to the outside
is recorded as a list of effects. `S` stands for what a watch function is evaluated
against (the scope as it is at the time of the pass). -/

/-- `typeof v === 'number'`. -/
def isNumber : Val → Bool
  | .num _ => true
  | .nan => true
  | _ => false

/-- `isNaN(v)`. -/
def isNaN (v : Val) : Bool := (toNumber v).isNone

/-- `_.isUndefined(v)`. -/
def isUndefined (v : Val) : Bool := v == .undefined

/-- `_.isFunction(v)`: the value is an object of the heap that can be called. -/
def isFunction (h : Heap) (v : Val) : Bool :=
  match v with
  | .ref a => ((h.get? a).bind Obj.fn).isSome
  | _ => false

/-- `expressionInputDirtyCheck(newValue, oldValue)`. -/
def expressionInputDirtyCheck (newValue oldValue : Val) : Bool :=
  strictEq newValue oldValue ||
    (isNumber newValue && isNumber oldValue && isNaN newValue && isNaN oldValue)

/-- The calls a listener or a scheduled callback makes: `listenerFn.apply(this,
arguments)` and `unwatch()`, the latter with the function held by the variable
`unwatch`. -/
inductive Call where
  | listenerFn (this : Val) (arguments : List Val)
  | unwatch (f : Val)
deriving DecidableEq, Repr, Inhabited

/-- What a listener does to the outside: a call, or `scope.$$postDigest(callback)`. The
callback is kept as what it will do when it runs, given the value the variable
`lastValue` holds then and the heap as it is then. -/
inductive Effect where
  | call (c : Call)
  | postDigest (callback : Val → Heap → List Call)

/-- The scope as the delegates use it: `$watch(watchFn, listener, valueEq)`, which
returns the function that removes the watch. The listener is handed over as a function
of what the variable `unwatch` of the delegate holds when the listener runs, of `this`,
and of the arguments `newValue`, `oldValue`, `scope`. -/
structure Scope (S W L : Type) where
  watch : W → L → Val → Val

namespace constantWatchDelegate

/-- The watch function `() => watchFn(scope)`. -/
def watch {S : Type} (watchFn : S → Val) (scope : S) : Val := watchFn scope

/-- The listener `function() { if(_.isFunction(listenerFn)) { listenerFn.apply(this,
arguments) } unwatch() }`. -/
def listener (heap : Heap) (listenerFn : Val) (unwatch this : Val) (arguments : List Val) :
    List Effect :=
  (if isFunction heap listenerFn then [.call (.listenerFn this arguments)] else []) ++
    [.call (.unwatch unwatch)]

end constantWatchDelegate

/-- `constantWatchDelegate(scope, listenerFn, valueEq, watchFn)`. -/
def constantWatchDelegate {S : Type}
    (scope : Scope S (S → Val) (Val → Val → List Val → List Effect)) (heap : Heap)
    (listenerFn valueEq : Val) (watchFn : S → Val) : Val :=
  let unwatch := scope.watch (constantWatchDelegate.watch watchFn)
    (constantWatchDelegate.listener heap listenerFn) valueEq
  unwatch

namespace oneTimeWatchDelegate

/-- The watch function `() => watchFn(scope)`. -/
def watch {S : Type} (watchFn : S → Val) (scope : S) : Val := watchFn scope

/-- The callback handed to `$$postDigest`: `() => { if(!_.isUndefined(lastValue)) {
unwatch() } }`. -/
def check (unwatch : Val) (lastValue : Val) (_heap : Heap) : List Call :=
  if !isUndefined lastValue then [.unwatch unwatch] else []

/-- The listener `function(newValue, oldValue, scope) { ... }`, from the value of the
variable `lastValue` before the call to its value after the call and the effects. -/
def listener (heap : Heap) (listenerFn : Val) (unwatch this : Val)
    (newValue oldValue scope : Val) (_lastValue : Val) : Val × List Effect :=
  let lastValue := newValue
  (lastValue,
    (if isFunction heap listenerFn then [.call (.listenerFn this [newValue, oldValue, scope])]
      else []) ++
    (if !isUndefined newValue then [.postDigest (check unwatch)] else []))

end oneTimeWatchDelegate

/-- `oneTimeWatchDelegate(scope, listenerFn, valueEq, watchFn)`; the variable
`lastValue` starts out `undefined`. -/
def oneTimeWatchDelegate {S : Type}
    (scope : Scope S (S → Val)
      (Val → Val → Val → Val → Val → Val → Val × List Effect)) (heap : Heap)
    (listenerFn valueEq : Val) (watchFn : S → Val) : Val :=
  let unwatch := scope.watch (oneTimeWatchDelegate.watch watchFn)
    (oneTimeWatchDelegate.listener heap listenerFn) valueEq
  unwatch

namespace inputsWatchDelegate

/-- The variables of the delegate: `oldValues`, where `none` stands for the function
`() => {}` every entry starts with (a fresh function, which no input returns), and
`lastResult`. -/
structure State where
  oldValues : List (Option Val)
  lastResult : Val
deriving DecidableEq, Repr, Inhabited

/-- `_.times(inputExpressions.length, _.constant(() => {}))` and the unset `lastResult`. -/
def initial {S : Type} (inputExpressions : List (S → Val)) : State :=
  { oldValues := List.replicate inputExpressions.length none, lastResult := .undefined }

/-- `expressionInputDirtyCheck(newValue, oldValues[i])`: the initial function is neither
identical to a value an input returns nor a number. -/
def sameAsStored (newValue : Val) : Option Val → Bool
  | some oldValue => expressionInputDirtyCheck newValue oldValue
  | none => false

/-- The `_.forEach(inputExpressions, ...)` loop, walking the inputs and `oldValues` in
step: `oldValues` and `changed` after it. An entry missing from `oldValues` reads as
`undefined` and is created by the write. -/
def loop {S : Type} (scope : S) : List (S → Val) → List (Option Val) → Bool →
    List (Option Val) × Bool
  | [], oldValues, changed => (oldValues, changed)
  | inputExpr :: rest, oldValue :: oldValues, changed =>
      let newValue := inputExpr scope
      if changed || !sameAsStored newValue oldValue then
        let r := loop scope rest oldValues true
        (some newValue :: r.1, r.2)
      else
        let r := loop scope rest oldValues changed
        (oldValue :: r.1, r.2)
  | inputExpr :: rest, [], changed =>
      let newValue := inputExpr scope
      if changed || !expressionInputDirtyCheck newValue .undefined then
        let r := loop scope rest [] true
        (some newValue :: r.1, r.2)
      else
        let r := loop scope rest [] changed
        (some .undefined :: r.1, r.2)

/-- The evaluations a pass of the watch function performs: of the input with a given
index, and of the full expression `watchFn(scope)`. -/
inductive Step where
  | input (i : Nat)
  | watchFn
deriving DecidableEq, Repr, Inhabited

/-- One pass of the watch function handed to `$watch`: the value returned, the variables
after the pass, and the evaluations performed, in order. -/
def watch {S : Type} (inputExpressions : List (S → Val)) (watchFn : S → Val) (scope : S)
    (st : State) : Val × State × List Step :=
  let r := loop scope inputExpressions st.oldValues false
  let changed := r.2
  let lastResult := if changed then watchFn scope else st.lastResult
  (lastResult, { oldValues := r.1, lastResult := lastResult },
    (List.range inputExpressions.length).map Step.input ++
      (if changed then [Step.watchFn] else []))

end inputsWatchDelegate

/-- `inputsWatchDelegate(scope, listenerFn, valueEq, watchFn)`: the listener is handed
over as it is. -/
def inputsWatchDelegate {S : Type}
    (scope : Scope S (S → inputsWatchDelegate.State → Val × inputsWatchDelegate.State ×
      List inputsWatchDelegate.Step) Val)
    (listenerFn valueEq : Val) (inputExpressions : List (S → Val)) (watchFn : S → Val) : Val :=
  scope.watch (inputsWatchDelegate.watch inputExpressions watchFn) listenerFn valueEq

/-- `typeof v`. -/
def typeOf (h : Heap) : Val → String
  | .undefined => "undefined"
  | .null => "object"
  | .bool _ => "boolean"
  | .num _ => "number"
  | .nan => "number"
  | .str _ => "string"
  | .ref a => if isFunction h (.ref a) then "function" else "object"

namespace oneTimeWatchDelegate

/-- The listener invoked several times in a row, each time with `(newValue, oldValue,
scope)`: the variable `lastValue` after the last invocation and all the effects. -/
def listenerRuns (heap : Heap) (listenerFn : Val) (unwatch this : Val) :
    List (Val × Val × Val) → Val → Val × List Effect
  | [], lastValue => (lastValue, [])
  | (newValue, oldValue, scope) :: rest, lastValue =>
      let r := listener heap listenerFn unwatch this newValue oldValue scope lastValue
      let rs := listenerRuns heap listenerFn unwatch this rest r.1
      (rs.1, r.2 ++ rs.2)

end oneTimeWatchDelegate

/-- The `$$watchDelegate` of what `parse` returned; `_.noop` has none. -/
def Parsed.watchDelegate : Parsed → Option WatchDelegate
  | .evaluator fn => fn.watchDelegate
  | .noop => none

/-- A grammar for the examples: the texts `42`, `[a]` and `a`, and the sum `a + b` for
every other text. -/
def delegateGrammar (text : String) : Node :=
  if text = "42" then .Program [.Literal (.num 42)]
  else if text = "[a]" then .Program [.ArrayExpression [.Identifier "a"]]
  else if text = "a" then .Program [.Identifier "a"]
  else .Program [.BinaryExpression "+" (.Identifier "a") (.Identifier "b")]

/-- The text the `BinaryExpression` case returns for the operand texts `left` and
`right`: with `ifDefined(..., 0)` around both for `+` and `-`, the operands as they are
for every other operator. -/
def binaryCode (operator : String) (left right : JExpr) : JExpr :=
  if operator = "+" ∨ operator = "-" then
    .binary operator (ASTCompiler.ifDefined left (.num 0)) (ASTCompiler.ifDefined right (.num 0))
  else
    .binary operator left right

/-- A grammar for the examples: the texts `a` and `b` are identifiers, `a - b` is the
difference, and every other text is the sum `a + b`. -/
def binaryGrammar (text : String) : Node :=
  if text = "a" then .Program [.Identifier "a"]
  else if text = "b" then .Program [.Identifier "b"]
  else if text = "a - b" then
    .Program [.BinaryExpression "-" (.Identifier "a") (.Identifier "b")]
  else .Program [.BinaryExpression "+" (.Identifier "a") (.Identifier "b")]

/-- A heap for the examples: the root context at address 0 is empty; the local context
at address 1 has the member `a`, the function at address 2, which is its own
`constructor` (as the function `Function` is). -/
def constructorHeap : Heap :=
  [ { props := [], fn := none },
    { props := [("a", .ref 2)], fn := none },
    { props := [("constructor", .ref 2)], fn := some 0 } ]

/-- The AST of `a || (b && c())`. -/
def shortCircuit : Node :=
  .Program [.LogicalExpression "||" (.Identifier "a")
    (.LogicalExpression "&&" (.Identifier "b")
      (.CallExpression (.Identifier "c") [] false))]

/-- A heap for `Host.reflective`: the scope at address 0 has the members `a` and `b`,
both `true`, and `c`, the harmless function at address 4; the addresses 1, 2 and 3 hold
the reflection primitives. -/
def shortCircuitHeap : Heap :=
  [ { props := [("a", .bool true), ("b", .bool true), ("c", .ref 4)], fn := none },
    { props := [], fn := some 0 },
    { props := [], fn := some 1 },
    { props := [], fn := some 2 },
    { props := [], fn := some 3 } ]

/-! ## What the classifier visits -/

/-- An `Identifier`, a `ThisExpression`, or a `CallExpression` that is not a filter
call. -/
def Node.isVariable : Node → Bool
  | .Identifier _ => true
  | .ThisExpression => true
  | .CallExpression _ _ filter => !filter
  | _ => false

mutual
/-- The node and the sub-expressions the classifier visits beneath it, following the
words of the specification: program statements, array elements, object property values,
the base of a member access and its property when computed, call arguments, assignment
sides, operands, the test and the branches of a conditional; not the property of a
non-computed member access, not object keys, not callees. -/
def Node.visited : Node → List Node
  | .Program body => .Program body :: visitedAll body
  | .Literal value => [.Literal value]
  | .Identifier name => [.Identifier name]
  | .ThisExpression => [.ThisExpression]
  | .MemberExpression object property computed =>
      .MemberExpression object property computed ::
        (object.visited ++ if computed then property.visited else [])
  | .CallExpression callee arguments filter =>
      .CallExpression callee arguments filter :: visitedAll arguments
  | .AssignmentExpression left right =>
      .AssignmentExpression left right :: (left.visited ++ right.visited)
  | .UnaryExpression operator argument =>
      .UnaryExpression operator argument :: argument.visited
  | .BinaryExpression operator left right =>
      .BinaryExpression operator left right :: (left.visited ++ right.visited)
  | .LogicalExpression operator left right =>
      .LogicalExpression operator left right :: (left.visited ++ right.visited)
  | .ConditionalExpression test consequent alternate =>
      .ConditionalExpression test consequent alternate ::
        (test.visited ++ consequent.visited ++ alternate.visited)
  | .ArrayExpression elements => .ArrayExpression elements :: visitedAll elements
  | .ObjectExpression properties => .ObjectExpression properties :: visitedProperties properties
/-- The nodes visited in a list of nodes. -/
def visitedAll : List Node → List Node
  | [] => []
  | e :: rest => e.visited ++ visitedAll rest
/-- The nodes visited in the property values of an object literal. -/
def visitedProperties : List (PropKey × Node) → List Node
  | [] => []
  | p :: rest => p.2.visited ++ visitedProperties rest
end

namespace inputsWatchDelegate

/-- The variables of the delegate after one pass of the watch function per scope of the
list, first to last. -/
def passes {S : Type} (inputExpressions : List (S → Val)) (watchFn : S → Val) :
    List S → State → State
  | [], st => st
  | scope :: rest, st =>
      passes inputExpressions watchFn rest (watch inputExpressions watchFn scope st).2.1

end inputsWatchDelegate

namespace oneTimeLiteralWatchDelegate

/-- `isAllDefined(val)`, that is `!_.some(val, _.isUndefined)`. The walk of `_.some`
(of `./utils`) over a collection is the parameter `elements`: the elements it meets in
the value as the heap holds it. -/
def isAllDefined (elements : Heap → Val → List Val) (heap : Heap) (val : Val) : Bool :=
  !(elements heap val).any isUndefined

/-- The watch function `() => watchFn(scope)`. -/
def watch {S : Type} (watchFn : S → Val) (scope : S) : Val := watchFn scope

/-- The callback handed to `$$postDigest`: `() => { if(isAllDefined(newValue)) {
unwatch() } }`, with the `newValue` of the listener invocation that scheduled it. -/
def check (elements : Heap → Val → List Val) (unwatch newValue : Val) (_lastValue : Val)
    (heap : Heap) : List Call :=
  if isAllDefined elements heap newValue then [.unwatch unwatch] else []

/-- The heap after `listenerFn.apply(this, arguments)`: what the host function behind
`listenerFn` leaves. -/
def applied (host : Host) (heap : Heap) (listenerFn this : Val) (arguments : List Val) :
    Heap :=
  match listenerFn with
  | .ref a =>
      match (heap.get? a).bind Obj.fn with
      | some i => (host.apply i this arguments heap).2
      | none => heap
  | _ => heap

/-- The listener `function(newValue, oldValue, scope) { ... }`, run on a heap: the heap
it leaves and the effects. -/
def listener (host : Host) (elements : Heap → Val → List Val) (listenerFn : Val)
    (unwatch this : Val) (newValue oldValue scope : Val) (heap : Heap) :
    Heap × List Effect :=
  let r : Heap × List Effect :=
    if isFunction heap listenerFn then
      (applied host heap listenerFn this [newValue, oldValue, scope],
        [.call (.listenerFn this [newValue, oldValue, scope])])
    else (heap, [])
  (r.1, r.2 ++
    (if isAllDefined elements r.1 newValue then
      [.postDigest (check elements unwatch newValue)] else []))

end oneTimeLiteralWatchDelegate

/-- `oneTimeLiteralWatchDelegate(scope, listenerFn, valueEq, watchFn)`. -/
def oneTimeLiteralWatchDelegate {S : Type}
    (scope : Scope S (S → Val)
      (Val → Val → Val → Val → Val → Heap → Heap × List Effect))
    (host : Host) (elements : Heap → Val → List Val)
    (listenerFn valueEq : Val) (watchFn : S → Val) : Val :=
  let unwatch := scope.watch (oneTimeLiteralWatchDelegate.watch watchFn)
    (oneTimeLiteralWatchDelegate.listener host elements listenerFn) valueEq
  unwatch

mutual
/-- The nodes whose `toWatch` comes out empty, following the amended invariant: a
`Literal`, a `ThisExpression`, a unary or binary operation all of whose operands are
such nodes, and an array, an object or a filter call all of whose elements (property
values, arguments) that are not constant are such nodes. (A `Program` gets no `toWatch`
at all.) -/
def Node.watchesNothing : Node → Bool
  | .Program _ => true
  | .Literal _ => true
  | .ThisExpression => true
  | .UnaryExpression _ argument => argument.watchesNothing
  | .BinaryExpression _ left right => left.watchesNothing && right.watchesNothing
  | .ArrayExpression elements => watchNothingAll elements
  | .ObjectExpression properties => watchNothingProperties properties
  | .CallExpression _ arguments filter => filter && watchNothingAll arguments
  | _ => false
/-- Every node of the list that is not constant watches nothing. -/
def watchNothingAll : List Node → Bool
  | [] => true
  | e :: rest =>
      ((markConstantAndWatchExpressions e).constant || e.watchesNothing) &&
        watchNothingAll rest
/-- Every property value that is not constant watches nothing. -/
def watchNothingProperties : List (PropKey × Node) → Bool
  | [] => true
  | p :: rest =>
      ((markConstantAndWatchExpressions p.2).constant || p.2.watchesNothing) &&
        watchNothingProperties rest
end

/-- The AST of `{a: 1, b: 2}; 1`: two statements, an object literal and a number. -/
def objectStatement : Node :=
  .Program [.ObjectExpression [(.Identifier "a", .Literal (.num 1)),
      (.Identifier "b", .Literal (.num 2))],
    .Literal (.num 1)]

/-! ## A host function that answers differently the second time -/

/-- The AST of `a[f()]`. -/
def computedCall : Node :=
  .Program [.MemberExpression (.Identifier "a")
    (.CallExpression (.Identifier "f") [] false) true]

/-- A host with one function, at index 0: it answers `x` as long as the scope at address
0 has no member `called`, sets that member, and answers `__proto__` from then on. -/
def Host.toggling : Host :=
  { functionPrototype := { call := .undefined, bind := .undefined, apply := .undefined },
    filter := fun _ => .undefined,
    apply := fun _ _ _ h =>
      if getProp h (.ref 0) "called" = .undefined then
        (.str "x", writeProp h (.ref 0) "called" (.bool true))
      else (.str "__proto__", h),
    operator := fun _ _ _ => .undefined }

/-- A heap for `Host.toggling`: the scope at address 0 has the members `a`, the object at
address 1, and `f`, the function at address 2; `a` has the members `x` and `__proto__`,
the latter being the object at address 3. -/
def togglingHeap : Heap :=
  [ { props := [("a", .ref 1), ("f", .ref 2)], fn := none },
    { props := [("x", .num 1), ("__proto__", .ref 3)], fn := none },
    { props := [], fn := some 0 },
    { props := [], fn := none } ]

/-! # Verified properties -/

/-! ## The safety guards -/

/-- Strict equality with a string holds only for that string. -/
theorem strictEq_str (a : Val) (s : String) : strictEq a (.str s) = true ↔ a = .str s := by
  cases a <;> simp [strictEq]

/-- C3: `ensureSafeMemberName(name)` raises the security violation exactly when `name`
is strictly equal to one of the six forbidden strings, and returns normally for every
other name. -/
theorem ensureSafeMemberName_raises_iff (name : Val) :
    (ensureSafeMemberName name = .error (.SecurityViolation disallowedField) ↔
      ∃ s ∈ forbiddenMemberNames, name = .str s) ∧
    (ensureSafeMemberName name = .ok () ↔ ¬ ∃ s ∈ forbiddenMemberNames, name = .str s) := by
  unfold ensureSafeMemberName
  simp only [Bool.or_eq_true, strictEq_str, forbiddenMemberNames, List.mem_cons,
    List.mem_singleton, exists_eq_or_imp, exists_eq_left, List.not_mem_nil, false_and,
    exists_false, or_false]
  split_ifs with h
  · simp only [true_iff, reduceCtorEq, false_iff, not_not]
    exact ⟨by tauto, by tauto⟩
  · simp only [reduceCtorEq, false_iff, true_iff]
    exact ⟨by tauto, by tauto⟩

/-- C4: `ensureSafeObject(v)` either raises a security violation or returns `v` itself;
it raises exactly when `v` is truthy and one of the four shapes matches; every falsy
value is returned unchanged. -/
theorem ensureSafeObject_spec (h : Heap) (v : Val) :
    (ensureSafeObject h v = .ok v ∨
      ∃ msg, ensureSafeObject h v = .error (.SecurityViolation msg)) ∧
    ((∃ msg, ensureSafeObject h v = .error (.SecurityViolation msg)) ↔
      truthy v = true ∧
        ((truthy (getProp h v "document") = true ∧ truthy (getProp h v "location") = true ∧
            truthy (getProp h v "alert") = true ∧ truthy (getProp h v "setInterval") = true) ∨
          (truthy (getProp h v "children") = true ∧
            (truthy (getProp h v "nodeName") = true ∨
              (truthy (getProp h v "prop") = true ∧ truthy (getProp h v "attr") = true ∧
                truthy (getProp h v "find") = true))) ∨
          strictEq (getProp h v "constructor") v = true ∨
          (truthy (getProp h v "getOwnPropertyNames") = true ∨
            truthy (getProp h v "getOwnPropertyDescriptor") = true))) ∧
    (truthy v = false → ensureSafeObject h v = .ok v) := by
  unfold ensureSafeObject
  split_ifs <;> simp_all
  all_goals tauto

/-- C5: `ensureSafeFunction(f)` raises a security violation exactly when `f` is truthy
and either is its own constructor or is identical to `call`, `apply` or `bind` of
`Function.prototype`; for every other candidate, the falsy ones included, it returns. -/
theorem ensureSafeFunction_spec (h : Heap) (fp : FunctionPrototype) (f : Val) :
    ((∃ msg, ensureSafeFunction h fp f = .error (.SecurityViolation msg)) ↔
      truthy f = true ∧
        (strictEq (getProp h f "constructor") f = true ∨
          strictEq f fp.call = true ∨ strictEq f fp.apply = true ∨
          strictEq f fp.bind = true)) ∧
    (ensureSafeFunction h fp f = .ok () ↔
      ¬ (truthy f = true ∧
        (strictEq (getProp h f "constructor") f = true ∨
          strictEq f fp.call = true ∨ strictEq f fp.apply = true ∨
          strictEq f fp.bind = true))) ∧
    (truthy f = false → ensureSafeFunction h fp f = .ok ()) := by
  simp only [ensureSafeFunction]
  cases truthy f <;> cases strictEq (getProp h f "constructor") f <;>
    cases strictEq f fp.call <;> cases strictEq f fp.bind <;>
    cases strictEq f fp.apply <;> simp

/-! ## The classifier -/

/-- The loop over elements: when every element is constant nothing is watched. -/
theorem markElements_constant (es : List Node) :
    (markElements es).1 = true → (markElements es).2 = [] := by
  induction es with
  | nil => simp [markElements]
  | cons e rest ih =>
      simp only [markElements, Bool.and_eq_true]
      rintro ⟨h1, h2⟩
      simp [h1, ih h2]

/-- The loop over property values: when every value is constant nothing is watched. -/
theorem markProperties_constant (ps : List (PropKey × Node)) :
    (markProperties ps).1 = true → (markProperties ps).2 = [] := by
  induction ps with
  | nil => simp [markProperties]
  | cons p rest ih =>
      simp only [markProperties, Bool.and_eq_true]
      rintro ⟨h1, h2⟩
      simp [h1, ih h2]

mutual
/-- On a plain node, a node that is not constant watches something. -/
theorem plain_watches : ∀ n : Node, n.plain = true →
    (markConstantAndWatchExpressions n).constant = false →
    (markConstantAndWatchExpressions n).watchList ≠ []
  | .Program _, h, _ => by simp [Node.plain] at h
  | .Literal _, _, hc => by simp [markConstantAndWatchExpressions] at hc
  | .Identifier _, _, _ => by simp [markConstantAndWatchExpressions, Annot.watchList]
  | .ThisExpression, h, _ => by simp [Node.plain] at h
  | .MemberExpression _ _ _, _, _ => by
      simp [markConstantAndWatchExpressions, Annot.watchList]
  | .CallExpression callee arguments isFilter, h, hc => by
      cases isFilter with
      | false => simp [markConstantAndWatchExpressions, Annot.watchList]
      | true =>
          simp only [Node.plain] at h
          simp only [markConstantAndWatchExpressions, Bool.true_and] at hc
          simpa [markConstantAndWatchExpressions, Annot.watchList] using
            plainAll_watches arguments h hc
  | .AssignmentExpression _ _, _, _ => by
      simp [markConstantAndWatchExpressions, Annot.watchList]
  | .UnaryExpression _ argument, h, hc => by
      simp only [Node.plain] at h
      simp only [markConstantAndWatchExpressions] at hc
      simpa [markConstantAndWatchExpressions, Annot.watchList] using
        plain_watches argument h hc
  | .BinaryExpression _ left right, h, hc => by
      simp only [Node.plain, Bool.and_eq_true] at h
      simp only [markConstantAndWatchExpressions, Bool.and_eq_false_iff] at hc
      simp only [markConstantAndWatchExpressions, Annot.watchList, Option.getD_some, ne_eq,
        List.append_eq_nil, not_and]
      rcases hc with hc | hc
      · intro hl
        exact absurd hl (plain_watches left h.1 hc)
      · intro _
        exact plain_watches right h.2 hc
  | .LogicalExpression _ _ _, _, _ => by
      simp [markConstantAndWatchExpressions, Annot.watchList]
  | .ConditionalExpression _ _ _, _, _ => by
      simp [markConstantAndWatchExpressions, Annot.watchList]
  | .ArrayExpression elements, h, hc => by
      simp only [Node.plain] at h
      simp only [markConstantAndWatchExpressions] at hc
      simpa [markConstantAndWatchExpressions, Annot.watchList] using
        plainAll_watches elements h hc
  | .ObjectExpression properties, h, hc => by
      simp only [Node.plain] at h
      simp only [markConstantAndWatchExpressions] at hc
      simpa [markConstantAndWatchExpressions, Annot.watchList] using
        plainProperties_watches properties h hc
/-- The same for the loop over elements. -/
theorem plainAll_watches : ∀ es : List Node, plainAll es = true →
    (markElements es).1 = false → (markElements es).2 ≠ []
  | [], _, hc => by simp [markElements] at hc
  | e :: rest, h, hc => by
      simp only [plainAll, Bool.and_eq_true] at h
      simp only [markElements, Bool.and_eq_false_iff] at hc
      simp only [markElements, ne_eq, List.append_eq_nil, not_and]
      rcases hc with hc | hc
      · intro hl
        simp only [hc, Bool.false_eq_true, ↓reduceIte] at hl
        exact absurd hl (plain_watches e h.1 hc)
      · intro _
        exact plainAll_watches rest h.2 hc
/-- The same for the loop over property values. -/
theorem plainProperties_watches : ∀ ps : List (PropKey × Node), plainProperties ps = true →
    (markProperties ps).1 = false → (markProperties ps).2 ≠ []
  | [], _, hc => by simp [markProperties] at hc
  | p :: rest, h, hc => by
      simp only [plainProperties, Bool.and_eq_true] at h
      simp only [markProperties, Bool.and_eq_false_iff] at hc
      simp only [markProperties, ne_eq, List.append_eq_nil, not_and]
      rcases hc with hc | hc
      · intro hl
        simp only [hc, Bool.false_eq_true, ↓reduceIte] at hl
        exact absurd hl (plain_watches p.2 h.1 hc)
      · intro _
        exact plainProperties_watches rest h.2 hc
end


/-- On a plain node, a constant node watches nothing. -/
theorem plain_constant : ∀ n : Node, n.plain = true →
    (markConstantAndWatchExpressions n).constant = true →
    (markConstantAndWatchExpressions n).watchList = []
  | .Program _, h, _ => by simp [Node.plain] at h
  | .Literal _, _, _ => by simp [markConstantAndWatchExpressions, Annot.watchList]
  | .Identifier _, _, hc => by simp [markConstantAndWatchExpressions] at hc
  | .ThisExpression, h, _ => by simp [Node.plain] at h
  | .MemberExpression _ _ _, h, hc => by
      simp only [Node.plain, Bool.and_eq_true, Bool.not_eq_true'] at h
      rw [h.1.1] at hc
      cases hc
  | .CallExpression callee arguments isFilter, _, hc => by
      cases isFilter with
      | false => simp [markConstantAndWatchExpressions] at hc
      | true =>
          simp only [markConstantAndWatchExpressions, Bool.true_and] at hc
          simpa [markConstantAndWatchExpressions, Annot.watchList] using
            markElements_constant arguments hc
  | .AssignmentExpression _ _, h, hc => by
      simp only [Node.plain, Bool.and_eq_true, Bool.not_eq_true'] at h
      rw [h.1.1] at hc
      cases hc
  | .UnaryExpression _ argument, h, hc => by
      simp only [Node.plain] at h
      simp only [markConstantAndWatchExpressions] at hc
      simpa [markConstantAndWatchExpressions, Annot.watchList] using
        plain_constant argument h hc
  | .BinaryExpression _ left right, h, hc => by
      simp only [Node.plain, Bool.and_eq_true] at h
      simp only [markConstantAndWatchExpressions, Bool.and_eq_true] at hc
      simp only [markConstantAndWatchExpressions, Annot.watchList, Option.getD_some,
        List.append_eq_nil]
      exact ⟨plain_constant left h.1 hc.1, plain_constant right h.2 hc.2⟩
  | .LogicalExpression _ _ _, h, hc => by
      simp only [Node.plain, Bool.and_eq_true, Bool.not_eq_true'] at h
      rw [h.1.1] at hc
      cases hc
  | .ConditionalExpression _ _ _, h, hc => by
      simp only [Node.plain, Bool.and_eq_true, Bool.not_eq_true'] at h
      rw [h.1.1.1] at hc
      cases hc
  | .ArrayExpression elements, _, hc => by
      simp only [markConstantAndWatchExpressions] at hc
      simpa [markConstantAndWatchExpressions, Annot.watchList] using
        markElements_constant elements hc
  | .ObjectExpression properties, _, hc => by
      simp only [markConstantAndWatchExpressions] at hc
      simpa [markConstantAndWatchExpressions, Annot.watchList] using
        markProperties_constant properties hc

/-- Every annotated node among whose visited sub-expressions, itself
included, there is no `ThisExpression`, no `Program` and no constant
`MemberExpression`, `AssignmentExpression`, `LogicalExpression` or
`ConditionalExpression` satisfies both directions of the invariant. -/
theorem watchInvariant_of_plain (n : Node) (h : n.plain = true) :
    watchInvariant (markConstantAndWatchExpressions n) :=
  ⟨plain_constant n h, plain_watches n h⟩

/-- The sum `a + 1` is plain and satisfies the invariant. -/
theorem watchInvariant_of_plain_witness :
    (Node.BinaryExpression "+" (.Identifier "a") (.Literal (.num 1))).plain = true ∧
      watchInvariant (markConstantAndWatchExpressions
        (.BinaryExpression "+" (.Identifier "a") (.Literal (.num 1)))) :=
  ⟨by decide, watchInvariant_of_plain _ (by decide)⟩

/-- C7, counterexample: `this` is not constant and watches nothing, and the constant
`1 && 2` watches itself; both break the invariant. -/
theorem watchInvariant_counterexample :
    ¬ watchInvariant (markConstantAndWatchExpressions .ThisExpression) ∧
    ¬ watchInvariant (markConstantAndWatchExpressions
        (.LogicalExpression "&&" (.Literal (.num 1)) (.Literal (.num 2)))) := by
  constructor
  · intro h
    exact h.2 (by simp [markConstantAndWatchExpressions])
      (by simp [markConstantAndWatchExpressions, Annot.watchList])
  · intro h
    have := h.1 (by simp [markConstantAndWatchExpressions])
    simp [markConstantAndWatchExpressions, Annot.watchList] at this

/-- The loop over elements collects, in order, what the elements that are not constant
watch. -/
theorem markElements_watch (es : List Node) :
    (markElements es).2 =
      ((es.filter fun e => !(markConstantAndWatchExpressions e).constant).map
        fun e => (markConstantAndWatchExpressions e).watchList).flatten := by
  induction es with
  | nil => simp [markElements]
  | cons e rest ih =>
      simp only [markElements, ih, List.filter_cons]
      cases (markConstantAndWatchExpressions e).constant <;> simp

/-- The loop over property values collects, in order, what the values that are not
constant watch. -/
theorem markProperties_watch (ps : List (PropKey × Node)) :
    (markProperties ps).2 =
      ((ps.filter fun p => !(markConstantAndWatchExpressions p.2).constant).map
        fun p => (markConstantAndWatchExpressions p.2).watchList).flatten := by
  induction ps with
  | nil => simp [markProperties]
  | cons p rest ih =>
      simp only [markProperties, ih, List.filter_cons]
      cases (markConstantAndWatchExpressions p.2).constant <;> simp

/-- C9: the classifier sets `toWatch` to the one-element list holding the node itself
for every `Identifier`, `MemberExpression`, non-filter `CallExpression`,
`AssignmentExpression`, `LogicalExpression` and `ConditionalExpression`, whatever its
children are; and a non-filter call is never constant. -/
theorem toWatch_self :
    (∀ name, (markConstantAndWatchExpressions (.Identifier name)).toWatch =
      some [.Identifier name]) ∧
    (∀ object property computed,
      (markConstantAndWatchExpressions (.MemberExpression object property computed)).toWatch =
        some [.MemberExpression object property computed]) ∧
    (∀ callee arguments,
      (markConstantAndWatchExpressions (.CallExpression callee arguments false)).toWatch =
        some [.CallExpression callee arguments false] ∧
      (markConstantAndWatchExpressions (.CallExpression callee arguments false)).constant =
        false) ∧
    (∀ left right,
      (markConstantAndWatchExpressions (.AssignmentExpression left right)).toWatch =
        some [.AssignmentExpression left right]) ∧
    (∀ operator left right,
      (markConstantAndWatchExpressions (.LogicalExpression operator left right)).toWatch =
        some [.LogicalExpression operator left right]) ∧
    (∀ test consequent alternate,
      (markConstantAndWatchExpressions
        (.ConditionalExpression test consequent alternate)).toWatch =
        some [.ConditionalExpression test consequent alternate]) := by
  simp [markConstantAndWatchExpressions]

/-- C10: for the decomposable node types `toWatch` is a concatenation in source order:
empty for a literal, the operand's for a unary expression, left then right for a binary
expression, and for array, object and filter call the lists of the children that are
not constant, in child order. -/
theorem toWatch_concat :
    (∀ value, (markConstantAndWatchExpressions (.Literal value)).toWatch = some []) ∧
    (∀ operator argument,
      (markConstantAndWatchExpressions (.UnaryExpression operator argument)).toWatch =
        (markConstantAndWatchExpressions argument).toWatch) ∧
    (∀ operator left right,
      (markConstantAndWatchExpressions (.BinaryExpression operator left right)).toWatch =
        some ((markConstantAndWatchExpressions left).watchList ++
          (markConstantAndWatchExpressions right).watchList)) ∧
    (∀ elements,
      (markConstantAndWatchExpressions (.ArrayExpression elements)).toWatch =
        some ((elements.filter fun e => !(markConstantAndWatchExpressions e).constant).map
          fun e => (markConstantAndWatchExpressions e).watchList).flatten) ∧
    (∀ properties,
      (markConstantAndWatchExpressions (.ObjectExpression properties)).toWatch =
        some ((properties.filter fun p => !(markConstantAndWatchExpressions p.2).constant).map
          fun p => (markConstantAndWatchExpressions p.2).watchList).flatten) ∧
    (∀ callee arguments,
      (markConstantAndWatchExpressions (.CallExpression callee arguments true)).toWatch =
        some ((arguments.filter fun e => !(markConstantAndWatchExpressions e).constant).map
          fun e => (markConstantAndWatchExpressions e).watchList).flatten) := by
  refine ⟨?_, ?_, ?_, ?_, ?_, ?_⟩
  · simp [markConstantAndWatchExpressions]
  · simp [markConstantAndWatchExpressions]
  · simp [markConstantAndWatchExpressions]
  · intro elements
    simp [markConstantAndWatchExpressions, markElements_watch]
  · intro properties
    simp [markConstantAndWatchExpressions, markProperties_watch]
  · intro callee arguments
    simp [markConstantAndWatchExpressions, markElements_watch]

/-! ## Code generation: what it can throw -/

open ASTCompiler

theorem OnlyViolation.pure {α : Type} (a : α) : OnlyViolation (Pure.pure a : Gen α) := by
  intro st e h
  simp [StateT.run, Pure.pure, StateT.pure, Except.pure] at h

theorem OnlyViolation.bind {α β : Type} {x : Gen α} {f : α → Gen β}
    (hx : OnlyViolation x) (hf : ∀ a, OnlyViolation (f a)) : OnlyViolation (x >>= f) := by
  intro st e h
  simp only [StateT.run_bind] at h
  cases hr : x.run st with
  | error e' =>
      rw [hr] at h
      simp only [Bind.bind, Except.bind] at h
      cases h
      exact hx st _ hr
  | ok r =>
      rw [hr] at h
      simp only [Bind.bind, Except.bind] at h
      exact hf r.1 r.2 e h

theorem OnlyViolation.push (stmt : JStmt) : OnlyViolation (push stmt) := by
  intro st e h
  simp [ASTCompiler.push, modify, modifyGet, MonadStateOf.modifyGet, StateT.modifyGet,
    StateT.run, Pure.pure, Except.pure] at h

theorem OnlyViolation.nextId (skip : Bool) : OnlyViolation (nextId skip) := by
  intro st e h
  cases skip <;>
  simp [ASTCompiler.nextId, modify, modifyGet, MonadStateOf.modifyGet, StateT.modifyGet,
    StateT.run, Pure.pure, Except.pure, get, getThe, MonadStateOf.get, StateT.get, set,
    StateT.set, Bind.bind, StateT.bind, Except.bind, StateT.pure] at h

theorem OnlyViolation.filter (name : String) : OnlyViolation (filter name) := by
  intro st e h
  simp only [ASTCompiler.filter, StateT.run_bind] at h
  cases hl : st.filters.lookup name <;>
  simp [hl, StateT.run, Pure.pure, Except.pure, get, getThe, MonadStateOf.get, StateT.get, set,
    StateT.set, Bind.bind, StateT.bind, Except.bind, StateT.pure] at h

theorem OnlyViolation.checkName (name : String) : OnlyViolation (checkName name) := by
  intro st e h
  unfold ASTCompiler.checkName at h
  unfold ensureSafeMemberName at h
  split_ifs at h
  · simp [StateT.run, throw, throwThe, MonadExceptOf.throw, StateT.lift, liftM, monadLift, MonadLift.monadLift, Bind.bind, Except.bind] at h
    exact h.symm
  · simp [StateT.run, Pure.pure, StateT.pure, Except.pure] at h

theorem OnlyViolation.ite {α : Type} (c : Prop) [Decidable c] {a b : Gen α}
    (ha : OnlyViolation a) (hb : OnlyViolation b) : OnlyViolation (if c then a else b) := by
  split <;> assumption

theorem OnlyViolation.if_ (t c : JExpr) : OnlyViolation (if_ t c) := OnlyViolation.push _
theorem OnlyViolation.addEnsureSafeMemberName (e : JExpr) :
    OnlyViolation (addEnsureSafeMemberName e) := OnlyViolation.push _
theorem OnlyViolation.addEnsureSafeObject (e : JExpr) :
    OnlyViolation (addEnsureSafeObject e) := OnlyViolation.push _
theorem OnlyViolation.addEnsureSafeFunction (e : JExpr) :
    OnlyViolation (addEnsureSafeFunction e) := OnlyViolation.push _

mutual
theorem recurse_onlyViolation : ∀ (n : Node) (create : Bool), n.expression = true →
    OnlyViolation (recurse n create)
  | .Program _, _, h => by simp [Node.expression] at h
  | .Literal _, _, _ => by
      simp only [recurse]
      exact OnlyViolation.pure _
  | .ArrayExpression elements, _, h => by
      simp only [Node.expression] at h
      simp only [recurse]
      exact OnlyViolation.bind (recurseAll_onlyViolation elements h) fun _ => OnlyViolation.pure _
  | .ObjectExpression properties, _, h => by
      simp only [Node.expression] at h
      simp only [recurse]
      exact OnlyViolation.bind (recurseProperties_onlyViolation properties h)
        fun _ => OnlyViolation.pure _
  | .Identifier name, create, _ => by
      simp only [recurse]
      repeat' first
        | apply OnlyViolation.bind
        | apply OnlyViolation.ite
        | apply OnlyViolation.pure
        | apply OnlyViolation.checkName
        | apply OnlyViolation.nextId
        | apply OnlyViolation.if_
        | apply OnlyViolation.addEnsureSafeObject
        | intro _
  | .ThisExpression, _, _ => by
      simp only [recurse]
      exact OnlyViolation.pure _
  | .MemberExpression object property computed, create, h => by
      simp only [Node.expression, Bool.and_eq_true] at h
      have ho := fun c => recurse_onlyViolation object c h.1
      have hp := fun c => recurse_onlyViolation property c h.2
      simp only [recurse]
      repeat' first
        | apply ho
        | apply hp
        | apply OnlyViolation.bind
        | apply OnlyViolation.ite
        | apply OnlyViolation.pure
        | apply OnlyViolation.checkName
        | apply OnlyViolation.nextId
        | apply OnlyViolation.if_
        | apply OnlyViolation.addEnsureSafeObject
        | apply OnlyViolation.addEnsureSafeMemberName
        | intro _
  | .CallExpression callee arguments isFilter, create, h => by
      simp only [Node.expression, Bool.and_eq_true] at h
      have hc := fun c => recurse_onlyViolation callee c h.1
      have ha := recurseAll_onlyViolation arguments h.2
      simp only [recurse]
      repeat' first
        | exact hc _
        | exact ha
        | exact OnlyViolation.filter _
        | exact OnlyViolation.addEnsureSafeObject _
        | exact OnlyViolation.addEnsureSafeFunction _
        | exact OnlyViolation.pure _
        | apply OnlyViolation.bind
        | apply OnlyViolation.ite
        | split
        | intro _
  | .AssignmentExpression left right, _, h => by
      simp only [Node.expression, Bool.and_eq_true] at h
      have hl := fun c => recurse_onlyViolation left c h.1
      have hr := fun c => recurse_onlyViolation right c h.2
      simp only [recurse]
      repeat' first
        | apply hl
        | apply hr
        | apply OnlyViolation.bind
        | apply OnlyViolation.pure
        | intro _
  | .UnaryExpression _ argument, _, h => by
      simp only [Node.expression] at h
      have ha := fun c => recurse_onlyViolation argument c h
      simp only [recurse]
      repeat' first
        | apply ha
        | apply OnlyViolation.bind
        | apply OnlyViolation.pure
        | intro _
  | .BinaryExpression _ left right, _, h => by
      simp only [Node.expression, Bool.and_eq_true] at h
      have hl := fun c => recurse_onlyViolation left c h.1
      have hr := fun c => recurse_onlyViolation right c h.2
      simp only [recurse]
      repeat' first
        | apply hl
        | apply hr
        | apply OnlyViolation.bind
        | apply OnlyViolation.ite
        | apply OnlyViolation.pure
        | intro _
  | .LogicalExpression _ left right, _, h => by
      simp only [Node.expression, Bool.and_eq_true] at h
      have hl := fun c => recurse_onlyViolation left c h.1
      have hr := fun c => recurse_onlyViolation right c h.2
      simp only [recurse]
      repeat' first
        | apply hl
        | apply hr
        | apply OnlyViolation.bind
        | apply OnlyViolation.pure
        | apply OnlyViolation.nextId
        | apply OnlyViolation.if_
        | apply OnlyViolation.push
        | intro _
  | .ConditionalExpression test consequent alternate, _, h => by
      simp only [Node.expression, Bool.and_eq_true] at h
      have ht := fun c => recurse_onlyViolation test c h.1.1
      have hc := fun c => recurse_onlyViolation consequent c h.1.2
      have ha := fun c => recurse_onlyViolation alternate c h.2
      simp only [recurse]
      repeat' first
        | apply ht
        | apply hc
        | apply ha
        | apply OnlyViolation.bind
        | apply OnlyViolation.pure
        | apply OnlyViolation.nextId
        | apply OnlyViolation.if_
        | apply OnlyViolation.push
        | intro _
theorem recurseAll_onlyViolation : ∀ es : List Node, expressionAll es = true →
    OnlyViolation (recurseAll es)
  | [], _ => by
      simp only [recurseAll]
      exact OnlyViolation.pure _
  | e :: rest, h => by
      simp only [expressionAll, Bool.and_eq_true] at h
      simp only [recurseAll]
      exact OnlyViolation.bind (recurse_onlyViolation e false h.1) fun _ =>
        OnlyViolation.bind (recurseAll_onlyViolation rest h.2) fun _ => OnlyViolation.pure _
theorem recurseProperties_onlyViolation : ∀ ps : List (PropKey × Node),
    expressionProperties ps = true → OnlyViolation (recurseProperties ps)
  | [], _ => by
      simp only [recurseProperties]
      exact OnlyViolation.pure _
  | p :: rest, h => by
      simp only [expressionProperties, Bool.and_eq_true] at h
      simp only [recurseProperties]
      exact OnlyViolation.bind (recurse_onlyViolation p.2 false h.1) fun _ =>
        OnlyViolation.bind (recurseProperties_onlyViolation rest h.2) fun _ =>
          OnlyViolation.pure _
end

/-- The compile-time check throws on each of the six names. -/
theorem checkName_forbidden (name : String) (h : name ∈ forbiddenMemberNames) (st : State) :
    (checkName name).run st = .error (.SecurityViolation disallowedField) := by
  simp only [forbiddenMemberNames, List.mem_cons, List.mem_singleton, List.not_mem_nil,
    or_false] at h
  rcases h with h | h | h | h | h | h <;> subst h <;> rfl

/-- Generating the code of an identifier with one of the six names throws. -/
theorem recurse_identifier_forbidden (name : String) (h : name ∈ forbiddenMemberNames)
    (create : Bool) (st : State) :
    (recurse (.Identifier name) create).run st =
      .error (.SecurityViolation disallowedField) := by
  simp only [recurse, StateT.run_bind, checkName_forbidden name h]
  rfl

/-- Generating the code of a static member access with one of the six names throws. -/
theorem recurse_member_forbidden (object : Node) (name : String)
    (h : name ∈ forbiddenMemberNames) (hobj : object.expression = true)
    (create : Bool) (st : State) :
    (recurse (.MemberExpression object (.Identifier name) false) create).run st =
      .error (.SecurityViolation disallowedField) := by
  simp only [recurse, StateT.run_bind, nameOf, Bool.false_eq_true, ↓reduceIte]
  cases h1 : (nextId false).run st with
  | error e => 
      rw [OnlyViolation.nextId false st e h1]; rfl
  | ok r1 =>
      simp only [Bind.bind, Except.bind]
      cases h2 : (recurse object create).run r1.2 with
      | error e =>
          rw [recurse_onlyViolation object create hobj r1.2 e h2]
      | ok r2 =>
          simp only [checkName_forbidden name h]

/-- A program of one statement fails in code generation when its statement does. -/
theorem recurse_program_error (n : Node) (create : Bool) (st : State) (e : Thrown)
    (h : (recurse n false).run st = .error e) :
    (recurse (.Program [n]) create).run st = .error e := by
  simp only [recurse, recurseProgram, StateT.run_bind, h]
  rfl

/-- The text fails to compile when code generation fails on its AST. -/
theorem compile_error (host : Host) (astBuilder : String → Node) (text : String) (e : Thrown)
    (h : (recurse (astBuilder text) false).run initialState = .error e) :
    compile host astBuilder text = .error e := by
  unfold compile
  simp only [h]
  rfl

/-- C1: for a static member access `obj.name` and for an identifier `name`, with `name`
one of the six forbidden names, the member-name guard fires in the compile step: no
evaluator is returned, so compiling and evaluating raises the security violation for
every pair of contexts. -/
theorem compile_forbidden_name (host : Host) (astBuilder : String → Node) (text : String)
    (object : Node) (name : String) (hname : name ∈ forbiddenMemberNames)
    (hobj : object.expression = true)
    (hast : astBuilder text = .Program [.MemberExpression object (.Identifier name) false] ∨
      astBuilder text = .Program [.Identifier name]) :
    compile host astBuilder text = .error (.SecurityViolation disallowedField) ∧
      ∀ s l heap, evaluate host astBuilder text s l heap =
        .error (.SecurityViolation disallowedField) := by
  have hc : compile host astBuilder text = .error (.SecurityViolation disallowedField) := by
    apply compile_error
    rcases hast with hast | hast <;> rw [hast] <;> apply recurse_program_error
    · exact recurse_member_forbidden object name hname hobj false _
    · exact recurse_identifier_forbidden name hname false _
  refine ⟨hc, fun s l heap => ?_⟩
  unfold evaluate
  rw [hc]
  rfl

/-- C1, witness: `a.constructor` does not compile. -/
theorem compile_forbidden_name_witness :
    "constructor" ∈ forbiddenMemberNames ∧
    compile Host.bare
      (fun _ => .Program [.MemberExpression (.Identifier "a") (.Identifier "constructor") false])
      "a.constructor" = .error (.SecurityViolation disallowedField) :=
  ⟨by decide,
    (compile_forbidden_name Host.bare _ "a.constructor" (.Identifier "a") "constructor"
      (by decide) (by decide) (Or.inl rfl)).1⟩

/-! ## Literal-only expressions -/

mutual
/-- The classifier marks every literal-only node constant. -/
theorem literalOnly_constant : ∀ n : Node, n.literalOnly = true →
    (markConstantAndWatchExpressions n).constant = true
  | .Literal _, _ => by simp [markConstantAndWatchExpressions]
  | .ArrayExpression elements, h => by
      simp only [Node.literalOnly] at h
      simpa [markConstantAndWatchExpressions] using literalOnlyAll_constant elements h
  | .ObjectExpression properties, h => by
      simp only [Node.literalOnly] at h
      simpa [markConstantAndWatchExpressions] using literalOnlyProperties_constant properties h
  | .Program _, h | .Identifier _, h | .ThisExpression, h | .MemberExpression _ _ _, h
  | .CallExpression _ _ _, h | .AssignmentExpression _ _, h | .UnaryExpression _ _, h
  | .BinaryExpression _ _ _, h | .LogicalExpression _ _ _, h
  | .ConditionalExpression _ _ _, h => by simp [Node.literalOnly] at h
theorem literalOnlyAll_constant : ∀ es : List Node, literalOnlyAll es = true →
    (markElements es).1 = true
  | [], _ => by simp [markElements]
  | e :: rest, h => by
      simp only [literalOnlyAll, Bool.and_eq_true] at h
      simp [markElements, literalOnly_constant e h.1, literalOnlyAll_constant rest h.2]
theorem literalOnlyProperties_constant : ∀ ps : List (PropKey × Node),
    literalOnlyProperties ps = true → (markProperties ps).1 = true
  | [], _ => by simp [markProperties]
  | p :: rest, h => by
      simp only [literalOnlyProperties, Bool.and_eq_true] at h
      simp [markProperties, literalOnly_constant p.2 h.1,
        literalOnlyProperties_constant rest h.2]
end

/-- The loop of the `Program` case finds every statement constant. -/
theorem literalOnlyAll_markBody : ∀ body : List Node, literalOnlyAll body = true →
    markBody body = true
  | [], _ => by simp [markBody]
  | e :: rest, h => by
      simp only [literalOnlyAll, Bool.and_eq_true] at h
      simp [markBody, literalOnly_constant e h.1, literalOnlyAll_markBody rest h.2]

mutual
/-- Code generation for a literal-only node succeeds, leaves the state alone and
returns text without an assignment. -/
theorem recurse_literalOnly : ∀ (n : Node) (create : Bool) (st : State),
    n.literalOnly = true →
    ∃ e, (recurse n create).run st = .ok ((e, none), st) ∧ e.noAssign = true
  | .Literal value, _, st, _ => ⟨.lit value, by simp only [recurse]; rfl, rfl⟩
  | .ArrayExpression elements, _, st, h => by
      simp only [Node.literalOnly] at h
      obtain ⟨es, h1, h2⟩ := recurseAll_literalOnly elements st h
      refine ⟨.array es, ?_, by simpa [JExpr.noAssign] using h2⟩
      simp only [recurse, StateT.run_bind, h1]
      rfl
  | .ObjectExpression properties, _, st, h => by
      simp only [Node.literalOnly] at h
      obtain ⟨ps, h1, h2⟩ := recurseProperties_literalOnly properties st h
      refine ⟨.object ps, ?_, by simpa [JExpr.noAssign] using h2⟩
      simp only [recurse, StateT.run_bind, h1]
      rfl
  | .Program _, _, _, h | .Identifier _, _, _, h | .ThisExpression, _, _, h
  | .MemberExpression _ _ _, _, _, h
  | .CallExpression _ _ _, _, _, h | .AssignmentExpression _ _, _, _, h
  | .UnaryExpression _ _, _, _, h
  | .BinaryExpression _ _ _, _, _, h | .LogicalExpression _ _ _, _, _, h
  | .ConditionalExpression _ _ _, _, _, h => by simp [Node.literalOnly] at h
theorem recurseAll_literalOnly : ∀ (es : List Node) (st : State),
    literalOnlyAll es = true →
    ∃ xs, (recurseAll es).run st = .ok (xs, st) ∧ noAssignAll xs = true
  | [], st, _ => ⟨[], by simp only [recurseAll]; rfl, rfl⟩
  | e :: rest, st, h => by
      simp only [literalOnlyAll, Bool.and_eq_true] at h
      obtain ⟨x, h1, h2⟩ := recurse_literalOnly e false st h.1
      obtain ⟨xs, h3, h4⟩ := recurseAll_literalOnly rest st h.2
      refine ⟨x :: xs, ?_, by simp [noAssignAll, h2, h4]⟩
      simp only [recurseAll, StateT.run_bind, h1]
      simp only [Bind.bind, Except.bind, h3]
      rfl
theorem recurseProperties_literalOnly : ∀ (ps : List (PropKey × Node)) (st : State),
    literalOnlyProperties ps = true →
    ∃ xs, (recurseProperties ps).run st = .ok (xs, st) ∧ noAssignProperties xs = true
  | [], st, _ => ⟨[], by simp only [recurseProperties]; rfl, rfl⟩
  | p :: rest, st, h => by
      simp only [literalOnlyProperties, Bool.and_eq_true] at h
      obtain ⟨x, h1, h2⟩ := recurse_literalOnly p.2 false st h.1
      obtain ⟨xs, h3, h4⟩ := recurseProperties_literalOnly rest st h.2
      refine ⟨(p.1, x) :: xs, ?_, by simp [noAssignProperties, h2, h4]⟩
      simp only [recurseProperties, StateT.run_bind, h1]
      simp only [Bind.bind, Except.bind, h3]
      rfl
end

/-- Text without an assignment is accepted where a statement ends. -/
theorem closesStatement_of_noAssign (e : JExpr) (h : e.noAssign = true) :
    e.closesStatement = true := by
  cases e <;> simp_all [JExpr.closesStatement, JExpr.noAssign]

/-- The text of a literal-only node that is not an object literal is accepted where a
statement starts. -/
theorem recurse_literalOnly_statement (n : Node) (create : Bool) (st : State)
    (h : n.literalOnly = true) (hobj : n.isObject = false) :
    ∃ e, (recurse n create).run st = .ok ((e, none), st) ∧
      e.standsAsStatement [] = true := by
  cases n with
  | Literal value => exact ⟨.lit value, by simp only [recurse]; rfl, rfl⟩
  | ArrayExpression elements =>
      simp only [Node.literalOnly] at h
      obtain ⟨es, h1, h2⟩ := recurseAll_literalOnly elements st h
      refine ⟨.array es, ?_, by simpa [JExpr.standsAsStatement, JExpr.noAssign] using h2⟩
      simp only [recurse, StateT.run_bind, h1]
      rfl
  | ObjectExpression properties => simp [Node.isObject] at hobj
  | _ => simp [Node.literalOnly] at h

/-- Code generation for a non-empty program of literal-only statements, none of which
but the last is an object literal, succeeds and only appends accepted statements. -/
theorem recurseProgram_literalOnly : ∀ (body : List Node) (st : State),
    body ≠ [] → literalOnlyAll body = true → (∀ n ∈ body.dropLast, n.isObject = false) →
    ∃ stmts, (recurseProgram body).run st = .ok ((), { st with body := st.body ++ stmts }) ∧
      stmts.all JStmt.accepted = true
  | [], _, h, _, _ => absurd rfl h
  | [n], st, _, h, _ => by
      simp only [literalOnlyAll, Bool.and_eq_true] at h
      obtain ⟨x, h1, h2⟩ := recurse_literalOnly n false st h.1
      refine ⟨[.ret x], ?_, by simp [JStmt.accepted, closesStatement_of_noAssign x h2]⟩
      simp only [recurseProgram, StateT.run_bind, h1]
      rfl
  | n :: m :: rest, st, _, h, hobj => by
      simp only [literalOnlyAll, Bool.and_eq_true] at h
      obtain ⟨x, h1, h2⟩ := recurse_literalOnly_statement n false st h.1
        (hobj n (by simp [List.dropLast]))
      obtain ⟨stmts, h3, h4⟩ := recurseProgram_literalOnly (m :: rest)
        { st with body := st.body ++ [.expr x] } (by simp)
        (by simp [literalOnlyAll, h.2])
        (fun k hk => hobj k (by
          simp only [List.dropLast_cons₂, List.mem_cons]
          exact Or.inr hk))
      refine ⟨.expr x :: stmts, ?_, by simp [JStmt.accepted, h2, h4]⟩
      rw [recurseProgram]
      simp only [StateT.run_bind, h1]
      simp only [Bind.bind, Except.bind]
      have : (push (JStmt.expr x)).run st = .ok ((), { st with body := st.body ++ [.expr x] }) :=
        rfl
      simp only [this, h3, List.append_assoc, List.singleton_append]

/-- `isLiteral` answers on every program. -/
theorem isLiteral_program (body : List Node) : ∃ b, isLiteral (.Program body) = .ok b := by
  simp only [isLiteral]
  split <;> exact ⟨_, rfl⟩

/-- A non-empty program of literal-only statements, none of which but the last is an
object literal, compiles, to a constant evaluator without delegate. -/
theorem compile_literalOnly (host : Host) (astBuilder : String → Node) (text : String)
    (body : List Node) (hne : body ≠ []) (hlit : literalOnlyAll body = true)
    (hobj : ∀ n ∈ body.dropLast, n.isObject = false)
    (hast : astBuilder text = .Program body) :
    ∃ fn, compile host astBuilder text = .ok fn ∧ fn.constant = true ∧
      fn.watchDelegate = none := by
  obtain ⟨stmts, h1, h2⟩ := recurseProgram_literalOnly body initialState hne hlit hobj
  obtain ⟨b, hb⟩ := isLiteral_program body
  have hrun : (recurse (.Program body) false).run initialState =
      .ok ((.var .undefined, none), { initialState with body := initialState.body ++ stmts }) := by
    simp only [recurse, StateT.run_bind, h1]
    rfl
  refine ⟨{ code := { filters := [], vars := [], body := stmts },
            literal := b, constant := true, inputs := none, watchDelegate := none }, ?_, rfl, rfl⟩
  unfold compile
  simp only [hast, hrun]
  simp only [Bind.bind, Except.bind, initialState, List.nil_append, h2, ↓reduceIte, hb,
    markConstantAndWatchExpressions, literalOnlyAll_markBody body hlit, List.map_nil]
  rfl

/-- For an expression built from literals, array literals and object literals only, the
classifier marks every node and the `Program` root constant; when no statement but the
last is an object literal, the compiled evaluator is constant, and `parse` attaches the
constant delegate, with or without the one-time marker in front. -/
theorem parse_literalOnly (host : Host) (astBuilder : String → Node) (text : String)
    (body : List Node) (hne : body ≠ []) (hlit : literalOnlyAll body = true)
    (hobj : ∀ n ∈ body.dropLast, n.isObject = false)
    (hast : astBuilder (if oneTimeMarker text then text.drop 2 else text) = .Program body) :
    (∀ n : Node, n.literalOnly = true →
      (markConstantAndWatchExpressions n).constant = true) ∧
    (markConstantAndWatchExpressions (.Program body)).constant = true ∧
    ∃ fn, compile host astBuilder (if oneTimeMarker text then text.drop 2 else text) = .ok fn ∧
      fn.constant = true ∧
      parse host astBuilder (.string text) =
        .ok (.evaluator { fn with watchDelegate := some .constantWatchDelegate }) := by
  refine ⟨literalOnly_constant, ?_, ?_⟩
  · simp [markConstantAndWatchExpressions, literalOnlyAll_markBody body hlit]
  · obtain ⟨fn, h1, h2, _⟩ := compile_literalOnly host astBuilder _ body hne hlit hobj hast
    refine ⟨fn, h1, h2, ?_⟩
    unfold parse
    simp only [h1, Bind.bind, Except.bind, attachDelegate, h2, ↓reduceIte]
    rfl

/-- The text `::[1, {a: 2}]` gets the constant delegate. -/
theorem parse_literalOnly_witness :
    literalOnlyAll [.ArrayExpression [.Literal (.num 1),
        .ObjectExpression [(.Identifier "a", .Literal (.num 2))]]] = true ∧
    ∃ fn : Evaluator, parse Host.bare
        (fun _ => .Program [.ArrayExpression [.Literal (.num 1),
          .ObjectExpression [(.Identifier "a", .Literal (.num 2))]]])
        (.string "::[1, {a: 2}]") =
      .ok (.evaluator { fn with watchDelegate := some .constantWatchDelegate }) := by
  refine ⟨by decide, ?_⟩
  obtain ⟨_, _, fn, _, _, h⟩ := parse_literalOnly Host.bare
    (fun _ => .Program [.ArrayExpression [.Literal (.num 1),
      .ObjectExpression [(.Identifier "a", .Literal (.num 2))]]])
    "::[1, {a: 2}]"
    [.ArrayExpression [.Literal (.num 1),
      .ObjectExpression [(.Identifier "a", .Literal (.num 2))]]]
    (by simp) (by decide) (by simp) rfl
  exact ⟨fn, h⟩

/-! ## Code generation for identifiers and computed members -/

/-- The compile-time check passes on every other name. -/
theorem checkName_safe (name : String) (h : name ∉ forbiddenMemberNames) (st : State) :
    (checkName name).run st = .ok ((), st) := by
  simp only [forbiddenMemberNames, List.mem_cons, List.mem_singleton, List.not_mem_nil,
    or_false, not_or] at h
  have hs : ensureSafeMemberName (.str name) = .ok () := by
    simp [ensureSafeMemberName, strictEq, h]
  simp only [checkName, hs]
  rfl

/-- The code generated for an identifier with a safe name. -/
theorem recurse_identifier_safe (name : String) (h : name ∉ forbiddenMemberNames)
    (st : State) :
    (recurse (.Identifier name) false).run st =
      .ok ((.var (.v st.nextId),
          some { context := .cond (getHasOwnProperty .l name) (.var .l) (.var .s),
                 name := .static name }),
        { st with
          body := st.body ++ identifierBlock st.nextId name,
          nextId := st.nextId + 1,
          vars := st.vars ++ [.v st.nextId] }) := by
  simp only [recurse, StateT.run_bind, checkName_safe name h]
  simp [Bind.bind, Except.bind, StateT.run, nextId, ASTCompiler.if_, push, addEnsureSafeObject,
    StateT.bind, get, getThe, MonadStateOf.get, StateT.get, set, StateT.set, modify, modifyGet,
    MonadStateOf.modifyGet, StateT.modifyGet, Pure.pure, StateT.pure, Except.pure,
    identifierBlock]

/-- The `MemberExpression` case for a computed member, outside `create` mode. -/
theorem recurse_computed (object property : Node) :
    recurse (.MemberExpression object property true) false = (do
      let intoId ← nextId false
      let left ← recurse object false
      let right ← recurse property false
      addEnsureSafeMemberName right.1
      if_ left.1 (assign intoId (.ensureSafeObject (computedMember left.1 right.1)))
      pure (intoId, some { context := left.1, name := .computed right.1 })) := by
  simp only [recurse, ↓reduceIte, Bool.false_eq_true]
  rfl

/-- The `Program` case for a single statement. -/
theorem recurse_program_single (n : Node) :
    recurse (.Program [n]) false =
      ((do let last ← recurse n false; push (.ret last.1)) >>= fun _ =>
        pure (.var .undefined, none)) := by
  simp only [recurse, recurseProgram]

/-- The evaluator compiled from an identifier with a safe name. -/
theorem compile_identifier (host : Host) (astBuilder : String → Node) (text : String)
    (name : String) (h : name ∉ forbiddenMemberNames)
    (hast : astBuilder text = .Program [.Identifier name]) :
    compile host astBuilder text =
      .ok { code := { filters := [], vars := [.v 0],
                      body := identifierBlock 0 name ++ [.ret (.var (.v 0))] },
            literal := false, constant := false, inputs := none, watchDelegate := none } := by
  unfold compile
  simp only [hast, recurse_program_single, StateT.run_bind, recurse_identifier_safe name h]
  simp [Bind.bind, Except.bind, StateT.run, push, modify, modifyGet,
    MonadStateOf.modifyGet, StateT.modifyGet, Pure.pure, StateT.pure, Except.pure,
    initialState, identifierBlock, JStmt.accepted, JExpr.closesStatement, JExpr.noAssign,
    JExpr.standsAsStatement,
    getHasOwnProperty, assign, nonComputedMember, ASTCompiler.not, isLiteral,
    markConstantAndWatchExpressions, markBody]

/-- The evaluator compiled from `a[b]` for identifiers with safe names. -/
theorem compile_computed (host : Host) (astBuilder : String → Node) (text : String)
    (a b : String) (ha : a ∉ forbiddenMemberNames) (hb : b ∉ forbiddenMemberNames)
    (hast : astBuilder text =
      .Program [.MemberExpression (.Identifier a) (.Identifier b) true]) :
    compile host astBuilder text =
      .ok { code := { filters := [], vars := [.v 0, .v 1, .v 2],
                      body := identifierBlock 1 a ++ identifierBlock 2 b ++
                        [ .expr (.ensureSafeMemberName (.var (.v 2))),
                          .if_ (.var (.v 1))
                            (assign (.var (.v 0))
                              (.ensureSafeObject (computedMember (.var (.v 1)) (.var (.v 2))))),
                          .ret (.var (.v 0)) ] },
            literal := false, constant := false, inputs := none, watchDelegate := none } := by
  unfold compile
  simp only [hast, recurse_program_single, recurse_computed, StateT.run_bind]
  have h0 : (nextId false).run initialState =
      .ok (.var (.v 0), { initialState with nextId := 1, vars := [.v 0] }) := rfl
  simp only [h0, Bind.bind, Except.bind, recurse_identifier_safe a ha,
    recurse_identifier_safe b hb]
  simp [StateT.run, push, modify, modifyGet, addEnsureSafeMemberName, ASTCompiler.if_,
    MonadStateOf.modifyGet, StateT.modifyGet, Pure.pure, StateT.pure, Except.pure,
    initialState, identifierBlock, JStmt.accepted, JExpr.closesStatement, JExpr.noAssign,
    JExpr.standsAsStatement,
    getHasOwnProperty, assign, nonComputedMember, computedMember, ASTCompiler.not, isLiteral,
    markConstantAndWatchExpressions, markBody]

/-! ## Running the code of an identifier read -/

theorem Exec.bind_apply {α β : Type} (x : Exec α) (f : α → Exec β) (m : Machine) :
    (x >>= f) m = Exec.andThen x f m := rfl

theorem Exec.pure_apply {α : Type} (a : α) (m : Machine) :
    (pure a : Exec α) m = (.ok a, m) := rfl

theorem lookup_filter_ne (vars : List (Ident × Val)) (x y : Ident) (h : x ≠ y) :
    List.lookup x (vars.filter fun p => p.1 != y) = List.lookup x vars := by
  induction vars with
  | nil => rfl
  | cons p rest ih =>
      obtain ⟨k, v⟩ := p
      by_cases hk : k = y
      · subst hk
        have hxk : (x == k) = false := by simpa using h
        simp [List.filter_cons, List.lookup_cons, hxk, ih]
      · have : (k != y) = true := by simpa using hk
        simp only [List.filter_cons, this, ↓reduceIte, List.lookup_cons, ih]

theorem lookup_assignVar_ne (m : Machine) (x y : Ident) (v : Val) (h : x ≠ y) :
    (m.assignVar y v).vars.lookup x = m.vars.lookup x := by
  have hxy : (x == y) = false := by simpa using h
  simp [Machine.assignVar, List.lookup_cons, hxy, lookup_filter_ne _ _ _ h]

theorem lookup_assignVar_self (m : Machine) (x : Ident) (v : Val) :
    (m.assignVar x v).vars.lookup x = some v := by
  simp [Machine.assignVar, List.lookup_cons]

theorem truthy_undefined : truthy .undefined = false := rfl
theorem truthy_null : truthy .null = false := rfl
theorem truthy_nan : truthy .nan = false := rfl
theorem truthy_ref (a : Nat) : truthy (.ref a) = true := rfl
theorem truthy_bool (b : Bool) : truthy (.bool b) = b := rfl

theorem readVar_eq (m : Machine) (x : Ident) (v : Val)
    (hx : x ≠ .undefined) (h : m.vars.lookup x = some v) :
    readVar x m = (.ok v, m) := by
  cases x <;> simp_all [readVar]

/-- The test for the name in the local context, when that context is falsy. -/
theorem evalExpr_hasOwn_falsy (host : Host) (m : Machine) (name : String) (lv : Val)
    (hl : m.vars.lookup .l = some lv) (hf : truthy lv = false) :
    evalExpr host (getHasOwnProperty .l name) m = (.ok lv, m) := by
  simp [getHasOwnProperty, evalExpr, Exec.bind_apply, Exec.andThen, readVar, hl, hf,
    Exec.pure_apply]

/-- The test for the name in the local context, when that context is an object. -/
theorem evalExpr_hasOwn_ref (host : Host) (m : Machine) (name : String) (a : Nat)
    (hl : m.vars.lookup .l = some (.ref a)) :
    evalExpr host (getHasOwnProperty .l name) m =
      (.ok (.bool (lookupMember (membersAt m.heap a) name).isSome), m) := by
  simp [getHasOwnProperty, evalExpr, Exec.bind_apply, Exec.andThen, readVar, hl, truthy,
    Exec.pure_apply, Exec.heap]

/-- The read of a member of a variable holding a truthy value. -/
theorem evalExpr_member_var (host : Host) (m : Machine) (x : Ident) (name : String) (v : Val)
    (hx : x ≠ .undefined) (h : m.vars.lookup x = some v) (ht : truthy v = true) :
    evalExpr host (nonComputedMember (.var x) name) m =
      (.ok (getProp m.heap v name), m.logged (.read v name)) := by
  have h1 : v ≠ .undefined := by rintro rfl; simp [truthy] at ht
  have h2 : v ≠ .null := by rintro rfl; simp [truthy] at ht
  simp [nonComputedMember, evalExpr, Exec.bind_apply, Exec.andThen, readVar_eq m x v hx h,
    readMember, h1, h2, Exec.log, Exec.heap, Exec.pure_apply, Machine.logged]

/-- The assignment of a member of a variable holding a truthy value to a variable. -/
theorem evalExpr_assign_member (host : Host) (m : Machine) (x y : Ident) (name : String)
    (v : Val) (hx : x ≠ .undefined) (h : m.vars.lookup x = some v) (ht : truthy v = true) :
    evalExpr host (assign (.var y) (nonComputedMember (.var x) name)) m =
      (.ok (getProp m.heap v name),
        (m.logged (.read v name)).assignVar y (getProp m.heap v name)) := by
  have h1 := evalExpr_member_var host m x name v hx h ht
  simp only [assign]
  rw [evalExpr]
  simp only [Exec.bind_apply, Exec.andThen, h1, writeVar, Exec.pure_apply, Machine.assignVar]

/-- The statement that sends a variable through the object guard. -/
theorem evalExpr_guard_var (host : Host) (m : Machine) (x : Ident) (v : Val)
    (hx : x ≠ .undefined) (h : m.vars.lookup x = some v) :
    evalExpr host (.ensureSafeObject (.var x)) m = (ensureSafeObject m.heap v, m) := by
  simp [evalExpr, Exec.bind_apply, Exec.andThen, readVar_eq m x v hx h, Exec.heap,
    Exec.ofExcept]

theorem Machine.logged_vars (m : Machine) (e : Event) : (m.logged e).vars = m.vars := rfl
theorem Machine.logged_heap (m : Machine) (e : Event) : (m.logged e).heap = m.heap := rfl
theorem Machine.assignVar_heap (m : Machine) (x : Ident) (v : Val) :
    (m.assignVar x v).heap = m.heap := rfl

theorem evalExpr_not (host : Host) (e : JExpr) (m m1 : Machine) (v : Val)
    (h : evalExpr host e m = (.ok v, m1)) :
    evalExpr host (ASTCompiler.not e) m = (.ok (.bool (!truthy v)), m1) := by
  simp only [ASTCompiler.not]
  rw [evalExpr]
  simp only [Exec.bind_apply, Exec.andThen, h, Exec.pure_apply]

theorem evalExpr_and_falsy (host : Host) (a b : JExpr) (m m1 : Machine) (v : Val)
    (h : evalExpr host a m = (.ok v, m1)) (hv : truthy v = false) :
    evalExpr host (.and a b) m = (.ok v, m1) := by
  rw [evalExpr]
  simp only [Exec.bind_apply, Exec.andThen, h, hv, Bool.false_eq_true, ↓reduceIte,
    Exec.pure_apply]

theorem evalExpr_and_truthy (host : Host) (a b : JExpr) (m m1 : Machine) (v : Val)
    (h : evalExpr host a m = (.ok v, m1)) (hv : truthy v = true) :
    evalExpr host (.and a b) m = evalExpr host b m1 := by
  rw [evalExpr]
  simp only [Exec.bind_apply, Exec.andThen, h, hv, ↓reduceIte]

theorem execBody_if_truthy (host : Host) (test consequent : JExpr) (rest : List JStmt)
    (m m1 m2 : Machine) (t v : Val) (h : evalExpr host test m = (.ok t, m1))
    (ht : truthy t = true) (hc : evalExpr host consequent m1 = (.ok v, m2)) :
    execBody host (.if_ test consequent :: rest) m = execBody host rest m2 := by
  rw [execBody]
  simp only [Exec.bind_apply, Exec.andThen, h, ht, ↓reduceIte, hc]

theorem execBody_if_falsy (host : Host) (test consequent : JExpr) (rest : List JStmt)
    (m m1 : Machine) (t : Val) (h : evalExpr host test m = (.ok t, m1))
    (ht : truthy t = false) :
    execBody host (.if_ test consequent :: rest) m = execBody host rest m1 := by
  rw [execBody]
  simp only [Exec.bind_apply, Exec.andThen, h, ht, Bool.false_eq_true, ↓reduceIte]

/-- Text that does not open a block runs as the expression it is. -/
theorem runStatement_eq (host : Host) (e : JExpr) (he : ∀ ps, e ≠ .object ps) :
    e.runStatement host = (do let _ ← evalExpr host e; pure ()) := by
  cases e <;> first | rfl | exact absurd rfl (he _)

theorem execBody_expr_ok (host : Host) (e : JExpr) (rest : List JStmt) (m m1 : Machine)
    (v : Val) (he : ∀ ps, e ≠ .object ps) (h : evalExpr host e m = (.ok v, m1)) :
    execBody host (.expr e :: rest) m = execBody host rest m1 := by
  rw [execBody, runStatement_eq host e he]
  simp only [Exec.bind_apply, Exec.andThen, h, Exec.pure_apply]

theorem execBody_expr_error (host : Host) (e : JExpr) (rest : List JStmt) (m m1 : Machine)
    (err : Thrown) (he : ∀ ps, e ≠ .object ps) (h : evalExpr host e m = (.error err, m1)) :
    execBody host (.expr e :: rest) m = (.error err, m1) := by
  rw [execBody, runStatement_eq host e he]
  simp only [Exec.bind_apply, Exec.andThen, h]

/-- Running the statements that read an identifier, when the local context is falsy or
an object: the variable receives the member of the context the name resolves to, the
read is recorded, and the value goes through the object guard. -/
theorem execBody_identifierBlock (host : Host) (k : Nat) (name : String) (rest : List JStmt)
    (m : Machine) (sv lv old : Val)
    (hs : m.vars.lookup .s = some sv) (hl : m.vars.lookup .l = some lv)
    (hk : m.vars.lookup (.v k) = some old)
    (hlv : truthy lv = false ∨ ∃ a, lv = .ref a) :
    execBody host (identifierBlock k name ++ rest) m =
      match lookupContext m.heap sv lv name with
      | some ctx =>
          match ensureSafeObject m.heap (getProp m.heap ctx name) with
          | .ok _ =>
              execBody host rest
                ((m.logged (.read ctx name)).assignVar (.v k) (getProp m.heap ctx name))
          | .error e =>
              (.error e, (m.logged (.read ctx name)).assignVar (.v k) (getProp m.heap ctx name))
      | none =>
          match ensureSafeObject m.heap old with
          | .ok _ => execBody host rest m
          | .error e => (.error e, m) := by
  have hl' : ∀ (m' : Machine) (v : Val), m'.vars = m.vars →
      (m'.assignVar (.v k) v).vars.lookup .l = some lv := fun m' v hm => by
    rw [lookup_assignVar_ne m' _ _ v (by simp), hm, hl]
  have hs' : ∀ (m' : Machine) (v : Val), m'.vars = m.vars →
      (m'.assignVar (.v k) v).vars.lookup .s = some sv := fun m' v hm => by
    rw [lookup_assignVar_ne m' _ _ v (by simp), hm, hs]
  -- the last statement, after the variable was written
  have hlast : ∀ (ctx : Val),
      execBody host (.expr (.ensureSafeObject (.var (.v k))) :: rest)
        ((m.logged (.read ctx name)).assignVar (.v k) (getProp m.heap ctx name)) =
      match ensureSafeObject m.heap (getProp m.heap ctx name) with
      | .ok _ =>
          execBody host rest
            ((m.logged (.read ctx name)).assignVar (.v k) (getProp m.heap ctx name))
      | .error e =>
          (.error e, (m.logged (.read ctx name)).assignVar (.v k) (getProp m.heap ctx name)) :=
    fun ctx => by
      have hg := evalExpr_guard_var host
        ((m.logged (.read ctx name)).assignVar (.v k) (getProp m.heap ctx name)) (.v k) _
        (by simp) (lookup_assignVar_self _ _ _)
      simp only [Machine.assignVar_heap, Machine.logged_heap] at hg
      cases hr : ensureSafeObject m.heap (getProp m.heap ctx name) with
      | ok v => rw [hr] at hg; exact execBody_expr_ok host _ rest _ _ v (fun _ h => by cases h) hg
      | error err => rw [hr] at hg; exact execBody_expr_error host _ rest _ _ err (fun _ h => by cases h) hg
  -- the last statement, when the variable was not written
  have hlast0 : execBody host (.expr (.ensureSafeObject (.var (.v k))) :: rest) m =
      match ensureSafeObject m.heap old with
      | .ok _ => execBody host rest m
      | .error e => (.error e, m) := by
      have hg := evalExpr_guard_var host m (.v k) old (by simp) hk
      cases hr : ensureSafeObject m.heap old with
      | ok v => rw [hr] at hg; exact execBody_expr_ok host _ rest _ _ v (fun _ h => by cases h) hg
      | error err => rw [hr] at hg; exact execBody_expr_error host _ rest _ _ err (fun _ h => by cases h) hg
  -- the second statement, when the name was not found in the local context
  have hsecond : ∀ (t : Val), truthy t = false →
      evalExpr host (getHasOwnProperty .l name) m = (.ok t, m) →
      execBody host
        (.if_ (.and (ASTCompiler.not (getHasOwnProperty .l name)) (.var .s))
            (assign (.var (.v k)) (nonComputedMember (.var .s) name)) ::
          .expr (.ensureSafeObject (.var (.v k))) :: rest) m =
      match (if truthy sv then some sv else none) with
      | some ctx =>
          match ensureSafeObject m.heap (getProp m.heap ctx name) with
          | .ok _ =>
              execBody host rest
                ((m.logged (.read ctx name)).assignVar (.v k) (getProp m.heap ctx name))
          | .error e =>
              (.error e, (m.logged (.read ctx name)).assignVar (.v k) (getProp m.heap ctx name))
      | none =>
          match ensureSafeObject m.heap old with
          | .ok _ => execBody host rest m
          | .error e => (.error e, m) := by
    intro t ht hown
    have hnot := evalExpr_not host _ m m t hown
    have htest : evalExpr host (.and (ASTCompiler.not (getHasOwnProperty .l name)) (.var .s)) m =
        (.ok sv, m) := by
      rw [evalExpr_and_truthy host _ _ m m _ hnot (by rw [truthy_bool, ht]; rfl)]
      rw [evalExpr]
      exact readVar_eq m .s sv (by simp) hs
    by_cases hsv : truthy sv = true
    · rw [execBody_if_truthy host _ _ _ m m _ sv _ htest hsv
        (evalExpr_assign_member host m .s (.v k) name sv (by simp) hs hsv), hlast]
      simp only [hsv, ↓reduceIte]
    · have hsv' : truthy sv = false := by simpa using hsv
      rw [execBody_if_falsy host _ _ _ m m sv htest hsv', hlast0]
      simp only [hsv', Bool.false_eq_true, ↓reduceIte]
  simp only [identifierBlock, List.cons_append, List.nil_append]
  rcases hlv with hf | ⟨a, rfl⟩
  · -- the local context is falsy
    have hctx : lookupContext m.heap sv lv name = if truthy sv then some sv else none := by
      cases lv <;> simp_all [lookupContext, truthy]
    have hown := evalExpr_hasOwn_falsy host m name lv hl hf
    rw [hctx, execBody_if_falsy host _ _ _ m m lv hown hf]
    exact hsecond lv hf hown
  · -- the local context is an object
    have hown := evalExpr_hasOwn_ref host m name a hl
    by_cases hin : (lookupMember (membersAt m.heap a) name).isSome = true
    · have hctx : lookupContext m.heap sv (.ref a) name = some (.ref a) := by
        simp [lookupContext, hin]
      rw [hctx, execBody_if_truthy host _ _ _ m m _ _ _ hown (by simpa [truthy] using hin)
        (evalExpr_assign_member host m .l (.v k) name (.ref a) (by simp) hl rfl)]
      have hown2 := evalExpr_hasOwn_ref host
        ((m.logged (.read (.ref a) name)).assignVar (.v k) (getProp m.heap (.ref a) name))
        name a (hl' _ _ rfl)
      simp only [Machine.assignVar_heap, Machine.logged_heap, hin] at hown2
      have hnot := evalExpr_not host _ _ _ _ hown2
      rw [execBody_if_falsy host _ _ _ _ _ _
        (evalExpr_and_falsy host _ (.var .s) _ _ _ hnot (by simp [truthy])) (by simp [truthy])]
      exact hlast (.ref a)
    · have hin' : (lookupMember (membersAt m.heap a) name).isSome = false := by simpa using hin
      have hctx : lookupContext m.heap sv (.ref a) name =
          if truthy sv then some sv else none := by
        simp [lookupContext, hin']
      rw [hin'] at hown
      rw [hctx, execBody_if_falsy host _ _ _ m m _ hown (by simp [truthy])]
      exact hsecond _ (by simp [truthy]) hown

theorem execBody_if_error (host : Host) (test consequent : JExpr) (rest : List JStmt)
    (m m1 : Machine) (err : Thrown) (h : evalExpr host test m = (.error err, m1)) :
    execBody host (.if_ test consequent :: rest) m = (.error err, m1) := by
  rw [execBody]
  simp only [Exec.bind_apply, Exec.andThen, h]

/-- The test for the name in the local context fails on a truthy primitive. -/
theorem evalExpr_hasOwn_primitive (host : Host) (m : Machine) (name : String) (lv : Val)
    (hl : m.vars.lookup .l = some lv) (ht : truthy lv = true) (hr : ∀ a, lv ≠ .ref a) :
    evalExpr host (getHasOwnProperty .l name) m = (.error .TypeError, m) := by
  cases lv <;>
    simp_all [getHasOwnProperty, evalExpr, Exec.bind_apply, Exec.andThen, readVar,
      Exec.pure_apply, Exec.fail]

/-- Reading an identifier fails when the local context is a truthy primitive. -/
theorem execBody_identifierBlock_primitive (host : Host) (k : Nat) (name : String)
    (rest : List JStmt) (m : Machine) (lv : Val) (hl : m.vars.lookup .l = some lv)
    (ht : truthy lv = true) (hr : ∀ a, lv ≠ .ref a) :
    execBody host (identifierBlock k name ++ rest) m = (.error .TypeError, m) := by
  simp only [identifierBlock, List.cons_append]
  exact execBody_if_error host _ _ _ m m _ (evalExpr_hasOwn_primitive host m name lv hl ht hr)

/-- What the object guard throws is a security violation, and not the one of the
member-name guard. -/
theorem ensureSafeObject_error (h : Heap) (v : Val) (e : Thrown)
    (he : ensureSafeObject h v = .error e) :
    ∃ msg, e = .SecurityViolation msg ∧ msg ≠ disallowedField := by
  unfold ensureSafeObject at he
  split_ifs at he <;> (cases he; exact ⟨_, rfl, by decide⟩)

/-- The member-name guard on a string. -/
theorem ensureSafeMemberName_str (name : String) :
    ensureSafeMemberName (.str name) =
      if name ∈ forbiddenMemberNames then .error (.SecurityViolation disallowedField)
      else .ok () := by
  simp only [ensureSafeMemberName, forbiddenMemberNames, List.mem_cons, List.mem_singleton,
    List.not_mem_nil, or_false, Bool.or_eq_true, strictEq_str, Val.str.injEq, or_assoc]

/-- What evaluating the identifier `b` to a string tells about the contexts: the local
context is falsy or an object, the name resolves to a context holding the string, and
the string passes the object guard. -/
theorem identifier_evaluates_str (host : Host) (b : String) (s l : Val) (heap : Heap)
    (name : String)
    (hev : (execBody host (identifierBlock 0 b ++ [.ret (.var (.v 0))])
      (Code.entry { filters := [], vars := [.v 0], body := [] } s l heap)).1 =
        .ok (.str name)) :
    (truthy l = false ∨ ∃ a, l = .ref a) ∧
    ∃ ctx, lookupContext heap s l b = some ctx ∧ getProp heap ctx b = .str name ∧
      ∃ v, ensureSafeObject heap (.str name) = .ok v := by
  have hlv : truthy l = false ∨ ∃ a, l = .ref a := by
    by_contra hcon
    simp only [not_or, Bool.not_eq_false, not_exists] at hcon
    rw [execBody_identifierBlock_primitive host 0 b _
      (Code.entry { filters := [], vars := [.v 0], body := [] } s l heap) l rfl hcon.1 hcon.2] at hev
    cases hev
  refine ⟨hlv, ?_⟩
  rw [execBody_identifierBlock host 0 b _
    (Code.entry { filters := [], vars := [.v 0], body := [] } s l heap) s l .undefined rfl rfl rfl hlv] at hev
  simp only [Code.entry] at hev
  cases hctx : lookupContext heap s l b with
  | none =>
      simp only [hctx] at hev
      have : ensureSafeObject heap .undefined = .ok .undefined := rfl
      simp only [this, execBody, evalExpr] at hev
      cases hev
  | some ctx =>
      simp only [hctx] at hev
      cases hg : ensureSafeObject heap (getProp heap ctx b) with
      | error e =>
          simp only [hg] at hev
          cases hev
      | ok v =>
          simp only [hg, execBody, evalExpr] at hev
          rw [readVar_eq _ (.v 0) _ (by simp) (lookup_assignVar_self _ _ _)] at hev
          simp only [Except.ok.injEq] at hev
          rw [hev] at hg
          exact ⟨ctx, rfl, hev, v, hg⟩

/-! ## Computed member access -/

theorem execBody_if_throws (host : Host) (test consequent : JExpr) (rest : List JStmt)
    (m m1 m2 : Machine) (t : Val) (err : Thrown) (h : evalExpr host test m = (.ok t, m1))
    (ht : truthy t = true) (hc : evalExpr host consequent m1 = (.error err, m2)) :
    execBody host (.if_ test consequent :: rest) m = (.error err, m2) := by
  rw [execBody]
  simp only [Exec.bind_apply, Exec.andThen, h, ht, ↓reduceIte, hc]

/-- The statements generated after the two identifier reads of `a[b]`. -/
theorem execBody_member_tail (host : Host) (m : Machine) (x key old : Val)
    (h1 : m.vars.lookup (.v 1) = some x) (h2 : m.vars.lookup (.v 2) = some key)
    (h0 : m.vars.lookup (.v 0) = some old) :
    (ensureSafeMemberName key = .error (.SecurityViolation disallowedField) →
      execBody host
        [ .expr (.ensureSafeMemberName (.var (.v 2))),
          .if_ (.var (.v 1))
            (assign (.var (.v 0))
              (.ensureSafeObject (computedMember (.var (.v 1)) (.var (.v 2))))),
          .ret (.var (.v 0)) ] m = (.error (.SecurityViolation disallowedField), m)) ∧
    (ensureSafeMemberName key = .ok () →
      (execBody host
        [ .expr (.ensureSafeMemberName (.var (.v 2))),
          .if_ (.var (.v 1))
            (assign (.var (.v 0))
              (.ensureSafeObject (computedMember (.var (.v 1)) (.var (.v 2))))),
          .ret (.var (.v 0)) ] m).1 ≠ .error (.SecurityViolation disallowedField)) := by
  have r1 := readVar_eq m (.v 1) x (by simp) h1
  have r2 := readVar_eq m (.v 2) key (by simp) h2
  have r0 := readVar_eq m (.v 0) old (by simp) h0
  constructor
  · intro hg
    exact execBody_expr_error host _ _ m m _ (fun _ h => by cases h) (by
      rw [evalExpr]
      simp only [Exec.bind_apply, Exec.andThen, evalExpr, r2, Exec.ofExcept, hg])
  · intro hg
    rw [execBody_expr_ok host _ _ m m .undefined (fun _ h => by cases h) (by
      rw [evalExpr]
      simp only [Exec.bind_apply, Exec.andThen, evalExpr, r2, Exec.ofExcept, hg,
        Exec.pure_apply])]
    by_cases hx : truthy x = true
    · have hx1 : x ≠ .undefined := by rintro rfl; simp [truthy] at hx
      have hx2 : x ≠ .null := by rintro rfl; simp [truthy] at hx
      have hread : evalExpr host (computedMember (.var (.v 1)) (.var (.v 2))) m =
          (.ok (getProp m.heap x (toKey key)), m.logged (.read x (toKey key))) := by
        simp only [computedMember]
        rw [evalExpr]
        simp [Exec.bind_apply, Exec.andThen, evalExpr, r1, r2, readMember, hx1, hx2, Exec.log,
          Exec.heap, Exec.pure_apply, Machine.logged]
      cases hg2 : ensureSafeObject m.heap (getProp m.heap x (toKey key)) with
      | error e =>
          obtain ⟨msg, rfl, hmsg⟩ := ensureSafeObject_error _ _ _ hg2
          have hcons : evalExpr host (assign (.var (.v 0))
              (.ensureSafeObject (computedMember (.var (.v 1)) (.var (.v 2))))) 
              m = (.error (.SecurityViolation msg), m.logged (.read x (toKey key))) := by
            simp only [assign]
            rw [evalExpr, evalExpr]
            simp only [Exec.bind_apply, Exec.andThen, hread, Exec.heap, Exec.ofExcept,
              Machine.logged_heap, hg2]
          rw [execBody_if_throws host _ _ _ m m _ x _ (by rw [evalExpr]; exact r1) hx hcons]
          intro hcon
          injection hcon with hcon
          injection hcon with hcon
          exact hmsg hcon
      | ok v =>
          have hcons : evalExpr host (assign (.var (.v 0))
              (.ensureSafeObject (computedMember (.var (.v 1)) (.var (.v 2))))) 
              m = (.ok v, (m.logged (.read x (toKey key))).assignVar (.v 0) v) := by
            simp only [assign]
            rw [evalExpr, evalExpr]
            simp only [Exec.bind_apply, Exec.andThen, hread, Exec.heap, Exec.ofExcept,
              Machine.logged_heap, hg2, writeVar, Exec.pure_apply, Machine.assignVar]
          rw [execBody_if_truthy host _ _ _ m m _ x v (by rw [evalExpr]; exact r1) hx hcons]
          rw [execBody, evalExpr, readVar_eq _ (.v 0) v (by simp) (lookup_assignVar_self _ _ _)]
          simp
    · have hx' : truthy x = false := by simpa using hx
      rw [execBody_if_falsy host _ _ _ m m x (by rw [evalExpr]; exact r1) hx']
      rw [execBody, evalExpr, r0]
      simp

/-- The code of `a[b]` after the read of `a`: the read of `b`, the member-name guard and
the member read, on a machine where `b` resolves to the string `name`. -/
theorem execBody_member_rest (host : Host) (b name : String) (m : Machine)
    (s l ctx x old0 old2 v : Val)
    (hs : m.vars.lookup .s = some s) (hl : m.vars.lookup .l = some l)
    (h0 : m.vars.lookup (.v 0) = some old0) (h1 : m.vars.lookup (.v 1) = some x)
    (h2 : m.vars.lookup (.v 2) = some old2)
    (hlv : truthy l = false ∨ ∃ a, l = .ref a)
    (hctx : lookupContext m.heap s l b = some ctx)
    (hval : getProp m.heap ctx b = .str name)
    (hguard : ensureSafeObject m.heap (.str name) = .ok v) :
    (name ∈ forbiddenMemberNames →
      execBody host (identifierBlock 2 b ++
        [ .expr (.ensureSafeMemberName (.var (.v 2))),
          .if_ (.var (.v 1))
            (assign (.var (.v 0))
              (.ensureSafeObject (computedMember (.var (.v 1)) (.var (.v 2))))),
          .ret (.var (.v 0)) ]) m =
        (.error (.SecurityViolation disallowedField),
          (m.logged (.read ctx b)).assignVar (.v 2) (.str name))) ∧
    (name ∉ forbiddenMemberNames →
      (execBody host (identifierBlock 2 b ++
        [ .expr (.ensureSafeMemberName (.var (.v 2))),
          .if_ (.var (.v 1))
            (assign (.var (.v 0))
              (.ensureSafeObject (computedMember (.var (.v 1)) (.var (.v 2))))),
          .ret (.var (.v 0)) ]) m).1 ≠ .error (.SecurityViolation disallowedField)) := by
  rw [execBody_identifierBlock host 2 b _ m s l old2 hs hl h2 hlv]
  simp only [hctx, hval, hguard]
  have t := execBody_member_tail host ((m.logged (.read ctx b)).assignVar (.v 2) (.str name))
    x (.str name) old0
    (by rw [lookup_assignVar_ne _ _ _ _ (by simp), Machine.logged_vars, h1])
    (lookup_assignVar_self _ _ _)
    (by rw [lookup_assignVar_ne _ _ _ _ (by simp), Machine.logged_vars, h0])
  rw [ensureSafeMemberName_str] at t
  constructor
  · intro hn
    exact t.1 (by simp [hn])
  · intro hn
    exact t.2 (by simp [hn])

/-- The computed member access `a[b]`, for identifiers with safe names, compiles; in
every pair of contexts in which `b` evaluates to one of the six forbidden names the
evaluation raises a security violation without any read of a member of that name; and
when `b` evaluates to another string the member-name guard does not raise. -/
theorem computed_member_guard (host : Host) (astBuilder : String → Node)
    (textAB textB a b : String)
    (ha : a ∉ forbiddenMemberNames) (hb : b ∉ forbiddenMemberNames)
    (hAB : astBuilder textAB =
      .Program [.MemberExpression (.Identifier a) (.Identifier b) true])
    (hB : astBuilder textB = .Program [.Identifier b]) :
    ∃ fn, compile host astBuilder textAB = .ok fn ∧
      ∀ (s l : Val) (heap : Heap) (name : String),
        evaluate host astBuilder textB s l heap = .ok (.str name) →
        (name ∈ forbiddenMemberNames →
          (∃ msg, (fn.code.call host s l heap).1 = .error (.SecurityViolation msg)) ∧
          ∀ o, Event.read o name ∉ (fn.code.call host s l heap).2.trace) ∧
        (name ∉ forbiddenMemberNames →
          (fn.code.call host s l heap).1 ≠ .error (.SecurityViolation disallowedField)) := by
  refine ⟨_, compile_computed host astBuilder textAB a b ha hb hAB, ?_⟩
  intro s l heap name hev
  simp only [evaluate, compile_identifier host astBuilder textB b hb hB, Bind.bind,
    Except.bind, Code.call] at hev
  obtain ⟨hlv, ctx, hctx, hval, v, hguard⟩ := identifier_evaluates_str host b s l heap name hev
  simp only [Code.call]
  generalize hm0 : Code.entry _ s l heap = m0
  have e0 : m0.vars.lookup (.v 0) = some .undefined := by rw [← hm0]; rfl
  have e1 : m0.vars.lookup (.v 1) = some .undefined := by rw [← hm0]; rfl
  have e2 : m0.vars.lookup (.v 2) = some .undefined := by rw [← hm0]; rfl
  have es : m0.vars.lookup .s = some s := by rw [← hm0]; rfl
  have el : m0.vars.lookup .l = some l := by rw [← hm0]; rfl
  have eh : m0.heap = heap := by rw [← hm0]; rfl
  have et : m0.trace = [] := by rw [← hm0]; rfl
  rw [List.append_assoc, execBody_identifierBlock host 1 a _ m0 s l .undefined es el e1 hlv]
  rw [← eh] at hctx hval hguard
  have hbn : name ∈ forbiddenMemberNames → name ≠ b := fun hn h => hb (h ▸ hn)
  have han : name ∈ forbiddenMemberNames → name ≠ a := fun hn h => ha (h ▸ hn)
  cases hca : lookupContext m0.heap s l a with
  | none =>
      have hu : ensureSafeObject m0.heap .undefined = .ok .undefined := rfl
      simp only [hu]
      have R := execBody_member_rest host b name m0 s l ctx .undefined .undefined .undefined v
        es el e0 e1 e2 hlv hctx hval hguard
      constructor
      · intro hn
        rw [R.1 hn]
        refine ⟨⟨_, rfl⟩, fun o => ?_⟩
        simp [Machine.assignVar, Machine.logged, et, hbn hn]
      · intro hn
        exact R.2 hn
  | some ca =>
      simp only []
      cases hga : ensureSafeObject m0.heap (getProp m0.heap ca a) with
      | error e =>
          obtain ⟨msg, rfl, hmsg⟩ := ensureSafeObject_error _ _ _ hga
          simp only []
          constructor
          · intro hn
            refine ⟨⟨msg, rfl⟩, fun o => ?_⟩
            simp [Machine.assignVar, Machine.logged, et, han hn]
          · intro _ hcon
            injection hcon with hcon
            injection hcon with hcon
            exact hmsg hcon
      | ok va =>
          simp only []
          have R := execBody_member_rest host b name
            ((m0.logged (.read ca a)).assignVar (.v 1) (getProp m0.heap ca a))
            s l ctx (getProp m0.heap ca a) .undefined .undefined v
            (by rw [lookup_assignVar_ne _ _ _ _ (by simp), Machine.logged_vars, es])
            (by rw [lookup_assignVar_ne _ _ _ _ (by simp), Machine.logged_vars, el])
            (by rw [lookup_assignVar_ne _ _ _ _ (by simp), Machine.logged_vars, e0])
            (lookup_assignVar_self _ _ _)
            (by rw [lookup_assignVar_ne _ _ _ _ (by simp), Machine.logged_vars, e2])
            hlv hctx hval hguard
          constructor
          · intro hn
            rw [R.1 hn]
            refine ⟨⟨_, rfl⟩, fun o => ?_⟩
            simp [Machine.assignVar, Machine.logged, et, hbn hn, han hn]
          · intro hn
            exact R.2 hn

/-! ## Examples: the member-name guard at run time, and a call that escapes the function guard -/

/-- The access `a[b]` under the example grammar. -/
theorem computed_member_guard_witness :
    "a" ∉ forbiddenMemberNames ∧ "b" ∉ forbiddenMemberNames ∧
    ∃ fn, compile Host.bare exampleGrammar "a[b]" = .ok fn ∧
      ∀ (s l : Val) (heap : Heap) (name : String),
        evaluate Host.bare exampleGrammar "b" s l heap = .ok (.str name) →
        (name ∈ forbiddenMemberNames →
          (∃ msg, (fn.code.call Host.bare s l heap).1 = .error (.SecurityViolation msg)) ∧
          ∀ o, Event.read o name ∉ (fn.code.call Host.bare s l heap).2.trace) ∧
        (name ∉ forbiddenMemberNames →
          (fn.code.call Host.bare s l heap).1 ≠ .error (.SecurityViolation disallowedField)) :=
  ⟨by decide, by decide,
    computed_member_guard Host.bare exampleGrammar "a[b]" "b" "a" "b" (by decide) (by decide)
      (by simp [exampleGrammar]) (by simp [exampleGrammar])⟩

/-- C6 (the code breaks the claim): in `g.h() === (0 || (g.h = g.call))` the function
guard is applied to the harmless `g.h`; the statement generated for the right operand
then stores the primitive `call` in `g.h`, and the call expression, which reads `g.h`
again, invokes `call` (the function at address 1) without any guard having raised. -/
theorem call_guard_bypassed :
    Host.reflective.functionPrototype.call = .ref 1 ∧
    ((compile Host.reflective (fun _ => guardBypass) "g.h() === (0 || (g.h = g.call))").map
      fun fn => fn.code.observe Host.reflective (.ref 0) .undefined reflectiveHeap) =
    .ok (.ok (.bool false),
      [.read (.ref 0) "g", .read (.ref 4) "h", .read (.ref 4) "h", .read (.ref 0) "g",
       .read (.ref 4) "h", .read (.ref 4) "h", .read (.ref 0) "g", .read (.ref 4) "call",
       .read (.ref 4) "h", .read (.ref 4) "h", .invoke (.ref 1) (.ref 4) []]) := by
  decide!

/-! ## The watch delegates -/

/-- Strict equality holds between equal values only. -/
theorem strictEq_eq (x y : Val) (h : strictEq x y = true) : x = y := by
  cases x <;> cases y <;> simp_all [strictEq]

/-- C17: `expressionInputDirtyCheck(x, y)` is true exactly when `x` and `y` are identical
or both are numbers and both `NaN`; it is reflexive (also on `NaN`) and symmetric, and
two values of different types are never reported equal. -/
theorem expressionInputDirtyCheck_iff (h : Heap) (x y : Val) :
    (expressionInputDirtyCheck x y = true ↔
      strictEq x y = true ∨
        (isNumber x = true ∧ isNumber y = true ∧ isNaN x = true ∧ isNaN y = true)) ∧
    ((isNumber x = true ∧ isNumber y = true ∧ isNaN x = true ∧ isNaN y = true) ↔
      (x = .nan ∧ y = .nan)) ∧
    expressionInputDirtyCheck x x = true ∧
    expressionInputDirtyCheck x y = expressionInputDirtyCheck y x ∧
    (typeOf h x ≠ typeOf h y → expressionInputDirtyCheck x y = false) := by
  refine ⟨?_, ?_, ?_, ?_, ?_⟩
  · simp [expressionInputDirtyCheck, and_assoc]
  · cases x <;> cases y <;> simp [isNumber, isNaN, toNumber]
  · cases x <;> simp [expressionInputDirtyCheck, strictEq, isNumber, isNaN, toNumber]
  · cases x <;> cases y <;>
      simp [expressionInputDirtyCheck, strictEq, isNumber, isNaN, toNumber, eq_comm]
  · intro ht
    cases hc : expressionInputDirtyCheck x y with
    | false => rfl
    | true =>
        exfalso
        apply ht
        simp only [expressionInputDirtyCheck, Bool.or_eq_true, Bool.and_eq_true] at hc
        rcases hc with hc | hc
        · rw [strictEq_eq x y hc]
        · cases x <;> cases y <;> simp_all [isNumber, isNaN, toNumber, typeOf]

/-- C19: the listener that `constantWatchDelegate` hands to `$watch`, invoked with any
arguments, calls the listener of the user once with the same arguments when that is a
function, and then calls `unwatch` in every case; the delegate returns what `$watch`
returned, which is what the variable `unwatch` holds. -/
theorem constantWatchDelegate_listener {S : Type}
    (scope : Scope S (S → Val) (Val → Val → List Val → List Effect)) (heap : Heap)
    (listenerFn valueEq : Val) (watchFn : S → Val) :
    constantWatchDelegate scope heap listenerFn valueEq watchFn =
      scope.watch (constantWatchDelegate.watch watchFn)
        (constantWatchDelegate.listener heap listenerFn) valueEq ∧
    ∀ (this : Val) (arguments : List Val),
      (isFunction heap listenerFn = true →
        constantWatchDelegate.listener heap listenerFn
            (constantWatchDelegate scope heap listenerFn valueEq watchFn) this arguments =
          [.call (.listenerFn this arguments),
            .call (.unwatch (constantWatchDelegate scope heap listenerFn valueEq watchFn))]) ∧
      (isFunction heap listenerFn = false →
        constantWatchDelegate.listener heap listenerFn
            (constantWatchDelegate scope heap listenerFn valueEq watchFn) this arguments =
          [.call (.unwatch (constantWatchDelegate scope heap listenerFn valueEq watchFn))]) := by
  refine ⟨rfl, fun this arguments => ⟨fun h => ?_, fun h => ?_⟩⟩ <;>
    simp [constantWatchDelegate.listener, h]

/-- The variable `lastValue` holds the value of the last invocation of the listener. -/
theorem oneTimeWatchDelegate.listenerRuns_last (heap : Heap) (listenerFn unwatch this : Val)
    (calls : List (Val × Val × Val)) (newValue oldValue scope lastValue : Val) :
    (oneTimeWatchDelegate.listenerRuns heap listenerFn unwatch this
      (calls ++ [(newValue, oldValue, scope)]) lastValue).1 = newValue := by
  induction calls generalizing lastValue with
  | nil => rfl
  | cons c rest ih =>
      obtain ⟨n, o, s⟩ := c
      simp only [List.cons_append, oneTimeWatchDelegate.listenerRuns]
      exact ih _

/-- C20: for the one-time delegate, a listener invocation with an undefined value
schedules nothing and does not unregister; an invocation with a defined value schedules
one check, and the check unregisters exactly when the value the listener has seen last
is defined when the check runs. -/
theorem oneTimeWatchDelegate_listener (heap : Heap) (listenerFn unwatch this : Val) :
    (∀ oldValue scope lastValue,
      (oneTimeWatchDelegate.listener heap listenerFn unwatch this .undefined oldValue scope
        lastValue).2 =
        if isFunction heap listenerFn then
          [.call (.listenerFn this [.undefined, oldValue, scope])] else []) ∧
    (∀ newValue oldValue scope lastValue, newValue ≠ .undefined →
      (oneTimeWatchDelegate.listener heap listenerFn unwatch this newValue oldValue scope
        lastValue).2 =
        (if isFunction heap listenerFn then
          [.call (.listenerFn this [newValue, oldValue, scope])] else []) ++
        [.postDigest (oneTimeWatchDelegate.check unwatch)]) ∧
    (∀ (calls : List (Val × Val × Val)) (newValue oldValue scope lastValue : Val)
        (later : Heap),
      oneTimeWatchDelegate.check unwatch
        (oneTimeWatchDelegate.listenerRuns heap listenerFn unwatch this
          (calls ++ [(newValue, oldValue, scope)]) lastValue).1 later =
        if newValue = .undefined then [] else [.unwatch unwatch]) := by
  refine ⟨fun oldValue scope lastValue => ?_, fun newValue oldValue scope lastValue hv => ?_,
    fun calls newValue oldValue scope lastValue later => ?_⟩
  · simp [oneTimeWatchDelegate.listener, isUndefined]
  · simp [oneTimeWatchDelegate.listener, isUndefined, hv]
  · rw [oneTimeWatchDelegate.listenerRuns_last]
    by_cases hv : newValue = .undefined <;> simp [oneTimeWatchDelegate.check, isUndefined, hv]

namespace inputsWatchDelegate

/-- Once an input has changed, the loop ends with `changed` set. -/
theorem loop_changed {S : Type} (scope : S) (inputs : List (S → Val))
    (oldValues : List (Option Val)) : (loop scope inputs oldValues true).2 = true := by
  induction inputs generalizing oldValues with
  | nil => rfl
  | cons i rest ih =>
      cases oldValues with
      | nil => simp [loop, ih]
      | cons o os => simp [loop, ih]

/-- When every input yields what is stored for it, the loop changes nothing. -/
theorem loop_same {S : Type} (scope : S) (inputs : List (S → Val))
    (oldValues : List (Option Val)) (hlen : oldValues.length = inputs.length)
    (hsame : ∀ p ∈ inputs.zip oldValues, sameAsStored (p.1 scope) p.2 = true) :
    loop scope inputs oldValues false = (oldValues, false) := by
  induction inputs generalizing oldValues with
  | nil =>
      cases oldValues with
      | nil => rfl
      | cons o os => simp at hlen
  | cons i rest ih =>
      cases oldValues with
      | nil => simp at hlen
      | cons o os =>
          have h1 : sameAsStored (i scope) o = true := hsame (i, o) (by simp)
          have h2 := ih os (by simpa using hlen) fun p hp => hsame p (by
            simp only [List.zip_cons_cons, List.mem_cons]
            exact Or.inr hp)
          simp [loop, h1, h2]

/-- When some input yields something else than what is stored for it, the loop ends with
`changed` set. -/
theorem loop_differs {S : Type} (scope : S) (inputs : List (S → Val))
    (oldValues : List (Option Val)) (changed : Bool)
    (hdiff : ∃ p ∈ inputs.zip oldValues, sameAsStored (p.1 scope) p.2 = false) :
    (loop scope inputs oldValues changed).2 = true := by
  induction inputs generalizing oldValues changed with
  | nil => simp at hdiff
  | cons i rest ih =>
      cases oldValues with
      | nil => simp at hdiff
      | cons o os =>
          obtain ⟨p, hp, hd⟩ := hdiff
          simp only [List.zip_cons_cons, List.mem_cons] at hp
          rcases hp with rfl | hp
          · simp [loop, hd, loop_changed]
          · have := fun c => ih os c ⟨p, hp, hd⟩
            simp only [loop]
            split <;> simp [this]

/-- C18: in a pass of the watch function of the input-optimized delegate in which every
input yields a value that the dirty check finds equal to the stored one, the full
expression is not evaluated, the variables stay as they are and the cached result is
returned; in a pass in which some input differs, the full expression is evaluated once,
after all the inputs, and its result is cached and returned. -/
theorem watch_pass {S : Type} (inputs : List (S → Val)) (watchFn : S → Val)
    (scope : S) (st : State) (hlen : st.oldValues.length = inputs.length) :
    ((∀ p ∈ inputs.zip st.oldValues, sameAsStored (p.1 scope) p.2 = true) →
      watch inputs watchFn scope st =
        (st.lastResult, st, (List.range inputs.length).map Step.input)) ∧
    ((∃ p ∈ inputs.zip st.oldValues, sameAsStored (p.1 scope) p.2 = false) →
      (watch inputs watchFn scope st).1 = watchFn scope ∧
      (watch inputs watchFn scope st).2.1.lastResult = watchFn scope ∧
      (watch inputs watchFn scope st).2.2 =
        (List.range inputs.length).map Step.input ++ [Step.watchFn]) := by
  constructor
  · intro hsame
    simp [watch, loop_same scope inputs st.oldValues hlen hsame]
  · intro hdiff
    simp [watch, loop_differs scope inputs st.oldValues false hdiff]

/-- C18, witness: one input whose value is the stored one. -/
theorem watch_pass_witness :
    (State.mk [some (.num 1)] (.num 3)).oldValues.length =
      [fun _ : Unit => Val.num 1].length ∧
    watch [fun _ : Unit => Val.num 1] (fun _ => .num 7) ()
        (State.mk [some (.num 1)] (.num 3)) =
      (.num 3, State.mk [some (.num 1)] (.num 3), [Step.input 0]) :=
  ⟨rfl, (watch_pass [fun _ : Unit => Val.num 1] (fun _ => .num 7) ()
    (State.mk [some (.num 1)] (.num 3)) rfl).1 (by simp [sameAsStored, expressionInputDirtyCheck, strictEq])⟩

end inputsWatchDelegate

/-! ## Binary expressions over identifiers -/

/-- The `BinaryExpression` case: both operands are generated, left first, and the
operator is applied to them, behind `ifDefined(..., 0)` for `+` and `-` only. -/
theorem recurse_binary (operator : String) (left right : Node) (create : Bool) :
    recurse (.BinaryExpression operator left right) create = (do
      let l ← recurse left false
      let r ← recurse right false
      pure (binaryCode operator l.1 r.1, none)) := by
  simp only [recurse, binaryCode]
  split <;> rfl

/-- The evaluator compiled from `a op b` for identifiers with safe names. -/
theorem compile_binary (host : Host) (astBuilder : String → Node) (text : String)
    (operator a b : String) (ha : a ∉ forbiddenMemberNames) (hb : b ∉ forbiddenMemberNames)
    (hast : astBuilder text =
      .Program [.BinaryExpression operator (.Identifier a) (.Identifier b)]) :
    compile host astBuilder text =
      .ok { code := { filters := [], vars := [.v 0, .v 1],
                      body := identifierBlock 0 a ++ identifierBlock 1 b ++
                        [.ret (binaryCode operator (.var (.v 0)) (.var (.v 1)))] },
            literal := false, constant := false, inputs := none, watchDelegate := none } := by
  unfold compile
  simp only [hast, recurse_program_single, recurse_binary, StateT.run_bind,
    recurse_identifier_safe a ha]
  simp only [Bind.bind, Except.bind, recurse_identifier_safe b hb]
  have hacc : (binaryCode operator (.var (.v 0)) (.var (.v 1))).closesStatement = true := by
    unfold binaryCode
    split <;> rfl
  simp [StateT.run, push, modify, modifyGet,
    MonadStateOf.modifyGet, StateT.modifyGet, Pure.pure, StateT.pure, Except.pure,
    initialState, identifierBlock, JStmt.accepted, JExpr.closesStatement, JExpr.noAssign,
    JExpr.standsAsStatement,
    getHasOwnProperty, assign, nonComputedMember, ASTCompiler.not, isLiteral,
    markConstantAndWatchExpressions, markBody, hacc]

/-! ## The delegate `parse` attaches -/

/-- What `compile` returns has neither `inputs` nor a delegate. -/
theorem compile_inputs_none (host : Host) (astBuilder : String → Node) (text : String)
    (fn : Evaluator) (h : compile host astBuilder text = .ok fn) :
    fn.inputs = none ∧ fn.watchDelegate = none := by
  unfold compile at h
  simp only [Bind.bind, Except.bind] at h
  split at h
  · cases h
  · split at h
    · split at h
      · cases h
      · simp only [Pure.pure, Except.pure, Except.ok.injEq] at h
        subst h
        exact ⟨rfl, rfl⟩
    · cases h

/-- C14: `parse` attaches the constant delegate whenever the compiled evaluator is
constant, with or without the marker `::` in front and whatever the `literal` flag is;
otherwise, when the text starts with `::` (stripped before compiling), it attaches the
one-time-literal delegate when `literal` is set and the one-time delegate when not,
whatever `inputs` is. -/
theorem parse_delegate_precedence (host : Host) (astBuilder : String → Node) (text : String)
    (fn : Evaluator)
    (hc : compile host astBuilder (if oneTimeMarker text then text.drop 2 else text) =
      .ok fn) :
    (fn.constant = true →
      parse host astBuilder (.string text) =
        .ok (.evaluator { fn with watchDelegate := some .constantWatchDelegate })) ∧
    (fn.constant = false → oneTimeMarker text = true →
      parse host astBuilder (.string text) =
        .ok (.evaluator { fn with
          watchDelegate := some (if fn.literal then .oneTimeLiteralWatchDelegate
            else .oneTimeWatchDelegate) })) := by
  constructor
  · intro hk
    simp only [parse, hc, Bind.bind, Except.bind, attachDelegate, hk, ↓reduceIte]
    rfl
  · intro hk hm
    simp only [hm, ↓reduceIte] at hc
    simp only [parse, hm, ↓reduceIte, hc, Bind.bind, Except.bind, attachDelegate, hk,
      Bool.false_eq_true]
    rfl

/-- C14, witness: `::42` gets the constant delegate, `::[a]` the one-time-literal
delegate and `::a` the one-time delegate. -/
theorem parse_delegate_precedence_witness :
    (parse Host.bare delegateGrammar (.string "::42")).map Parsed.watchDelegate =
      .ok (some .constantWatchDelegate) ∧
    (parse Host.bare delegateGrammar (.string "::[a]")).map Parsed.watchDelegate =
      .ok (some .oneTimeLiteralWatchDelegate) ∧
    (parse Host.bare delegateGrammar (.string "::a")).map Parsed.watchDelegate =
      .ok (some .oneTimeWatchDelegate) := by
  refine ⟨by decide!, by decide!, ?_⟩
  have ht : (if oneTimeMarker "::a" then "::a".drop 2 else "::a") = "a" := by decide
  have hc := compile_identifier Host.bare delegateGrammar
    (if oneTimeMarker "::a" then "::a".drop 2 else "::a") "a" (by decide)
    (by rw [ht]; simp [delegateGrammar])
  rw [(parse_delegate_precedence Host.bare delegateGrammar "::a" _ hc).2 rfl (by decide)]
  rfl

/-- What `parse` returns for a text without the marker: the compiled evaluator after the
choice of the delegate. -/
theorem parse_unmarked (host : Host) (astBuilder : String → Node) (text : String)
    (fn : Evaluator) (hm : oneTimeMarker text = false)
    (hc : compile host astBuilder text = .ok fn) :
    parse host astBuilder (.string text) = .ok (.evaluator (attachDelegate false fn)) := by
  simp only [parse, hm, Bool.false_eq_true, ↓reduceIte, hc, Bind.bind, Except.bind]
  rfl

/-- C15 (amended): for a non-constant evaluator handed back for a text without the
marker, `parse` attaches the input-optimized delegate exactly when the evaluator has an
`inputs` list, empty or not, and leaves the evaluator as it is when `inputs` is absent.
For what `compile` hands back, which never has `inputs`, it therefore attaches none. -/
theorem attachDelegate_inputs (fn : Evaluator) (hk : fn.constant = false) :
    (∀ inputs, fn.inputs = some inputs →
      attachDelegate false fn = { fn with watchDelegate := some .inputsWatchDelegate }) ∧
    (fn.inputs = none → attachDelegate false fn = fn) ∧
    ((attachDelegate false fn).watchDelegate ≠ fn.watchDelegate → fn.inputs.isSome = true) ∧
    (∀ (host : Host) (astBuilder : String → Node) (text : String),
      oneTimeMarker text = false → compile host astBuilder text = .ok fn →
      parse host astBuilder (.string text) = .ok (.evaluator (attachDelegate false fn)) ∧
      (parse host astBuilder (.string text)).map Parsed.watchDelegate = .ok none) := by
  refine ⟨fun inputs hi => ?_, fun hi => ?_, fun hd => ?_, fun host astBuilder text hm hc => ?_⟩
  · simp [attachDelegate, hk, hi]
  · simp [attachDelegate, hk, hi]
  · cases hi : fn.inputs with
    | none => simp [attachDelegate, hk, hi] at hd
    | some inputs => rfl
  · obtain ⟨hi, hd⟩ := compile_inputs_none host astBuilder text fn hc
    rw [parse_unmarked host astBuilder text fn hm hc]
    refine ⟨rfl, ?_⟩
    simp [attachDelegate, hk, hi, Except.map, Parsed.watchDelegate, hd]

/-- C15, witness: an evaluator with one input gets the input-optimized delegate. -/
theorem attachDelegate_inputs_witness :
    (Evaluator.mk ⟨[], [], [.ret (.lit .undefined)]⟩ false false
      (some [⟨[], [], [.ret (.lit .undefined)]⟩]) none).constant = false ∧
    attachDelegate false (Evaluator.mk ⟨[], [], [.ret (.lit .undefined)]⟩ false false
      (some [⟨[], [], [.ret (.lit .undefined)]⟩]) none) =
      Evaluator.mk ⟨[], [], [.ret (.lit .undefined)]⟩ false false
        (some [⟨[], [], [.ret (.lit .undefined)]⟩]) (some .inputsWatchDelegate) :=
  ⟨rfl, (attachDelegate_inputs _ rfl).1 _ rfl⟩

/-- C15, counterexample: a non-constant evaluator whose `inputs` list is empty gets the
input-optimized delegate all the same. -/
theorem attachDelegate_inputs_counterexample :
    (Evaluator.mk ⟨[], [], [.ret (.lit .undefined)]⟩ false false (some []) none).inputs =
      some [] ∧
    (attachDelegate false
      (Evaluator.mk ⟨[], [], [.ret (.lit .undefined)]⟩ false false (some []) none)).watchDelegate =
      some .inputsWatchDelegate :=
  ⟨rfl, rfl⟩

/-- C16 (the code breaks the claim): the evaluator `compile` returns for `a + b` exposes
no `inputs`, and `parse` attaches no delegate to it. -/
theorem compile_sum_no_inputs :
    ((compile Host.bare delegateGrammar "a + b").map fun fn =>
      (fn.inputs.isSome, fn.constant, fn.watchDelegate)) = .ok (false, false, none) ∧
    (parse Host.bare delegateGrammar (.string "a + b")).map Parsed.watchDelegate = .ok none := by
  decide!

/-! ## Identifier reads: values and frames -/

/-- A value that passes the object guard is returned as it is. -/
theorem ensureSafeObject_ok (h : Heap) (v w : Val) (hg : ensureSafeObject h v = .ok w) :
    w = v := by
  unfold ensureSafeObject at hg
  split_ifs at hg <;> (cases hg; rfl)

/-- What the run of the code of an identifier returns, when the local context is falsy
or an object: the member of the context the name resolves to, or `undefined` when it
resolves to none, sent through the object guard. -/
theorem identifier_run (host : Host) (name : String) (s l : Val) (heap : Heap)
    (hlv : truthy l = false ∨ ∃ a, l = .ref a) :
    execBody host (identifierBlock 0 name ++ [.ret (.var (.v 0))])
        (Code.entry { filters := [], vars := [.v 0], body := [] } s l heap) =
      match lookupContext heap s l name with
      | some ctx =>
          (ensureSafeObject heap (getProp heap ctx name),
            ((Code.entry { filters := [], vars := [.v 0], body := [] } s l heap).logged
              (.read ctx name)).assignVar (.v 0) (getProp heap ctx name))
      | none =>
          (.ok .undefined, Code.entry { filters := [], vars := [.v 0], body := [] } s l heap) := by
  rw [execBody_identifierBlock host 0 name _
    (Code.entry { filters := [], vars := [.v 0], body := [] } s l heap) s l .undefined
    rfl rfl rfl hlv]
  simp only [Code.entry]
  cases hctx : lookupContext heap s l name with
  | none =>
      have : ensureSafeObject heap .undefined = .ok .undefined := rfl
      simp only [this, execBody, evalExpr]
      rfl
  | some ctx =>
      simp only []
      cases hg : ensureSafeObject heap (getProp heap ctx name) with
      | error e => rfl
      | ok v =>
          simp only [execBody, evalExpr]
          rw [readVar_eq _ (.v 0) _ (by simp) (lookup_assignVar_self _ _ _),
            ensureSafeObject_ok _ _ _ hg]

/-- What evaluating an identifier to a value tells about the contexts. -/
theorem identifier_evaluates (host : Host) (name : String) (s l : Val) (heap : Heap) (v : Val)
    (hev : (execBody host (identifierBlock 0 name ++ [.ret (.var (.v 0))])
      (Code.entry { filters := [], vars := [.v 0], body := [] } s l heap)).1 = .ok v) :
    (truthy l = false ∨ ∃ a, l = .ref a) ∧
    ((∃ ctx, lookupContext heap s l name = some ctx ∧ getProp heap ctx name = v ∧
        ensureSafeObject heap v = .ok v) ∨
      (lookupContext heap s l name = none ∧ v = .undefined)) := by
  have hlv : truthy l = false ∨ ∃ a, l = .ref a := by
    by_contra hcon
    simp only [not_or, Bool.not_eq_false, not_exists] at hcon
    rw [execBody_identifierBlock_primitive host 0 name _
      (Code.entry { filters := [], vars := [.v 0], body := [] } s l heap) l rfl hcon.1 hcon.2]
      at hev
    cases hev
  refine ⟨hlv, ?_⟩
  rw [identifier_run host name s l heap hlv] at hev
  cases hctx : lookupContext heap s l name with
  | none =>
      simp only [hctx, Except.ok.injEq] at hev
      exact Or.inr ⟨rfl, hev.symm⟩
  | some ctx =>
      simp only [hctx] at hev
      have := ensureSafeObject_ok _ _ _ hev
      subst this
      exact Or.inl ⟨ctx, rfl, rfl, hev⟩

/-- The statements reading an identifier into `v k`, in contexts in which the identifier
evaluates to `v`: they leave `v` in `v k` and touch neither the other variables nor the
heap. -/
theorem execBody_identifierBlock_value (host : Host) (k : Nat) (name : String)
    (rest : List JStmt) (m : Machine) (s l v : Val)
    (hs : m.vars.lookup .s = some s) (hl : m.vars.lookup .l = some l)
    (hk : m.vars.lookup (.v k) = some .undefined)
    (hev : (execBody host (identifierBlock 0 name ++ [.ret (.var (.v 0))])
      (Code.entry { filters := [], vars := [.v 0], body := [] } s l m.heap)).1 = .ok v) :
    ∃ m', execBody host (identifierBlock k name ++ rest) m = execBody host rest m' ∧
      m'.vars.lookup (.v k) = some v ∧
      (∀ x, x ≠ .v k → m'.vars.lookup x = m.vars.lookup x) ∧ m'.heap = m.heap := by
  obtain ⟨hlv, hres⟩ := identifier_evaluates host name s l m.heap v hev
  rw [execBody_identifierBlock host k name rest m s l .undefined hs hl hk hlv]
  rcases hres with ⟨ctx, hctx, hval, hg⟩ | ⟨hctx, hv⟩
  · simp only [hctx, hval, hg]
    exact ⟨_, rfl, lookup_assignVar_self _ _ _,
      fun x hx => by rw [lookup_assignVar_ne _ _ _ _ hx, Machine.logged_vars], rfl⟩
  · have : ensureSafeObject m.heap .undefined = .ok .undefined := rfl
    simp only [hctx, this]
    exact ⟨m, rfl, by rw [hk, hv], fun _ _ => rfl, rfl⟩


/-! ## Binary operators and `ifDefined` -/

/-- Reading a declared variable. -/
theorem evalExpr_var (host : Host) (m : Machine) (x : Ident) (v : Val)
    (hx : x ≠ .undefined) (h : m.vars.lookup x = some v) :
    evalExpr host (.var x) m = (.ok v, m) := by
  rw [evalExpr]
  exact readVar_eq m x v hx h

/-- The value of the text of a binary expression, from the values of the operand texts:
for `+` and `-` both values go through `ifDefined(..., 0)`, for every other operator
they are used as they are. -/
theorem evalExpr_binaryCode (host : Host) (operator : String) (le re : JExpr)
    (m m1 m2 : Machine) (x y : Val)
    (hl : evalExpr host le m = (.ok x, m1)) (hr : evalExpr host re m1 = (.ok y, m2)) :
    evalExpr host (binaryCode operator le re) m =
      (.ok (if operator = "+" ∨ operator = "-" then
          applyBinary host operator (ifDefined x (.num 0)) (ifDefined y (.num 0))
        else applyBinary host operator x y), m2) := by
  unfold binaryCode
  split
  · simp only [ASTCompiler.ifDefined]
    rw [evalExpr, evalExpr, evalExpr]
    simp only [Exec.bind_apply, Exec.andThen, hl, hr, Exec.pure_apply]
  · rw [evalExpr]
    simp only [Exec.bind_apply, Exec.andThen, hl, hr, Exec.pure_apply]

/-- The run of the code of `a op b` for identifiers, in contexts in which `a` evaluates
to `x` and `b` to `y`. -/
theorem binary_run (host : Host) (operator a b : String) (s l : Val) (heap : Heap)
    (x y : Val)
    (hx : (execBody host (identifierBlock 0 a ++ [.ret (.var (.v 0))])
      (Code.entry { filters := [], vars := [.v 0], body := [] } s l heap)).1 = .ok x)
    (hy : (execBody host (identifierBlock 0 b ++ [.ret (.var (.v 0))])
      (Code.entry { filters := [], vars := [.v 0], body := [] } s l heap)).1 = .ok y) :
    (execBody host (identifierBlock 0 a ++ identifierBlock 1 b ++
        [.ret (binaryCode operator (.var (.v 0)) (.var (.v 1)))])
      (Code.entry { filters := [], vars := [.v 0, .v 1], body := [] } s l heap)).1 =
      .ok (if operator = "+" ∨ operator = "-" then
          applyBinary host operator (ifDefined x (.num 0)) (ifDefined y (.num 0))
        else applyBinary host operator x y) := by
  obtain ⟨m1, h1, hv1, hf1, hh1⟩ := execBody_identifierBlock_value host 0 a
    (identifierBlock 1 b ++ [.ret (binaryCode operator (.var (.v 0)) (.var (.v 1)))])
    (Code.entry { filters := [], vars := [.v 0, .v 1], body := [] } s l heap) s l x
    rfl rfl rfl hx
  rw [List.append_assoc, h1]
  obtain ⟨m2, h2, hv2, hf2, _⟩ := execBody_identifierBlock_value host 1 b
    [.ret (binaryCode operator (.var (.v 0)) (.var (.v 1)))] m1 s l y
    (by rw [hf1 _ (by simp)]; rfl) (by rw [hf1 _ (by simp)]; rfl)
    (by rw [hf1 _ (by simp)]; rfl) (by rw [hh1]; exact hy)
  rw [h2, execBody]
  rw [evalExpr_binaryCode host operator _ _ m2 m2 m2 x y
    (evalExpr_var host m2 (.v 0) x (by simp) (by rw [hf2 _ (by simp), hv1]))
    (evalExpr_var host m2 (.v 1) y (by simp) hv2)]


/-- C13: `ifDefined(v, d)` is `d` when `v` is `undefined` and `v` otherwise (so `null`,
`false`, `0` and the empty string stay); the `BinaryExpression` case wraps both operand
texts in `ifDefined(..., 0)` for `+` and `-` and uses them as they are for every other
operator, and the value of the generated text is the operator applied to the operand
values, sent through `ifDefined(..., 0)` for `+` and `-` only. For identifier operands
`a op b` then evaluates accordingly in all contexts; with `a` an integer `n` and `b`
undefined, `a + b` and `a - b` give `n`, and with `a` undefined and `b` an integer `n`,
`a - b` gives `-n`. -/
theorem binary_ifDefined (host : Host) (astBuilder : String → Node)
    (text textA textB operator a b : String)
    (ha : a ∉ forbiddenMemberNames) (hb : b ∉ forbiddenMemberNames)
    (hast : astBuilder text =
      .Program [.BinaryExpression operator (.Identifier a) (.Identifier b)])
    (hA : astBuilder textA = .Program [.Identifier a])
    (hB : astBuilder textB = .Program [.Identifier b]) :
    (∀ d, ifDefined .undefined d = d) ∧
    (∀ v d, v ≠ .undefined → ifDefined v d = v) ∧
    (∀ d, ifDefined .null d = .null ∧ ifDefined (.bool false) d = .bool false ∧
      ifDefined (.num 0) d = .num 0 ∧ ifDefined (.str "") d = .str "") ∧
    (∀ (left right : Node) (create : Bool),
      recurse (.BinaryExpression operator left right) create = (do
        let l ← recurse left false
        let r ← recurse right false
        pure (if operator = "+" ∨ operator = "-" then
            JExpr.binary operator (.ifDefined l.1 (.num 0)) (.ifDefined r.1 (.num 0))
          else .binary operator l.1 r.1, none))) ∧
    (∀ (le re : JExpr) (m m1 m2 : Machine) (x y : Val),
      evalExpr host le m = (.ok x, m1) → evalExpr host re m1 = (.ok y, m2) →
      evalExpr host (if operator = "+" ∨ operator = "-" then
            JExpr.binary operator (.ifDefined le (.num 0)) (.ifDefined re (.num 0))
          else .binary operator le re) m =
        (.ok (if operator = "+" ∨ operator = "-" then
            applyBinary host operator (ifDefined x (.num 0)) (ifDefined y (.num 0))
          else applyBinary host operator x y), m2)) ∧
    (∀ (s l : Val) (heap : Heap) (x y : Val),
      evaluate host astBuilder textA s l heap = .ok x →
      evaluate host astBuilder textB s l heap = .ok y →
      evaluate host astBuilder text s l heap =
        .ok (if operator = "+" ∨ operator = "-" then
            applyBinary host operator (ifDefined x (.num 0)) (ifDefined y (.num 0))
          else applyBinary host operator x y)) ∧
    (∀ (s l : Val) (heap : Heap) (n : Int),
      evaluate host astBuilder textA s l heap = .ok (.num n) →
      evaluate host astBuilder textB s l heap = .ok .undefined →
      operator = "+" ∨ operator = "-" →
      evaluate host astBuilder text s l heap = .ok (.num n)) ∧
    (∀ (s l : Val) (heap : Heap) (n : Int),
      evaluate host astBuilder textA s l heap = .ok .undefined →
      evaluate host astBuilder textB s l heap = .ok (.num n) →
      operator = "-" →
      evaluate host astBuilder text s l heap = .ok (.num (-n))) := by
  have run : ∀ (s l : Val) (heap : Heap) (x y : Val),
      evaluate host astBuilder textA s l heap = .ok x →
      evaluate host astBuilder textB s l heap = .ok y →
      evaluate host astBuilder text s l heap =
        .ok (if operator = "+" ∨ operator = "-" then
            applyBinary host operator (ifDefined x (.num 0)) (ifDefined y (.num 0))
          else applyBinary host operator x y) := by
    intro s l heap x y hx hy
    simp only [evaluate, compile_identifier host astBuilder textA a ha hA, Bind.bind,
      Except.bind, Code.call] at hx
    simp only [evaluate, compile_identifier host astBuilder textB b hb hB, Bind.bind,
      Except.bind, Code.call] at hy
    simp only [evaluate, compile_binary host astBuilder text operator a b ha hb hast,
      Bind.bind, Except.bind, Code.call]
    exact binary_run host operator a b s l heap x y hx hy
  refine ⟨fun d => by simp [ifDefined], fun v d hv => by simp [ifDefined, hv],
    fun d => by simp [ifDefined], ?_, ?_, run, ?_, ?_⟩
  · intro left right create
    have := recurse_binary operator left right create
    simpa only [binaryCode, ASTCompiler.ifDefined] using this
  · intro le re m m1 m2 x y hl hr
    have := evalExpr_binaryCode host operator le re m m1 m2 x y hl hr
    simpa only [binaryCode, ASTCompiler.ifDefined] using this
  · intro s l heap n hx hy hop
    rw [run s l heap _ _ hx hy, if_pos hop]
    rcases hop with rfl | rfl <;> simp [ifDefined, applyBinary, toNumber, ofNumber]
  · intro s l heap n hx hy hop
    subst hop
    rw [run s l heap _ _ hx hy]
    simp [ifDefined, applyBinary, toNumber, ofNumber]

/-- C13, witness: the sum `a + b` under the example grammar. -/
theorem binary_ifDefined_witness :
    "a" ∉ forbiddenMemberNames ∧ "b" ∉ forbiddenMemberNames ∧
    (∀ (s l : Val) (heap : Heap) (n : Int),
      evaluate Host.bare binaryGrammar "a" s l heap = .ok (.num n) →
      evaluate Host.bare binaryGrammar "b" s l heap = .ok .undefined →
      evaluate Host.bare binaryGrammar "a + b" s l heap = .ok (.num n)) ∧
    evaluate Host.bare binaryGrammar "a" (.ref 0) .undefined
      [{ props := [("a", .num 5)], fn := none }] = .ok (.num 5) ∧
    evaluate Host.bare binaryGrammar "b" (.ref 0) .undefined
      [{ props := [("a", .num 5)], fn := none }] = .ok .undefined ∧
    evaluate Host.bare binaryGrammar "a + b" (.ref 0) .undefined
      [{ props := [("a", .num 5)], fn := none }] = .ok (.num 5) :=
  have h := binary_ifDefined Host.bare binaryGrammar "a + b" "a" "b" "+" "a" "b"
    (by decide) (by decide) (by simp [binaryGrammar]) (by simp [binaryGrammar])
    (by simp [binaryGrammar])
  ⟨by decide, by decide,
    fun s l heap n hx hy => h.2.2.2.2.2.2.1 s l heap n hx hy (Or.inl rfl),
    by decide!, by decide!,
    h.2.2.2.2.2.2.1 _ _ _ 5 (by decide!) (by decide!) (Or.inl rfl)⟩

/-! ## Identifier lookup: local over root -/

/-- A value that is not an object passes the object guard. -/
theorem ensureSafeObject_primitive (h : Heap) (v : Val) (hv : ∀ a, v ≠ .ref a) :
    ensureSafeObject h v = .ok v := by
  cases v <;> first | exact absurd rfl (hv _) | simp [ensureSafeObject, getProp, truthy, strictEq]

/-- The object guard returns its argument or raises a security violation. -/
theorem ensureSafeObject_cases (h : Heap) (v : Val) :
    ensureSafeObject h v = .ok v ∨
      ∃ msg, ensureSafeObject h v = .error (.SecurityViolation msg) := by
  unfold ensureSafeObject
  split_ifs <;> simp

/-- C12 (amended): the evaluator compiled from the identifier `n`, for a safe name and a
local context that is absent (falsy) or an object, reads `local[n]` and nothing else
when `n` is in the local context, otherwise reads `root[n]` when the root context is
truthy, otherwise reads nothing and returns `undefined`; the value read goes through
the object guard, which returns it unchanged when it is a primitive (so also when it is
undefined or falsy) and otherwise either returns it or raises a security violation. -/
theorem identifier_lookup (host : Host) (astBuilder : String → Node) (text n : String)
    (hn : n ∉ forbiddenMemberNames) (hast : astBuilder text = .Program [.Identifier n]) :
    ∃ fn, compile host astBuilder text = .ok fn ∧
      ∀ (s l : Val) (heap : Heap), (truthy l = false ∨ ∃ a, l = .ref a) →
        ((∃ a, l = .ref a ∧ (lookupMember (membersAt heap a) n).isSome = true) →
          fn.code.observe host s l heap =
            (ensureSafeObject heap (getProp heap l n), [.read l n])) ∧
        ((¬ ∃ a, l = .ref a ∧ (lookupMember (membersAt heap a) n).isSome = true) →
          (truthy s = true → fn.code.observe host s l heap =
            (ensureSafeObject heap (getProp heap s n), [.read s n])) ∧
          (truthy s = false → fn.code.observe host s l heap = (.ok .undefined, []))) ∧
        (∀ v, (ensureSafeObject heap v = .ok v ∨
            ∃ msg, ensureSafeObject heap v = .error (.SecurityViolation msg)) ∧
          ((∀ a, v ≠ .ref a) → ensureSafeObject heap v = .ok v)) := by
  refine ⟨_, compile_identifier host astBuilder text n hn hast, ?_⟩
  intro s l heap hlv
  have run := identifier_run host n s l heap hlv
  refine ⟨?_, ?_, fun v => ⟨ensureSafeObject_cases heap v, ensureSafeObject_primitive heap v⟩⟩
  · rintro ⟨a, rfl, hin⟩
    have hctx : lookupContext heap s (.ref a) n = some (.ref a) := by
      simp [lookupContext, hin]
    simp only [Code.observe, Code.call]
    rw [hctx] at run
    simp only [] at run
    rw [show Code.entry
        { filters := [], vars := [.v 0], body := identifierBlock 0 n ++ [.ret (.var (.v 0))] }
        s (.ref a) heap =
      Code.entry { filters := [], vars := [.v 0], body := [] } s (.ref a) heap from rfl, run]
    rfl
  · intro hnot
    have hctx : lookupContext heap s l n = if truthy s then some s else none := by
      unfold lookupContext
      cases l <;> try rfl
      rename_i a
      have : (lookupMember (membersAt heap a) n).isSome = false := by
        cases hin : (lookupMember (membersAt heap a) n).isSome
        · rfl
        · exact absurd ⟨a, rfl, hin⟩ hnot
      simp [this]
    simp only [Code.observe, Code.call]
    rw [show Code.entry
        { filters := [], vars := [.v 0], body := identifierBlock 0 n ++ [.ret (.var (.v 0))] }
        s l heap =
      Code.entry { filters := [], vars := [.v 0], body := [] } s l heap from rfl, run, hctx]
    constructor
    · intro hs
      simp only [hs, ↓reduceIte]
      rfl
    · intro hs
      simp only [hs, Bool.false_eq_true, ↓reduceIte]
      rfl

/-- C12, witness: the identifier `a` under the example grammar. -/
theorem identifier_lookup_witness :
    "a" ∉ forbiddenMemberNames ∧
    ∃ fn, compile Host.bare binaryGrammar "a" = .ok fn ∧
      ∀ (s l : Val) (heap : Heap), (truthy l = false ∨ ∃ a, l = .ref a) →
        ((∃ a, l = .ref a ∧ (lookupMember (membersAt heap a) "a").isSome = true) →
          fn.code.observe Host.bare s l heap =
            (ensureSafeObject heap (getProp heap l "a"), [.read l "a"])) ∧
        ((¬ ∃ a, l = .ref a ∧ (lookupMember (membersAt heap a) "a").isSome = true) →
          (truthy s = true → fn.code.observe Host.bare s l heap =
            (ensureSafeObject heap (getProp heap s "a"), [.read s "a"])) ∧
          (truthy s = false → fn.code.observe Host.bare s l heap = (.ok .undefined, []))) ∧
        (∀ v, (ensureSafeObject heap v = .ok v ∨
            ∃ msg, ensureSafeObject heap v = .error (.SecurityViolation msg)) ∧
          ((∀ a, v ≠ .ref a) → ensureSafeObject heap v = .ok v)) :=
  ⟨by decide, identifier_lookup Host.bare binaryGrammar "a" "a" (by decide)
    (by simp [binaryGrammar])⟩

/-- C12, counterexample: with the name `a` in the local context and `local.a` the
function that is its own `constructor`, the evaluator compiled from `a` does not return
`local.a`: it raises; and with a local context that is a number it raises a
`TypeError`. -/
theorem identifier_lookup_counterexample :
    "a" ∉ forbiddenMemberNames ∧
    (lookupMember (membersAt constructorHeap 1) "a").isSome = true ∧
    getProp constructorHeap (.ref 1) "a" = .ref 2 ∧
    evaluate Host.bare binaryGrammar "a" (.ref 0) (.ref 1) constructorHeap =
      .error (.SecurityViolation "Referencing Function in Angular expressions is disallowed") ∧
    evaluate Host.bare binaryGrammar "a" (.ref 0) (.ref 1) constructorHeap ≠
      .ok (getProp constructorHeap (.ref 1) "a") ∧
    evaluate Host.bare binaryGrammar "a" (.ref 0) (.num 1) constructorHeap =
      .error .TypeError := by
  decide!

/-! ## Logical expressions: what runs when the left operand decides -/

/-- C11 (the code breaks the claim): in `a || (b && c())` with `a` and `b` true, the
statements generated for the right operand `b && c()`, among them
`if(v2){v2=c&& ensureSafeObject(c());}`, are pushed before the `if(!(v0))` that tests
`a`; they run although `a` is truthy, and `c` (the function at address 4) is invoked.
The value returned is still that of `a`. -/
theorem short_circuit_call_runs :
    getProp shortCircuitHeap (.ref 0) "a" = .bool true ∧
    ((compile Host.reflective (fun _ => shortCircuit) "a || (b && c())").map
      fun fn => fn.code.observe Host.reflective (.ref 0) .undefined shortCircuitHeap) =
    .ok (.ok (.bool true),
      [.read (.ref 0) "a", .read (.ref 0) "b", .read (.ref 0) "c", .read (.ref 0) "c",
       .read (.ref 0) "c", .read (.ref 0) "c", .invoke (.ref 4) (.ref 0) []]) := by
  decide!

/-! ## Constancy: no variable among the visited nodes -/

mutual
/-- The `constant` flag of a node says that no visited node is a variable. -/
theorem constant_eq_visited : ∀ n : Node,
    (markConstantAndWatchExpressions n).constant = n.visited.all fun m => !m.isVariable
  | .Program body => by
      simp only [markConstantAndWatchExpressions, Node.visited, List.all_cons, Node.isVariable,
        Bool.not_false, Bool.true_and]
      exact markBody_eq_visited body
  | .Literal _ => by simp [markConstantAndWatchExpressions, Node.visited, Node.isVariable]
  | .Identifier _ => by simp [markConstantAndWatchExpressions, Node.visited, Node.isVariable]
  | .ThisExpression => by simp [markConstantAndWatchExpressions, Node.visited, Node.isVariable]
  | .MemberExpression object property computed => by
      simp only [markConstantAndWatchExpressions, Node.visited, List.all_cons, Node.isVariable,
        Bool.not_false, Bool.true_and, List.all_append, constant_eq_visited object,
        constant_eq_visited property]
      cases computed <;> simp
  | .CallExpression callee arguments filter => by
      simp only [markConstantAndWatchExpressions, Node.visited, List.all_cons, Node.isVariable,
        Bool.not_not, markElements_eq_visited arguments]
  | .AssignmentExpression left right => by
      simp only [markConstantAndWatchExpressions, Node.visited, List.all_cons, Node.isVariable,
        Bool.not_false, Bool.true_and, List.all_append, constant_eq_visited left,
        constant_eq_visited right]
  | .UnaryExpression _ argument => by
      simp only [markConstantAndWatchExpressions, Node.visited, List.all_cons, Node.isVariable,
        Bool.not_false, Bool.true_and, constant_eq_visited argument]
  | .BinaryExpression _ left right => by
      simp only [markConstantAndWatchExpressions, Node.visited, List.all_cons, Node.isVariable,
        Bool.not_false, Bool.true_and, List.all_append, constant_eq_visited left,
        constant_eq_visited right]
  | .LogicalExpression _ left right => by
      simp only [markConstantAndWatchExpressions, Node.visited, List.all_cons, Node.isVariable,
        Bool.not_false, Bool.true_and, List.all_append, constant_eq_visited left,
        constant_eq_visited right]
  | .ConditionalExpression test consequent alternate => by
      simp only [markConstantAndWatchExpressions, Node.visited, List.all_cons, Node.isVariable,
        Bool.not_false, Bool.true_and, List.all_append, constant_eq_visited test,
        constant_eq_visited consequent, constant_eq_visited alternate]
  | .ArrayExpression elements => by
      simp only [markConstantAndWatchExpressions, Node.visited, List.all_cons, Node.isVariable,
        Bool.not_false, Bool.true_and, markElements_eq_visited elements]
  | .ObjectExpression properties => by
      simp only [markConstantAndWatchExpressions, Node.visited, List.all_cons, Node.isVariable,
        Bool.not_false, Bool.true_and, markProperties_eq_visited properties]
/-- The loop over the statements of a program. -/
theorem markBody_eq_visited : ∀ body : List Node,
    markBody body = (visitedAll body).all fun m => !m.isVariable
  | [] => by simp [markBody, visitedAll]
  | e :: rest => by
      simp only [markBody, visitedAll, List.all_append, constant_eq_visited e,
        markBody_eq_visited rest]
/-- The loop over array elements or call arguments. -/
theorem markElements_eq_visited : ∀ es : List Node,
    (markElements es).1 = (visitedAll es).all fun m => !m.isVariable
  | [] => by simp [markElements, visitedAll]
  | e :: rest => by
      simp only [markElements, visitedAll, List.all_append, constant_eq_visited e,
        markElements_eq_visited rest]
/-- The loop over the property values of an object literal. -/
theorem markProperties_eq_visited : ∀ ps : List (PropKey × Node),
    (markProperties ps).1 = (visitedProperties ps).all fun m => !m.isVariable
  | [] => by simp [markProperties, visitedProperties]
  | p :: rest => by
      simp only [markProperties, visitedProperties, List.all_append, constant_eq_visited p.2,
        markProperties_eq_visited rest]
end

/-- C24: the classifier marks a node constant exactly when neither the node nor any
sub-expression the classifier visits beneath it is an `Identifier`, a `ThisExpression`
or a `CallExpression` that is not a filter call. -/
theorem constant_iff_no_variable (n : Node) :
    (markConstantAndWatchExpressions n).constant = true ↔
      ∀ m ∈ n.visited, m.isVariable = false := by
  rw [constant_eq_visited n, List.all_eq_true]
  simp

/-! ## `parse` on a function -/

/-- C22: `parse` handed a function returns that function itself, with the flags and the
delegate it has; so handing `parse` what it returned gives the same function again, for
every input: a string, a function, or anything else. -/
theorem parse_function (host : Host) (astBuilder : String → Node) :
    (∀ f : Parsed, parse host astBuilder (.function f) = .ok f) ∧
    (∀ (x : Expression) (p : Parsed), parse host astBuilder x = .ok p →
      parse host astBuilder (.function p) = parse host astBuilder x) ∧
    (∀ x : Expression,
      (parse host astBuilder x >>= fun p => parse host astBuilder (.function p)) =
        parse host astBuilder x) := by
  refine ⟨fun f => rfl, fun x p h => by rw [h]; rfl, fun x => ?_⟩
  cases h : parse host astBuilder x with
  | error e => rfl
  | ok p => rfl

namespace inputsWatchDelegate

/-! ## The stored values after a pass -/

/-- The dirty check finds a value equal to itself. -/
theorem expressionInputDirtyCheck_self (v : Val) : expressionInputDirtyCheck v v = true := by
  cases v <;> simp [expressionInputDirtyCheck, strictEq, isNumber, isNaN, toNumber]

/-- Nothing an input returns equals the function the entries start with. -/
theorem sameAsStored_true (v : Val) (o : Option Val) (h : sameAsStored v o = true) :
    ∃ stored, o = some stored ∧ expressionInputDirtyCheck v stored = true := by
  cases o with
  | none => simp [sameAsStored] at h
  | some stored => exact ⟨stored, rfl, h⟩

/-- Once an input has changed, every later entry is overwritten. -/
theorem loop_overwrites {S : Type} (scope : S) (inputs : List (S → Val))
    (oldValues : List (Option Val)) (hlen : oldValues.length = inputs.length) :
    loop scope inputs oldValues true = (inputs.map fun f => some (f scope), true) := by
  induction inputs generalizing oldValues with
  | nil =>
      cases oldValues with
      | nil => rfl
      | cons o os => simp at hlen
  | cons i rest ih =>
      cases oldValues with
      | nil => simp at hlen
      | cons o os => simp [loop, ih os (by simpa using hlen)]

/-- The loop keeps the number of entries. -/
theorem loop_length {S : Type} (scope : S) (inputs : List (S → Val))
    (oldValues : List (Option Val)) (changed : Bool)
    (hlen : oldValues.length = inputs.length) :
    (loop scope inputs oldValues changed).1.length = inputs.length := by
  induction inputs generalizing oldValues changed with
  | nil =>
      cases oldValues with
      | nil => rfl
      | cons o os => simp at hlen
  | cons i rest ih =>
      cases oldValues with
      | nil => simp at hlen
      | cons o os =>
          have := fun c => ih os c (by simpa using hlen)
          simp only [loop]
          split <;> simp [this]

/-- After the loop, the entry of every input is equal, by the dirty check, to the value
the input has just returned. -/
theorem loop_stored {S : Type} (scope : S) (inputs : List (S → Val))
    (oldValues : List (Option Val)) (changed : Bool)
    (hlen : oldValues.length = inputs.length) (i : Nat) (inputExpr : S → Val)
    (hi : inputs[i]? = some inputExpr) :
    ∃ stored, (loop scope inputs oldValues changed).1[i]? = some (some stored) ∧
      expressionInputDirtyCheck (inputExpr scope) stored = true := by
  induction inputs generalizing oldValues changed i with
  | nil => simp at hi
  | cons f rest ih =>
      cases oldValues with
      | nil => simp at hlen
      | cons o os =>
          have hlen' : os.length = rest.length := by simpa using hlen
          simp only [loop]
          cases i with
          | zero =>
              simp only [List.getElem?_cons_zero, Option.some.injEq] at hi
              subst hi
              by_cases hc : (changed || !sameAsStored (f scope) o) = true
              · simp only [hc, ↓reduceIte, List.getElem?_cons_zero]
                exact ⟨f scope, rfl, expressionInputDirtyCheck_self _⟩
              · simp only [hc, Bool.false_eq_true, ↓reduceIte, List.getElem?_cons_zero]
                have hs : sameAsStored (f scope) o = true := by
                  cases hsame : sameAsStored (f scope) o
                  · simp [hsame] at hc
                  · rfl
                obtain ⟨stored, rfl, hd⟩ := sameAsStored_true _ _ hs
                exact ⟨stored, rfl, hd⟩
          | succ j =>
              simp only [List.getElem?_cons_succ] at hi
              split
              · simpa only [List.getElem?_cons_succ] using ih os true hlen' j hi
              · simpa only [List.getElem?_cons_succ] using ih os changed hlen' j hi

/-- The shape of the entries after the loop: those before the first changed input are
left as they were, those from it onwards hold the new values. -/
theorem loop_shape {S : Type} (scope : S) (inputs : List (S → Val))
    (oldValues : List (Option Val)) (hlen : oldValues.length = inputs.length) :
    ∃ k, k ≤ inputs.length ∧
      loop scope inputs oldValues false =
        (oldValues.take k ++ (inputs.drop k).map fun f => some (f scope),
          decide (k < inputs.length)) ∧
      (∀ p ∈ (inputs.zip oldValues).take k, sameAsStored (p.1 scope) p.2 = true) ∧
      (∀ f o, inputs[k]? = some f → oldValues[k]? = some o →
        sameAsStored (f scope) o = false) := by
  induction inputs generalizing oldValues with
  | nil =>
      cases oldValues with
      | nil => exact ⟨0, le_refl _, rfl, by simp, by simp⟩
      | cons o os => simp at hlen
  | cons f rest ih =>
      cases oldValues with
      | nil => simp at hlen
      | cons o os =>
          have hlen' : os.length = rest.length := by simpa using hlen
          cases hs : sameAsStored (f scope) o with
          | false =>
              refine ⟨0, Nat.zero_le _, ?_, by simp, ?_⟩
              · simp [loop, hs, loop_overwrites scope rest os hlen']
              · intro f' o' hf ho
                simp only [List.getElem?_cons_zero, Option.some.injEq] at hf ho
                subst hf ho
                exact hs
          | true =>
              obtain ⟨k, hk, hloop, hbefore, hat⟩ := ih os hlen'
              refine ⟨k + 1, by simpa using hk, ?_, ?_, ?_⟩
              · simp [loop, hs, hloop]
              · intro p hp
                simp only [List.zip_cons_cons, List.take_succ_cons, List.mem_cons] at hp
                rcases hp with rfl | hp
                · exact hs
                · exact hbefore p hp
              · intro f' o' hf ho
                simp only [List.getElem?_cons_succ] at hf ho
                exact hat f' o' hf ho

/-- Every pass keeps one entry per input. -/
theorem passes_length {S : Type} (inputs : List (S → Val)) (watchFn : S → Val)
    (scopes : List S) (st : State) (hlen : st.oldValues.length = inputs.length) :
    (passes inputs watchFn scopes st).oldValues.length = inputs.length := by
  induction scopes generalizing st with
  | nil => exact hlen
  | cons scope rest ih =>
      simp only [passes]
      exact ih _ (loop_length scope inputs st.oldValues false hlen)

/-- The delegate starts with one entry per input. -/
theorem initial_length {S : Type} (inputs : List (S → Val)) :
    (initial inputs).oldValues.length = inputs.length := by
  simp [initial]

/-- C23: after every pass of the watch function of the input-optimized delegate (the
passes before it being any passes from the start), the stored value of every input is
equal, by the dirty check, to the value the input returned in that pass; the entries
before the first changed input are left as they were, the entries from the first
changed input onwards are all overwritten with the new values. -/
theorem oldValues_refreshed {S : Type} (inputs : List (S → Val)) (watchFn : S → Val)
    (scopes : List S) (scope : S) :
    (watch inputs watchFn scope
      (passes inputs watchFn scopes (initial inputs))).2.1.oldValues.length = inputs.length ∧
    (∀ (i : Nat) (inputExpr : S → Val), inputs[i]? = some inputExpr →
      ∃ stored,
        (watch inputs watchFn scope
          (passes inputs watchFn scopes (initial inputs))).2.1.oldValues[i]? =
            some (some stored) ∧
        expressionInputDirtyCheck (inputExpr scope) stored = true) ∧
    (∃ k, k ≤ inputs.length ∧
      (watch inputs watchFn scope
        (passes inputs watchFn scopes (initial inputs))).2.1.oldValues =
          (passes inputs watchFn scopes (initial inputs)).oldValues.take k ++
            (inputs.drop k).map (fun f => some (f scope)) ∧
      (∀ p ∈ (inputs.zip (passes inputs watchFn scopes (initial inputs)).oldValues).take k,
        sameAsStored (p.1 scope) p.2 = true) ∧
      (∀ f o, inputs[k]? = some f →
        (passes inputs watchFn scopes (initial inputs)).oldValues[k]? = some o →
        sameAsStored (f scope) o = false)) := by
  have hlen := passes_length inputs watchFn scopes (initial inputs) (initial_length inputs)
  refine ⟨loop_length scope inputs _ false hlen,
    fun i inputExpr hi => loop_stored scope inputs _ false hlen i inputExpr hi, ?_⟩
  obtain ⟨k, hk, hloop, hbefore, hat⟩ := loop_shape scope inputs _ hlen
  exact ⟨k, hk, by simp [watch, hloop], hbefore, hat⟩

/-- C25: on its first pass the watch function of the input-optimized delegate evaluates
the full expression exactly when the list of inputs is not empty, and then returns its
result, because no value an input returns equals the function the stored values start
with; with an empty list of inputs every pass evaluates nothing, leaves the variables
as they are and returns `undefined`. -/
theorem first_pass {S : Type} (watchFn : S → Val) :
    (∀ v : Val, sameAsStored v none = false) ∧
    (∀ (inputs : List (S → Val)) (scope : S),
      (Step.watchFn ∈ (watch inputs watchFn scope (initial inputs)).2.2 ↔ inputs ≠ []) ∧
      (inputs ≠ [] →
        (watch inputs watchFn scope (initial inputs)).1 = watchFn scope ∧
        (watch inputs watchFn scope (initial inputs)).2.2 =
          (List.range inputs.length).map Step.input ++ [Step.watchFn])) ∧
    (∀ (scopes : List S) (scope : S),
      watch [] watchFn scope (passes [] watchFn scopes (initial ([] : List (S → Val)))) =
        (.undefined, initial ([] : List (S → Val)), [])) := by
  refine ⟨fun v => rfl, fun inputs scope => ?_, fun scopes scope => ?_⟩
  · cases inputs with
    | nil => simp [watch, loop, initial]
    | cons f rest =>
        have hc : (loop scope (f :: rest) (initial (f :: rest)).oldValues false).2 = true := by
          simp [initial, List.replicate_succ, loop, sameAsStored, loop_changed]
        simp [watch, hc]
  · have hp : passes ([] : List (S → Val)) watchFn scopes
        (initial ([] : List (S → Val))) = initial ([] : List (S → Val)) := by
      induction scopes with
      | nil => rfl
      | cons s rest ih => simpa [passes, watch, loop, initial] using ih
    rw [hp]
    rfl

end inputsWatchDelegate

/-! ## The one-time delegate for literals -/

/-- `isAllDefined` holds when no element met in the value is `undefined`. -/
theorem oneTimeLiteralWatchDelegate.isAllDefined_iff (elements : Heap → Val → List Val)
    (heap : Heap) (val : Val) :
    oneTimeLiteralWatchDelegate.isAllDefined elements heap val = true ↔
      ∀ e ∈ elements heap val, e ≠ .undefined := by
  simp [oneTimeLiteralWatchDelegate.isAllDefined, isUndefined]

/-- The listener, with the heap the listener of the user leaves named apart. -/
theorem oneTimeLiteralWatchDelegate.listener_eq (host : Host)
    (elements : Heap → Val → List Val) (listenerFn unwatch this : Val)
    (newValue oldValue scope : Val) (heap : Heap) :
    oneTimeLiteralWatchDelegate.listener host elements listenerFn unwatch this newValue
        oldValue scope heap =
      ((if isFunction heap listenerFn then
          oneTimeLiteralWatchDelegate.applied host heap listenerFn this
            [newValue, oldValue, scope]
        else heap),
        (if isFunction heap listenerFn then
          [.call (.listenerFn this [newValue, oldValue, scope])] else []) ++
        (if oneTimeLiteralWatchDelegate.isAllDefined elements
            (if isFunction heap listenerFn then
              oneTimeLiteralWatchDelegate.applied host heap listenerFn this
                [newValue, oldValue, scope]
            else heap) newValue then
          [.postDigest (oneTimeLiteralWatchDelegate.check elements unwatch newValue)]
        else [])) := by
  unfold oneTimeLiteralWatchDelegate.listener
  cases isFunction heap listenerFn <;> rfl

/-- C21: for the one-time delegate for literals, a listener invocation, once the
listener of the user has run, schedules one check exactly when no element of the value
is undefined in the heap as it is then, and calls `unwatch` in no case; the check, run
on a later heap, calls `unwatch` exactly when no element of that same value is
undefined in that heap (whatever value has been seen last). A value with an undefined
element schedules nothing, and a check that finds one does not unregister. -/
theorem oneTimeLiteralWatchDelegate_listener (host : Host)
    (elements : Heap → Val → List Val) (listenerFn unwatch this : Val)
    (newValue oldValue scope : Val) (heap : Heap) :
    (oneTimeLiteralWatchDelegate.listener host elements listenerFn unwatch this newValue
        oldValue scope heap).1 =
      (if isFunction heap listenerFn then
        oneTimeLiteralWatchDelegate.applied host heap listenerFn this
          [newValue, oldValue, scope]
      else heap) ∧
    ((∀ e ∈ elements (oneTimeLiteralWatchDelegate.listener host elements listenerFn unwatch
        this newValue oldValue scope heap).1 newValue, e ≠ .undefined) →
      (oneTimeLiteralWatchDelegate.listener host elements listenerFn unwatch this newValue
          oldValue scope heap).2 =
        (if isFunction heap listenerFn then
          [.call (.listenerFn this [newValue, oldValue, scope])] else []) ++
        [.postDigest (oneTimeLiteralWatchDelegate.check elements unwatch newValue)]) ∧
    ((∃ e ∈ elements (oneTimeLiteralWatchDelegate.listener host elements listenerFn unwatch
        this newValue oldValue scope heap).1 newValue, e = .undefined) →
      (oneTimeLiteralWatchDelegate.listener host elements listenerFn unwatch this newValue
          oldValue scope heap).2 =
        (if isFunction heap listenerFn then
          [.call (.listenerFn this [newValue, oldValue, scope])] else [])) ∧
    (∀ (lastValue : Val) (later : Heap),
      ((∀ e ∈ elements later newValue, e ≠ .undefined) →
        oneTimeLiteralWatchDelegate.check elements unwatch newValue lastValue later =
          [.unwatch unwatch]) ∧
      ((∃ e ∈ elements later newValue, e = .undefined) →
        oneTimeLiteralWatchDelegate.check elements unwatch newValue lastValue later = [])) := by
  rw [oneTimeLiteralWatchDelegate.listener_eq]
  simp only []
  generalize (if isFunction heap listenerFn then
    oneTimeLiteralWatchDelegate.applied host heap listenerFn this [newValue, oldValue, scope]
    else heap) = after
  refine ⟨trivial, ?_, ?_, ?_⟩
  · intro hall
    have h := (oneTimeLiteralWatchDelegate.isAllDefined_iff elements after newValue).2 hall
    simp only [h, ↓reduceIte]
  · rintro ⟨e, he, rfl⟩
    have h : oneTimeLiteralWatchDelegate.isAllDefined elements after newValue = false := by
      cases hd : oneTimeLiteralWatchDelegate.isAllDefined elements after newValue
      · rfl
      · exact absurd rfl
          ((oneTimeLiteralWatchDelegate.isAllDefined_iff elements after newValue).1 hd _ he)
    simp only [h, Bool.false_eq_true, ↓reduceIte, List.append_nil]
  · intro lastValue later
    constructor
    · intro hall
      rw [oneTimeLiteralWatchDelegate.check,
        if_pos ((oneTimeLiteralWatchDelegate.isAllDefined_iff elements later newValue).2 hall)]
    · rintro ⟨e, he, rfl⟩
      rw [oneTimeLiteralWatchDelegate.check, if_neg]
      intro hd
      exact (oneTimeLiteralWatchDelegate.isAllDefined_iff elements _ newValue).1 hd _ he rfl

/-! ## The invariant on `constant` and `toWatch`, node by node -/

mutual
/-- The nodes with an empty `toWatch`. -/
theorem watchList_nil_iff : ∀ n : Node,
    (markConstantAndWatchExpressions n).watchList = [] ↔ n.watchesNothing = true
  | .Program _ => by simp [markConstantAndWatchExpressions, Annot.watchList, Node.watchesNothing]
  | .Literal _ => by simp [markConstantAndWatchExpressions, Annot.watchList, Node.watchesNothing]
  | .Identifier _ => by
      simp [markConstantAndWatchExpressions, Annot.watchList, Node.watchesNothing]
  | .ThisExpression => by
      simp [markConstantAndWatchExpressions, Annot.watchList, Node.watchesNothing]
  | .MemberExpression _ _ _ => by
      simp [markConstantAndWatchExpressions, Annot.watchList, Node.watchesNothing]
  | .AssignmentExpression _ _ => by
      simp [markConstantAndWatchExpressions, Annot.watchList, Node.watchesNothing]
  | .LogicalExpression _ _ _ => by
      simp [markConstantAndWatchExpressions, Annot.watchList, Node.watchesNothing]
  | .ConditionalExpression _ _ _ => by
      simp [markConstantAndWatchExpressions, Annot.watchList, Node.watchesNothing]
  | .UnaryExpression _ argument => by
      have h := watchList_nil_iff argument
      simpa [markConstantAndWatchExpressions, Annot.watchList, Node.watchesNothing] using h
  | .BinaryExpression _ left right => by
      have hl := watchList_nil_iff left
      have hr := watchList_nil_iff right
      simp only [markConstantAndWatchExpressions, Annot.watchList, Option.getD_some,
        List.append_eq_nil, Node.watchesNothing, Bool.and_eq_true]
      exact and_congr hl hr
  | .ArrayExpression elements => by
      have h := markElements_nil_iff elements
      simpa [markConstantAndWatchExpressions, Annot.watchList, Node.watchesNothing] using h
  | .ObjectExpression properties => by
      have h := markProperties_nil_iff properties
      simpa [markConstantAndWatchExpressions, Annot.watchList, Node.watchesNothing] using h
  | .CallExpression _ arguments filter => by
      have h := markElements_nil_iff arguments
      cases filter
      · simp [markConstantAndWatchExpressions, Annot.watchList, Node.watchesNothing]
      · simpa [markConstantAndWatchExpressions, Annot.watchList, Node.watchesNothing] using h
/-- The loop over elements collects nothing when every element that is not constant
watches nothing. -/
theorem markElements_nil_iff : ∀ es : List Node,
    (markElements es).2 = [] ↔ watchNothingAll es = true
  | [] => by simp [markElements, watchNothingAll]
  | e :: rest => by
      have he := watchList_nil_iff e
      have hr := markElements_nil_iff rest
      simp only [markElements, List.append_eq_nil, watchNothingAll, Bool.and_eq_true,
        Bool.or_eq_true]
      refine and_congr ?_ hr
      cases hc : (markConstantAndWatchExpressions e).constant <;> simp [he]
/-- The loop over property values collects nothing when every value that is not constant
watches nothing. -/
theorem markProperties_nil_iff : ∀ ps : List (PropKey × Node),
    (markProperties ps).2 = [] ↔ watchNothingProperties ps = true
  | [] => by simp [markProperties, watchNothingProperties]
  | p :: rest => by
      have he := watchList_nil_iff p.2
      have hr := markProperties_nil_iff rest
      simp only [markProperties, List.append_eq_nil, watchNothingProperties, Bool.and_eq_true,
        Bool.or_eq_true]
      refine and_congr ?_ hr
      cases hc : (markConstantAndWatchExpressions p.2).constant <;> simp [he]
end

/-- The invariant says that the node is constant exactly when its `toWatch` is empty. -/
theorem watchInvariant_iff_nil (a : Annot) :
    watchInvariant a ↔ (a.constant = true ↔ a.watchList = []) := by
  unfold watchInvariant
  cases a.constant <;> simp

/-- The loop over elements collects something exactly when an element that is not
constant watches something. -/
theorem markElements_ne_nil_iff (es : List Node) :
    (markElements es).2 ≠ [] ↔
      ∃ e ∈ es, (markConstantAndWatchExpressions e).constant = false ∧
        (markConstantAndWatchExpressions e).watchList ≠ [] := by
  induction es with
  | nil => simp [markElements]
  | cons e rest ih =>
      simp only [markElements, ne_eq, List.append_eq_nil, not_and_or, List.mem_cons,
        exists_eq_or_imp]
      rw [← ne_eq (markElements rest).2, ih]
      cases (markConstantAndWatchExpressions e).constant <;> simp

/-- The loop over property values collects something exactly when a value that is not
constant watches something. -/
theorem markProperties_ne_nil_iff (ps : List (PropKey × Node)) :
    (markProperties ps).2 ≠ [] ↔
      ∃ p ∈ ps, (markConstantAndWatchExpressions p.2).constant = false ∧
        (markConstantAndWatchExpressions p.2).watchList ≠ [] := by
  induction ps with
  | nil => simp [markProperties]
  | cons p rest ih =>
      simp only [markProperties, ne_eq, List.append_eq_nil, not_and_or, List.mem_cons,
        exists_eq_or_imp]
      rw [← ne_eq (markProperties rest).2, ih]
      cases (markConstantAndWatchExpressions p.2).constant <;> simp

/-- The invariant on a pair `(allConstants, argsToWatch)` a loop leaves. -/
theorem loop_invariant_iff (c : Bool) (w : List Node) (P : Prop) (hne : w ≠ [] ↔ P)
    (hc : c = true → w = []) :
    ((c = true ↔ w = []) ↔ (c = true ∨ P)) := by
  cases c with
  | true => simp [hc rfl]
  | false =>
      simp only [Bool.false_eq_true, false_iff, false_or]
      exact hne

/-- C7 (as amended): the invariant holds at a node exactly when the node is constant if
and only if it is one of the nodes that watch nothing. Kind by kind: it holds at every
`Literal`, `Identifier` and call that is no filter call; it fails at every
`ThisExpression`; at a `MemberExpression`, `AssignmentExpression`, `LogicalExpression`
or `ConditionalExpression`, whose `toWatch` is the node itself, it holds exactly when
the node is not constant; a unary operation inherits it from its argument; at a binary
operation it holds exactly when both operands are constant and watch nothing or one
operand is not constant and one operand watches something; at an array, an object or a
filter call it holds exactly when the node is constant or one of its elements (property
values, arguments) that are not constant watches something. -/
theorem watchInvariant_exact :
    (∀ n : Node, (markConstantAndWatchExpressions n).watchList = [] ↔
      n.watchesNothing = true) ∧
    (∀ n : Node, watchInvariant (markConstantAndWatchExpressions n) ↔
      (markConstantAndWatchExpressions n).constant = n.watchesNothing) ∧
    (∀ value, watchInvariant (markConstantAndWatchExpressions (.Literal value))) ∧
    (∀ name, watchInvariant (markConstantAndWatchExpressions (.Identifier name))) ∧
    (∀ callee arguments,
      watchInvariant (markConstantAndWatchExpressions
        (.CallExpression callee arguments false))) ∧
    ¬ watchInvariant (markConstantAndWatchExpressions .ThisExpression) ∧
    (∀ object property computed,
      watchInvariant (markConstantAndWatchExpressions
          (.MemberExpression object property computed)) ↔
        (markConstantAndWatchExpressions
          (.MemberExpression object property computed)).constant = false) ∧
    (∀ left right,
      watchInvariant (markConstantAndWatchExpressions (.AssignmentExpression left right)) ↔
        (markConstantAndWatchExpressions (.AssignmentExpression left right)).constant =
          false) ∧
    (∀ operator left right,
      watchInvariant (markConstantAndWatchExpressions
          (.LogicalExpression operator left right)) ↔
        (markConstantAndWatchExpressions
          (.LogicalExpression operator left right)).constant = false) ∧
    (∀ test consequent alternate,
      watchInvariant (markConstantAndWatchExpressions
          (.ConditionalExpression test consequent alternate)) ↔
        (markConstantAndWatchExpressions
          (.ConditionalExpression test consequent alternate)).constant = false) ∧
    (∀ operator argument,
      watchInvariant (markConstantAndWatchExpressions (.UnaryExpression operator argument)) ↔
        watchInvariant (markConstantAndWatchExpressions argument)) ∧
    (∀ operator left right,
      watchInvariant (markConstantAndWatchExpressions
          (.BinaryExpression operator left right)) ↔
        (((markConstantAndWatchExpressions left).constant = true ∧
            (markConstantAndWatchExpressions right).constant = true) ↔
          ((markConstantAndWatchExpressions left).watchList = [] ∧
            (markConstantAndWatchExpressions right).watchList = []))) ∧
    (∀ elements,
      watchInvariant (markConstantAndWatchExpressions (.ArrayExpression elements)) ↔
        ((markConstantAndWatchExpressions (.ArrayExpression elements)).constant = true ∨
          ∃ e ∈ elements, (markConstantAndWatchExpressions e).constant = false ∧
            (markConstantAndWatchExpressions e).watchList ≠ [])) ∧
    (∀ properties,
      watchInvariant (markConstantAndWatchExpressions (.ObjectExpression properties)) ↔
        ((markConstantAndWatchExpressions (.ObjectExpression properties)).constant = true ∨
          ∃ p ∈ properties, (markConstantAndWatchExpressions p.2).constant = false ∧
            (markConstantAndWatchExpressions p.2).watchList ≠ [])) ∧
    (∀ callee arguments,
      watchInvariant (markConstantAndWatchExpressions
          (.CallExpression callee arguments true)) ↔
        ((markConstantAndWatchExpressions
            (.CallExpression callee arguments true)).constant = true ∨
          ∃ e ∈ arguments, (markConstantAndWatchExpressions e).constant = false ∧
            (markConstantAndWatchExpressions e).watchList ≠ [])) := by
  refine ⟨watchList_nil_iff, fun n => ?_, fun value => ?_, fun name => ?_,
    fun callee arguments => ?_, ?_, fun object property computed => ?_,
    fun left right => ?_, fun operator left right => ?_,
    fun test consequent alternate => ?_, fun operator argument => ?_,
    fun operator left right => ?_, fun elements => ?_, fun properties => ?_,
    fun callee arguments => ?_⟩
  · rw [watchInvariant_iff_nil, watchList_nil_iff n]
    cases (markConstantAndWatchExpressions n).constant <;> cases n.watchesNothing <;> simp
  · simp [watchInvariant, markConstantAndWatchExpressions, Annot.watchList]
  · simp [watchInvariant, markConstantAndWatchExpressions, Annot.watchList]
  · simp [watchInvariant, markConstantAndWatchExpressions, Annot.watchList]
  · simp [watchInvariant, markConstantAndWatchExpressions, Annot.watchList]
  · rw [watchInvariant_iff_nil]
    simp [markConstantAndWatchExpressions, Annot.watchList]
  · rw [watchInvariant_iff_nil]
    simp [markConstantAndWatchExpressions, Annot.watchList]
  · rw [watchInvariant_iff_nil]
    simp [markConstantAndWatchExpressions, Annot.watchList]
  · rw [watchInvariant_iff_nil]
    simp [markConstantAndWatchExpressions, Annot.watchList]
  · simp [watchInvariant, markConstantAndWatchExpressions, Annot.watchList]
  · rw [watchInvariant_iff_nil]
    simp [markConstantAndWatchExpressions, Annot.watchList]
  · rw [watchInvariant_iff_nil]
    simp only [markConstantAndWatchExpressions, Annot.watchList, Option.getD_some]
    exact loop_invariant_iff _ _ _ (markElements_ne_nil_iff elements)
      (markElements_constant elements)
  · rw [watchInvariant_iff_nil]
    simp only [markConstantAndWatchExpressions, Annot.watchList, Option.getD_some]
    exact loop_invariant_iff _ _ _ (markProperties_ne_nil_iff properties)
      (markProperties_constant properties)
  · rw [watchInvariant_iff_nil]
    simp only [markConstantAndWatchExpressions, Annot.watchList, Option.getD_some,
      Bool.true_and, ↓reduceIte]
    exact loop_invariant_iff _ _ _ (markElements_ne_nil_iff arguments)
      (markElements_constant arguments)


/-! ## An object literal that is not the last statement -/

/-- C8 (the code breaks the claim): the program `{a: 1, b: 2}; 1` is built from literals
and an object literal only, and the classifier marks it constant; but `compile` emits
its first statement as the text `{a:1,b:2} ;`, which `new Function` reads as a block
and refuses, so `compile` throws a `SyntaxError`, and so does `parse`, with or without
the marker in front: there is no evaluator and no delegate. -/
theorem literal_statement_refused :
    literalOnlyAll [.ObjectExpression [(.Identifier "a", .Literal (.num 1)),
        (.Identifier "b", .Literal (.num 2))], .Literal (.num 1)] = true ∧
    (markConstantAndWatchExpressions objectStatement).constant = true ∧
    (compile Host.bare (fun _ => objectStatement) "{a: 1, b: 2}; 1").map
      (fun fn => fn.constant) = .error .SyntaxError ∧
    (parse Host.bare (fun _ => objectStatement) (.string "{a: 1, b: 2}; 1")).map
      Parsed.watchDelegate = .error .SyntaxError ∧
    (parse Host.bare (fun _ => objectStatement) (.string "::{a: 1, b: 2}; 1")).map
      Parsed.watchDelegate = .error .SyntaxError := by
  decide!


/-! ## A computed property that is evaluated twice -/

/-- C2 (the code breaks the claim): in `a[f()]` the text of the property is spliced
twice, into the statement `ensureSafeMemberName(...)` and into the read `(v1)[...]`, so
`f` is called twice. With an `f` that answers `x` the first time and `__proto__` the
second, the guard sees `x`, the read uses `__proto__`: the member `__proto__` of `a`
(the object at address 3) is read and returned, and nothing is raised. -/
theorem computed_member_guard_bypassed :
    "__proto__" ∈ forbiddenMemberNames ∧
    (Host.toggling.apply 0 (.ref 0) [] togglingHeap).1 = .str "x" ∧
    (Host.toggling.apply 0 (.ref 0) []
      (Host.toggling.apply 0 (.ref 0) [] togglingHeap).2).1 = .str "__proto__" ∧
    ((compile Host.toggling (fun _ => computedCall) "a[f()]").map
      fun fn => fn.code.observe Host.toggling (.ref 0) .undefined togglingHeap) =
    .ok (.ok (.ref 3),
      [.read (.ref 0) "a", .read (.ref 0) "f", .read (.ref 0) "f", .read (.ref 0) "f",
       .read (.ref 0) "f", .invoke (.ref 2) (.ref 0) [], .read (.ref 0) "f",
       .read (.ref 0) "f", .invoke (.ref 2) (.ref 0) [], .read (.ref 1) "__proto__"]) := by
  decide!

end Parse
